import Mathlib

/-!
# bmstu::list — a doubly linked list with two sentinel nodes

Shallow embedding of `src/bmstu_list.h`.

Memory model.  Nodes live in a heap addressed by natural numbers; a C++
`node *` is an `Option Nat` (`none` is `nullptr`).  The three fields of
`struct node` are three maps of the heap, `live` records which addresses are
allocated and not yet deleted, and `brk` is the next address `new` hands out:
`new` never fails and never hands out an address twice.  Every access through
a pointer checks that the pointer is non-null and live; otherwise the
operation ends in `Exn.undefined` (the C++ behaviour is undefined there).
The C++ exceptions are the remaining constructors of `Exn`.  Loops carry a
fuel argument and end in `Exn.out_of_fuel` when it is used up.

A `list` object is the triple of its data members; an operation that changes
the members returns the new triple next to the new heap.

`size_t` is 64 bits wide: `++size_`, `--size_` and `size_ += n` wrap
modulo `2 ^ 64`.  `int` is 32 bits wide: the loop counter `auto i = 1` of the
iterator's `operator+` and `operator-` overflows at `2 ^ 31 - 1`, which is
undefined behaviour.
-/

namespace bmstu

/-- Ways an operation can end without a result. -/
inductive Exn where
  /-- `std::logic_error("You can't access the element after tail!")` -/
  | after_tail
  /-- `std::logic_error("You can't access the element before head!")` -/
  | before_head
  /-- `std::logic_error("You can't insert an element after end")` -/
  | insert_after_end
  /-- `std::logic_error("List is empty")` -/
  | list_is_empty
  /-- an exception left a `noexcept` function: `std::terminate` -/
  | terminate
  /-- null or dangling pointer dereferenced, or an `assert` failed -/
  | undefined
  /-- the loop bound of the model was reached -/
  | out_of_fuel
  deriving DecidableEq

/-- `size_t` arithmetic is modulo this number. -/
def size_t_mod : Nat := 2 ^ 64

/-- The heap of `node` objects, one map per field of `struct node`. -/
structure Heap (T : Type) where
  value_ : Nat → T
  next_node : Nat → Option Nat
  prev_node : Nat → Option Nat
  live : Nat → Bool
  brk : Nat

variable {T : Type}

/-- A heap in which nothing has been allocated. -/
def Heap.empty [Inhabited T] : Heap T :=
  ⟨fun _ => default, fun _ => none, fun _ => none, fun _ => false, 0⟩

/-- Field write `a->next_node = q` on a live address. -/
def Heap.upd_next (h : Heap T) (a : Nat) (q : Option Nat) : Heap T :=
  { h with next_node := Function.update h.next_node a q }

/-- Field write `a->prev_node = q` on a live address. -/
def Heap.upd_prev (h : Heap T) (a : Nat) (q : Option Nat) : Heap T :=
  { h with prev_node := Function.update h.prev_node a q }

/-- Field write `a->value_ = v` on a live address. -/
def Heap.upd_value (h : Heap T) (a : Nat) (v : T) : Heap T :=
  { h with value_ := Function.update h.value_ a v }

/-- Read `p->next_node`. -/
def Heap.get_next (h : Heap T) : Option Nat → Except Exn (Option Nat)
  | some a => if h.live a then .ok (h.next_node a) else .error .undefined
  | none => .error .undefined

/-- Read `p->prev_node`. -/
def Heap.get_prev (h : Heap T) : Option Nat → Except Exn (Option Nat)
  | some a => if h.live a then .ok (h.prev_node a) else .error .undefined
  | none => .error .undefined

/-- Read `p->value_`. -/
def Heap.get_value (h : Heap T) : Option Nat → Except Exn T
  | some a => if h.live a then .ok (h.value_ a) else .error .undefined
  | none => .error .undefined

/-- Write `p->next_node = q`. -/
def Heap.set_next (h : Heap T) (p q : Option Nat) : Except Exn (Heap T) :=
  match p with
  | some a => if h.live a then .ok (h.upd_next a q) else .error .undefined
  | none => .error .undefined

/-- Write `p->prev_node = q`. -/
def Heap.set_prev (h : Heap T) (p q : Option Nat) : Except Exn (Heap T) :=
  match p with
  | some a => if h.live a then .ok (h.upd_prev a q) else .error .undefined
  | none => .error .undefined

/-- Write `p->value_ = v`. -/
def Heap.set_value (h : Heap T) (p : Option Nat) (v : T) : Except Exn (Heap T) :=
  match p with
  | some a => if h.live a then .ok (h.upd_value a v) else .error .undefined
  | none => .error .undefined

/-- `new node(prev, value, next)`: the new address and the heap holding it. -/
def Heap.new_node (h : Heap T) (prev : Option Nat) (value : T) (next : Option Nat) :
    Option Nat × Heap T :=
  (some h.brk,
   { value_ := Function.update h.value_ h.brk value
     next_node := Function.update h.next_node h.brk next
     prev_node := Function.update h.prev_node h.brk prev
     live := Function.update h.live h.brk true
     brk := h.brk + 1 })

/-- `delete p`; deleting `nullptr` does nothing. -/
def Heap.delete (h : Heap T) : Option Nat → Except Exn (Heap T)
  | some a =>
    if h.live a then .ok { h with live := Function.update h.live a false }
    else .error .undefined
  | none => .ok h

/-- `list::list_iterator`: a pointer to one node. -/
structure list_iterator where
  node_ : Option Nat
  deriving DecidableEq

/-- `operator*`. -/
def list_iterator.deref (h : Heap T) (it : list_iterator) : Except Exn T :=
  h.get_value it.node_

/-- `operator++`: throws at the node whose `next_node` is null. -/
def list_iterator.incr (h : Heap T) (it : list_iterator) : Except Exn list_iterator := do
  let n ← h.get_next it.node_
  match n with
  | none => .error .after_tail
  | some a => .ok ⟨some a⟩

/-- `operator--`: throws at the node whose `prev_node` is null. -/
def list_iterator.decr (h : Heap T) (it : list_iterator) : Except Exn list_iterator := do
  let n ← h.get_prev it.node_
  match n with
  | none => .error .before_head
  | some a => .ok ⟨some a⟩

/-- What a `noexcept` function makes of the outcome of its body. -/
def noexcept {α : Type} : Except Exn α → Except Exn α
  | .ok a => .ok a
  | .error .undefined => .error .undefined
  | .error .out_of_fuel => .error .out_of_fuel
  | .error _ => .error .terminate

/-- `INT_MAX`: the loop counter `auto i = 1` of `operator+` and `operator-` is
an `int`, and `++i` at `INT_MAX` is a signed overflow. -/
def int_max : Nat := 2 ^ 31 - 1

/-- The loop of `operator+(value)`, `for (auto i = 1; i <= value; ++i) ++copy`,
with the counter at `i` and `n` rounds still to run (`n = value + 1 - i`;
`value` is not negative in any use made of it here): a round does `++copy`
and then `++i`, which is undefined when `i` is `INT_MAX`. -/
def list_iterator.plus_loop (h : Heap T) :
    Nat → Nat → list_iterator → Except Exn list_iterator
  | 0, _, copy => .ok copy
  | n + 1, i, copy => do
    let copy ← copy.incr h
    if i = int_max then .error .undefined
    else plus_loop h n (i + 1) copy

/-- `operator+(value)`, `noexcept`. -/
def list_iterator.plus (h : Heap T) (it : list_iterator) (value : Nat) :
    Except Exn list_iterator :=
  noexcept (list_iterator.plus_loop h value 1 it)

/-- The loop of `operator-(value)`, `for (auto i = 1; i <= value; ++i) --copy`,
with the counter at `i` and `n` rounds still to run. -/
def list_iterator.minus_loop (h : Heap T) :
    Nat → Nat → list_iterator → Except Exn list_iterator
  | 0, _, copy => .ok copy
  | n + 1, i, copy => do
    let copy ← copy.decr h
    if i = int_max then .error .undefined
    else minus_loop h n (i + 1) copy

/-- `operator-(value)`, `noexcept`. -/
def list_iterator.minus (h : Heap T) (it : list_iterator) (value : Nat) :
    Except Exn list_iterator :=
  noexcept (list_iterator.minus_loop h value 1 it)

/-- The data members of `list`: `size_`, `tail_`, `head_`. -/
structure list where
  size_ : Nat
  tail_ : Option Nat
  head_ : Option Nat
  deriving DecidableEq

/-- The members as their default member initialisers leave them. -/
def list.uninit : list := ⟨0, none, none⟩

/-- `list()`: allocates `tail_`, then `head_`, and links them. -/
def list.ctor [Inhabited T] (h : Heap T) : Except Exn (Heap T × list) := do
  let (tl, h) := h.new_node none default none
  let (hd, h) := h.new_node none default none
  let h ← h.set_next hd tl
  let h ← h.set_prev tl hd
  .ok (h, ⟨0, tl, hd⟩)

/-- `push_back(value)`. -/
def list.push_back (h : Heap T) (l : list) (value : T) : Except Exn (Heap T × list) := do
  let last ← h.get_prev l.tail_
  let p ← h.get_prev l.tail_
  let (new_last, h) := h.new_node p value l.tail_
  let h ← h.set_prev l.tail_ new_last
  let h ← h.set_next last new_last
  .ok (h, { l with size_ := (l.size_ + 1) % size_t_mod })

/-- `empty()`. -/
def list.empty (l : list) : Bool := l.size_ == 0

/-- `size()`. -/
def list.size (l : list) : Nat := l.size_

/-- `swap(other)`: the pair is (`*this`, `other`) after the call. -/
def list.swap (l other : list) : list × list := (other, l)

/-- `begin()`. -/
def list.begin (h : Heap T) (l : list) : Except Exn list_iterator := do
  let n ← h.get_next l.head_
  .ok ⟨n⟩

/-- `end()`. -/
def list.end_ (l : list) : list_iterator := ⟨l.tail_⟩

/-- The loop of `clear()`: unlinks and deletes the node after `head_` until
`head_->next_node == tail_`. -/
def list.clear_loop (l : list) : Nat → Heap T → Except Exn (Heap T)
  | 0, _ => .error .out_of_fuel
  | fuel + 1, h => do
    let n ← h.get_next l.head_
    if n = l.tail_ then .ok h
    else do
      let next ← h.get_next l.head_
      let nn ← h.get_next next
      let h ← h.set_next l.head_ nn
      let h ← h.delete next
      clear_loop l fuel h

/-- `clear()`. -/
def list.clear (fuel : Nat) (h : Heap T) (l : list) : Except Exn (Heap T × list) :=
  if l.empty then .ok (h, l)
  else do
    let h ← list.clear_loop l fuel h
    let h ← h.set_prev l.tail_ l.head_
    .ok (h, { l with size_ := 0 })

/-- `~list()`: `clear()`, then both sentinels are deleted. -/
def list.dtor (fuel : Nat) (h : Heap T) (l : list) : Except Exn (Heap T) := do
  let (h, l) ← list.clear fuel h l
  let h ← h.delete l.tail_
  h.delete l.head_

/-- The body of `list(std::initializer_list<T>)`: `push_back` of every value. -/
def list.ilist_loop : List T → Heap T → list → Except Exn (Heap T × list)
  | [], h, tmp => .ok (h, tmp)
  | val :: values, h, tmp => do
    let (h, tmp) ← tmp.push_back h val
    ilist_loop values h tmp

/-- `list(std::initializer_list<T> values)`: fills a temporary, swaps it
with the new object, whose members are the default member initialisers, and
destroys the temporary (its `clear()` returns at once, `size_` being 0, so the
destructor needs no fuel). -/
def list.from_ilist [Inhabited T] (h : Heap T) (values : List T) :
    Except Exn (Heap T × list) := do
  let (h, tmp) ← list.ctor h
  let (h, tmp) ← list.ilist_loop values h tmp
  let (this, tmp) := list.swap list.uninit tmp
  let h ← list.dtor 0 h tmp
  .ok (h, this)

/-- The range-for loop `for (const auto &item : other) dst.push_back(item)`:
`it` runs from `other.begin()` to `end_ = other.end()`. -/
def list.append_loop (end_ : list_iterator) :
    Nat → Heap T → list → list_iterator → Except Exn (Heap T × list)
  | 0, _, _, _ => .error .out_of_fuel
  | fuel + 1, h, dst, it =>
    if it = end_ then .ok (h, dst)
    else do
      let item ← it.deref h
      let (h, dst) ← dst.push_back h item
      let it ← it.incr h
      append_loop end_ fuel h dst it

/-- `list(const list &other)` for `this != &other`: as the initializer-list
constructor, with the items of `other` read by the range-for loop. -/
def list.copy_ctor [Inhabited T] (fuel : Nat) (h : Heap T) (other : list) :
    Except Exn (Heap T × list) := do
  let (h, tmp) ← list.ctor h
  let b ← other.begin h
  let (h, tmp) ← list.append_loop other.end_ fuel h tmp b
  let (this, tmp) := list.swap list.uninit tmp
  let h ← list.dtor 0 h tmp
  .ok (h, this)

/-- `list(list &&other)`: `swap(other)` on the new object, whose members are
the default member initialisers; the pair is (the new object, `other`)
afterwards. -/
def list.move_ctor (other : list) : list × list :=
  list.swap list.uninit other

/-- `operator[](pos)`: `*(begin() + pos)`, with the `int` counter of
`operator+`. -/
def list.index (h : Heap T) (l : list) (pos : Nat) : Except Exn T := do
  let b ← l.begin h
  let it ← b.plus h pos
  it.deref h

/-- The loop of `operator==`. -/
def list.eq_loop [DecidableEq T] (h : Heap T) (l_e r_e : list_iterator) :
    Nat → list_iterator → list_iterator → Except Exn Bool
  | 0, _, _ => .error .out_of_fuel
  | fuel + 1, l_b, r_b =>
    if l_b ≠ l_e ∧ r_b ≠ r_e then do
      let a ← l_b.deref h
      let b ← r_b.deref h
      if a ≠ b then .ok false
      else do
        let l_b ← l_b.incr h
        let r_b ← r_b.incr h
        eq_loop h l_e r_e fuel l_b r_b
    else .ok true

/-- `operator==(l, r)`. -/
def list.operator_eq [DecidableEq T] (fuel : Nat) (h : Heap T) (l r : list) :
    Except Exn Bool :=
  if l.size_ ≠ r.size_ then .ok false
  else do
    let l_b ← l.begin h
    let r_b ← r.begin h
    list.eq_loop h l.end_ r.end_ fuel l_b r_b

/-- The loop and the final `return` of `lexicographical_compare_`. -/
def list.lex_loop [LT T] [DecidableRel (fun (a b : T) => a < b)] (h : Heap T)
    (l_e r_e : list_iterator) : Nat → list_iterator → list_iterator → Except Exn Bool
  | 0, _, _ => .error .out_of_fuel
  | fuel + 1, fl, fr =>
    if fl ≠ l_e ∧ fr ≠ r_e then do
      let a ← fl.deref h
      let b ← fr.deref h
      if a < b then .ok true
      else if b < a then .ok false
      else do
        let fl ← fl.incr h
        let fr ← fr.incr h
        lex_loop h l_e r_e fuel fl fr
    else .ok (decide (fr = r_e) && decide (fl = l_e))

/-- `lexicographical_compare_(left, right)`. -/
def list.lexicographical_compare_ [LT T] [DecidableRel (fun (a b : T) => a < b)]
    (fuel : Nat) (h : Heap T) (left right : list) : Except Exn Bool := do
  let fl ← left.begin h
  let fr ← right.begin h
  list.lex_loop h left.end_ right.end_ fuel fl fr

/-- `operator<(left, right)`. -/
def list.operator_lt [LT T] [DecidableRel (fun (a b : T) => a < b)]
    (fuel : Nat) (h : Heap T) (left right : list) : Except Exn Bool :=
  list.lexicographical_compare_ fuel h left right

/-- The loop condition of `revers_v` and `revers_n`:
`it_b != it_e && it_b != (it_e - 1)`. -/
def revers_cond (h : Heap T) (it_b it_e : list_iterator) : Except Exn Bool :=
  if it_b ≠ it_e then do
    let p ← it_e.minus h 1
    .ok (decide (it_b ≠ p))
  else .ok false

/-- The loop of `revers_v`: `std::swap(*it_b, *it_e)`, then `++it_b, --it_e`. -/
def list.revers_v_loop : Nat → Heap T → list_iterator → list_iterator → Except Exn (Heap T)
  | 0, _, _, _ => .error .out_of_fuel
  | fuel + 1, h, it_b, it_e => do
    let c ← revers_cond h it_b it_e
    if c then do
      let vb ← it_b.deref h
      let ve ← it_e.deref h
      let h ← h.set_value it_b.node_ ve
      let h ← h.set_value it_e.node_ vb
      let it_b ← it_b.incr h
      let it_e ← it_e.decr h
      revers_v_loop fuel h it_b it_e
    else .ok h

/-- `revers_v()`. -/
def list.revers_v (fuel : Nat) (h : Heap T) (l : list) : Except Exn (Heap T) :=
  if l.empty then .ok h
  else do
    let it_b ← l.begin h
    let it_e ← l.end_.minus h 1
    list.revers_v_loop fuel h it_b it_e

/-- The iterators `it_b`, `it_e`, `it_h`, `it_t` of `revers_n`. -/
structure revers_n_state where
  it_b : list_iterator
  it_e : list_iterator
  it_h : list_iterator
  it_t : list_iterator

/-- The loop of `revers_n`; returns the heap and the iterators at loop exit. -/
def list.revers_n_loop : Nat → Heap T → revers_n_state → Except Exn (Heap T × revers_n_state)
  | 0, _, _ => .error .out_of_fuel
  | fuel + 1, h, s => do
    let c ← revers_cond h s.it_b s.it_e
    if c then do
      let tmp_next_node ← h.get_next s.it_b.node_
      let tmp_prev_node ← h.get_prev s.it_e.node_
      let bp ← h.get_prev s.it_b.node_
      let h ← h.set_prev s.it_e.node_ bp
      let en ← h.get_next s.it_e.node_
      let h ← h.set_next s.it_b.node_ en
      let h ← h.set_next s.it_e.node_ tmp_next_node
      let h ← h.set_prev s.it_b.node_ tmp_prev_node
      let h ← h.set_prev tmp_next_node s.it_e.node_
      let h ← h.set_next tmp_prev_node s.it_b.node_
      let it_tmp := s.it_e
      let it_e := s.it_b
      let it_b := it_tmp
      let h ← h.set_next s.it_h.node_ it_b.node_
      let h ← h.set_prev s.it_t.node_ it_e.node_
      let it_b ← it_b.incr h
      let it_e ← it_e.decr h
      let it_h ← s.it_h.incr h
      let it_t ← s.it_t.decr h
      revers_n_loop fuel h ⟨it_b, it_e, it_h, it_t⟩
    else .ok (h, s)

/-- The closing block of `revers_n`: the relink done when `it_b == (it_e - 1)`. -/
def list.revers_n_final (h : Heap T) (s : revers_n_state) : Except Exn (Heap T) := do
  let p ← s.it_e.minus h 1
  if s.it_b = p then do
    let tmp ← h.get_next s.it_h.node_
    let tp ← h.get_prev s.it_t.node_
    let h ← h.set_next s.it_h.node_ tp
    let h ← h.set_prev s.it_t.node_ tmp
    let h ← h.set_next s.it_b.node_ s.it_t.node_
    let h ← h.set_prev s.it_b.node_ s.it_e.node_
    let h ← h.set_next s.it_e.node_ s.it_b.node_
    h.set_prev s.it_e.node_ s.it_h.node_
  else .ok h

/-- `revers_n(it_b, it_t)`. -/
def list.revers_n (fuel : Nat) (h : Heap T) (l : list) (it_b it_t : list_iterator) :
    Except Exn (Heap T) :=
  if l.size_ < 2 then .ok h
  else do
    let it_h ← it_b.minus h 1
    let it_e ← it_t.minus h 1
    let (h, s) ← list.revers_n_loop fuel h ⟨it_b, it_e, it_h, it_t⟩
    list.revers_n_final h s

/-- The loop of `remove`: `current = it_b.node_; ++it_b; --size_; delete current`. -/
def list.remove_loop (it_e : list_iterator) :
    Nat → Heap T → list → list_iterator → Except Exn (Heap T × list × list_iterator)
  | 0, _, _, _ => .error .out_of_fuel
  | fuel + 1, h, l, it_b =>
    if it_b ≠ it_e then do
      let current := it_b.node_
      let it_b ← it_b.incr h
      let l := { l with size_ := (l.size_ + (size_t_mod - 1)) % size_t_mod }
      let h ← h.delete current
      remove_loop it_e fuel h l it_b
    else .ok (h, l, it_b)

/-- `remove(it_b, it_e)`. -/
def list.remove (fuel : Nat) (h : Heap T) (l : list) (it_b it_e : list_iterator) :
    Except Exn (Heap T × list) := do
  let prev ← h.get_prev it_b.node_
  let (h, l, it_b) ← list.remove_loop it_e fuel h l it_b
  let h ← h.set_prev it_b.node_ prev
  let h ← h.set_next prev it_b.node_
  .ok (h, l)

/-- `operator+=(other)` for `this != &other`: every item of `other` is
pushed back, then `size_ += other.size_`. -/
def list.operator_plus_eq (fuel : Nat) (h : Heap T) (l other : list) :
    Except Exn (Heap T × list) := do
  let b ← other.begin h
  let (h, l) ← list.append_loop other.end_ fuel h l b
  .ok (h, { l with size_ := (l.size_ + other.size_) % size_t_mod })

/-- `operator+(left, right)`: `list result(left); result += right; return result;`
(the returned object has the members of `result`, whether the return is elided
or done by the move constructor). -/
def list.operator_plus [Inhabited T] (fuel : Nat) (h : Heap T) (left right : list) :
    Except Exn (Heap T × list) := do
  let (h, result) ← list.copy_ctor fuel h left
  list.operator_plus_eq fuel h result right

/-- Forward traversal as the tests do it:
`for (it = begin(); it != end(); ++it)`, collecting what `f` reads at `it`. -/
def list.walk {α : Type} (h : Heap T) (f : list_iterator → Except Exn α) (end_ : list_iterator) :
    Nat → list_iterator → Except Exn (List α)
  | 0, _ => .error .out_of_fuel
  | fuel + 1, it =>
    if it = end_ then .ok []
    else do
      let a ← f it
      let it ← it.incr h
      let rest ← walk h f end_ fuel it
      .ok (a :: rest)

/-- The forward value sequence of a list: `*it` for `it` from `begin()` to `end()`. -/
def list.to_list (fuel : Nat) (h : Heap T) (l : list) : Except Exn (List T) := do
  let b ← l.begin h
  list.walk h (fun it => it.deref h) l.end_ fuel b

/-- The nodes of a list in forward order: `it.node_` for `it` from `begin()` to `end()`. -/
def list.node_list (fuel : Nat) (h : Heap T) (l : list) : Except Exn (List (Option Nat)) := do
  let b ← l.begin h
  list.walk h (fun it => .ok it.node_) l.end_ fuel b

/-! ## Operations whose exceptions are observed together with the state

An exception of the operations below is paired with the state the object is
in when the exception is thrown, so that "the call failed and changed
nothing" is a statement about the operation. -/

/-- An outcome of a heap access inside an operation on the state `s`: an error
is passed on together with the state at that point. -/
def with_state {σ α : Type} (s : σ) : Except Exn α → Except (Exn × σ) α
  | .ok a => .ok a
  | .error e => .error (e, s)

/-- `operator++` on the iterator object: the exception is thrown before
`node_` is assigned and carries the iterator as it is then. -/
def list_iterator.operator_incr (h : Heap T) (it : list_iterator) :
    Except (Exn × list_iterator) list_iterator := do
  let n ← with_state it (h.get_next it.node_)
  match n with
  | none => .error (.after_tail, it)
  | some a => .ok ⟨some a⟩

/-- `operator--` on the iterator object: the exception is thrown before
`node_` is assigned and carries the iterator as it is then. -/
def list_iterator.operator_decr (h : Heap T) (it : list_iterator) :
    Except (Exn × list_iterator) list_iterator := do
  let n ← with_state it (h.get_prev it.node_)
  match n with
  | none => .error (.before_head, it)
  | some a => .ok ⟨some a⟩

/-- `operator+=(value)`, `noexcept`: returns `(*this) + value`; the pair is
(the returned iterator, `*this` after the call). -/
def list_iterator.operator_plus_eq (h : Heap T) (it : list_iterator) (value : Nat) :
    Except Exn (list_iterator × list_iterator) :=
  noexcept (do
    let r ← it.plus h value
    .ok (r, it))

/-- The loop of `operator-(end, begin)`: `for (result = 0; copy != end; ++result)
copy += 1;`.  `result` is a `std::ptrdiff_t`: `++result` at `2 ^ 63 - 1` is
undefined. -/
def list_iterator.distance_loop (h : Heap T) (end_ : list_iterator) :
    Nat → Nat → list_iterator → Except Exn Nat
  | 0, _, _ => .error .out_of_fuel
  | fuel + 1, result, copy =>
    if copy ≠ end_ then do
      let (_, copy) ← copy.operator_plus_eq h 1
      if result + 1 < 2 ^ 63 then distance_loop h end_ fuel (result + 1) copy
      else .error .undefined
    else .ok result

/-- `operator-(end, begin)`: the distance from `begin` to `end`. -/
def list_iterator.distance (fuel : Nat) (h : Heap T) (end_ begin : list_iterator) :
    Except Exn Nat :=
  list_iterator.distance_loop h end_ fuel 0 begin

/-- `push_front(value)`. -/
def list.push_front (h : Heap T) (l : list) (value : T) : Except Exn (Heap T × list) := do
  let first ← h.get_next l.head_
  let (new_first, h) := h.new_node l.head_ value first
  let h ← h.set_next l.head_ new_first
  let h ← h.set_prev first new_first
  .ok (h, { l with size_ := (l.size_ + 1) % size_t_mod })

/-- `insert(pos, value)`: the returned iterator, the heap and the list. -/
def list.insert (h : Heap T) (l : list) (pos : list_iterator) (value : T) :
    Except (Exn × Heap T × list) (list_iterator × Heap T × list) := do
  let n ← with_state (h, l) (h.get_next pos.node_)
  if n = none then .error (.insert_after_end, h, l)
  else do
    let pn ← with_state (h, l) (h.get_next pos.node_)
    let (new_node, h) := h.new_node pos.node_ value pn
    let pn ← with_state (h, l) (h.get_next pos.node_)
    let h ← with_state (h, l) (h.set_prev pn new_node)
    let h ← with_state (h, l) (h.set_next pos.node_ new_node)
    let l := { l with size_ := (l.size_ + 1) % size_t_mod }
    .ok (⟨new_node⟩, h, l)

/-- `pop()`: the returned value, the heap and the list. -/
def list.pop (h : Heap T) (l : list) :
    Except (Exn × Heap T × list) (T × Heap T × list) :=
  if l.empty then .error (.list_is_empty, h, l)
  else do
    let to_pop ← with_state (h, l) (h.get_prev l.tail_)
    let value ← with_state (h, l) (h.get_value to_pop)
    let pp ← with_state (h, l) (h.get_prev to_pop)
    let h ← with_state (h, l) (h.set_next pp l.tail_)
    let pp ← with_state (h, l) (h.get_prev to_pop)
    let h ← with_state (h, l) (h.set_prev l.tail_ pp)
    let h ← with_state (h, l) (h.delete to_pop)
    let l := { l with size_ := (l.size_ + (size_t_mod - 1)) % size_t_mod }
    .ok (value, h, l)

/-- The free function `swap(l, r)`: `l.swap(r)`. -/
def swap (l r : list) : list × list := l.swap r

/-- `k` steps forward: `++` applied `k` times. -/
def list_iterator.incr_times (h : Heap T) : Nat → list_iterator → Except Exn list_iterator
  | 0, it => .ok it
  | k + 1, it => do
    let it ← it.incr h
    incr_times h k it

/-- `k` steps backward: `--` applied `k` times. -/
def list_iterator.decr_times (h : Heap T) : Nat → list_iterator → Except Exn list_iterator
  | 0, it => .ok it
  | k + 1, it => do
    let it ← it.decr h
    decr_times h k it


/-- The first node of `ns` followed by `q`: where `begin()` points when `ns`
are the interior nodes and `q` is `tail_`. -/
def first_of : List Nat → Nat → Nat
  | [], q => q
  | n :: _, _ => n

/-- The last node of `p` followed by `ns`: where `end() - 1` points when `ns`
are the interior nodes and `p` is `head_`. -/
def last_of : Nat → List Nat → Nat
  | p, [] => p
  | _, n :: ns => last_of n ns

/-- Nodes `x` and `y` are neighbours: `x->next_node == y` and `y->prev_node == x`. -/
def Link (h : Heap T) (x y : Nat) : Prop :=
  h.next_node x = some y ∧ h.prev_node y = some x

instance (h : Heap T) (x y : Nat) : Decidable (Link h x y) :=
  inferInstanceAs (Decidable (h.next_node x = some y ∧ h.prev_node y = some x))

/-- The ring of list `l` in heap `h` is `hd`, the interior nodes `ns` in
forward order, `tl`: the sentinels are `hd` and `tl`, all nodes are distinct,
allocated (below `brk`) and not deleted, each is linked with the next in both
directions, `hd->prev_node` and `tl->next_node` are null. -/
def Linked (h : Heap T) (l : list) (hd : Nat) (ns : List Nat) (tl : Nat) : Prop :=
  l.head_ = some hd ∧ l.tail_ = some tl ∧ (hd :: ns ++ [tl]).Nodup ∧
  (∀ a ∈ hd :: ns ++ [tl], h.live a = true ∧ a < h.brk) ∧
  List.Chain' (Link h) (hd :: ns ++ [tl]) ∧
  h.prev_node hd = none ∧ h.next_node tl = none

/-- The invariant of the data model: the ring is `Linked` and `size_` is the
number of interior nodes (a `size_t`). -/
def WellFormed (h : Heap T) (l : list) (hd : Nat) (ns : List Nat) (tl : Nat) : Prop :=
  Linked h l hd ns tl ∧ l.size_ = ns.length ∧ l.size_ < size_t_mod

/-- The invariant of the data model in the words of the specification, for a
list with the sentinels `hd` and `tl` and the interior nodes `ns`:
`head.prev` and `tail.next` are null; every interior node `n` has
`n.prev.next == n` and `n.next.prev == n`; the chain from `head_` by
`next_node` arrives at `tail_` after the `size_` interior nodes, that is,
after `size_ + 1` links, of which `size_` start at `begin()` or later, and
at no other number of steps; likewise the chain from `tail_` by `prev_node`
arrives at `head_`. -/
def SpecInvariant (h : Heap T) (l : list) (hd : Nat) (ns : List Nat) (tl : Nat) : Prop :=
  l.head_ = some hd ∧ l.tail_ = some tl ∧
  h.prev_node hd = none ∧ h.next_node tl = none ∧
  (∀ n ∈ ns, (∃ p, h.prev_node n = some p ∧ h.next_node p = some n) ∧
    (∃ q, h.next_node n = some q ∧ h.prev_node q = some n)) ∧
  (∀ k, list_iterator.incr_times h k ⟨some hd⟩ = .ok ⟨some tl⟩ ↔ k = l.size_ + 1) ∧
  (∀ k, list_iterator.decr_times h k ⟨some tl⟩ = .ok ⟨some hd⟩ ↔ k = l.size_ + 1)

/-! ## Lists built by the constructors, for concrete runs -/

/-- The list `values` built by the initializer-list constructor in an empty heap. -/
def one_list (values : List Nat) : Except Exn (Heap Nat × list) :=
  list.from_ilist (Heap.empty : Heap Nat) values

/-- Two lists built one after the other by the initializer-list constructor. -/
def two_lists (xs ys : List Nat) : Except Exn (Heap Nat × list × list) := do
  let (h, left) ← list.from_ilist (Heap.empty : Heap Nat) xs
  let (h, right) ← list.from_ilist h ys
  .ok (h, left, right)

/-- Value sequence and `size()` of `left + right`. -/
def plus_example (xs ys : List Nat) : Except Exn (List Nat × Nat) := do
  let (h, left, right) ← two_lists xs ys
  let (h, result) ← list.operator_plus (xs.length + ys.length + 1) h left right
  let v ← result.to_list (xs.length + ys.length + 1) h
  .ok (v, result.size)

/-- Value sequence and `size()` of `left` after `left += right`, and the value
sequence of `right`. -/
def plus_eq_example (xs ys : List Nat) : Except Exn (List Nat × Nat × List Nat) := do
  let (h, left, right) ← two_lists xs ys
  let (h, left) ← list.operator_plus_eq (ys.length + 1) h left right
  let v ← left.to_list (xs.length + ys.length + 1) h
  let w ← right.to_list (ys.length + 1) h
  .ok (v, left.size, w)

/-- The outcome of `left < right`. -/
def lt_example (xs ys : List Nat) : Except Exn Bool := do
  let (h, left, right) ← two_lists xs ys
  list.operator_lt (xs.length + ys.length + 1) h left right

/-- The outcome of `l < l`. -/
def lt_self_example (xs : List Nat) : Except Exn Bool := do
  let (h, l) ← one_list xs
  list.operator_lt (xs.length + 1) h l l

/-- The value sequence after `revers_v()`. -/
def revers_v_example (xs : List Nat) : Except Exn (List Nat) := do
  let (h, l) ← one_list xs
  let h ← l.revers_v (xs.length + 1) h
  l.to_list (xs.length + 1) h

/-- Value sequence and `size()` after `remove(begin() + i, begin() + j)`. -/
def remove_example (xs : List Nat) (i j : Nat) : Except Exn (List Nat × Nat) := do
  let (h, l) ← one_list xs
  let b ← l.begin h
  let it_b ← b.plus h i
  let it_e ← b.plus h j
  let (h, l) ← l.remove (xs.length + 1) h it_b it_e
  let v ← l.to_list (xs.length + 1) h
  .ok (v, l.size)

/-- The value sequence after `revers_n(begin(), end())`. -/
def revers_n_example (xs : List Nat) : Except Exn (List Nat) := do
  let (h, l) ← one_list xs
  let b ← l.begin h
  let h ← l.revers_n (xs.length + 1) h b l.end_
  l.to_list (xs.length + 1) h

/-- The outcome of `end() - begin()` with the given fuel. -/
def distance_example (xs : List Nat) (fuel : Nat) : Except Exn Nat := do
  let (h, l) ← one_list xs
  let b ← l.begin h
  list_iterator.distance fuel h l.end_ b

/-- Value sequence and `size()` after `insert(end() - 1, v)`, or the exception. -/
def insert_before_end_example (xs : List Nat) (v : Nat) : Except Exn (List Nat × Nat) := do
  let (h, l) ← one_list xs
  let pos ← l.end_.minus h 1
  match l.insert h pos v with
  | .ok (_, h, l) => do
    let w ← l.to_list (xs.length + 2) h
    .ok (w, l.size)
  | .error (e, _) => .error e

/-- The value `pop()` returns, and value sequence and `size()` after it. -/
def pop_example (xs : List Nat) : Except Exn (Nat × List Nat × Nat) := do
  let (h, l) ← one_list xs
  match l.pop h with
  | .ok (v, h, l) => do
    let w ← l.to_list (xs.length + 1) h
    .ok (v, w, l.size)
  | .error (e, _) => .error e

/-- `pop()` called `k` times, the returned values dropped. -/
def pop_times : Nat → Heap Nat → list → Except Exn (Heap Nat × list)
  | 0, h, l => .ok (h, l)
  | k + 1, h, l =>
    match l.pop h with
    | .ok (_, h, l) => pop_times k h l
    | .error (e, _) => .error e

/-- The list `a` after `list a(xs); a += list(ys);` and `k` times `a.pop()`. -/
def plus_eq_then_pops (xs ys : List Nat) (k : Nat) : Except Exn (Heap Nat × list) := do
  let (h, left, right) ← two_lists xs ys
  let (h, left) ← list.operator_plus_eq (ys.length + 1) h left right
  pop_times k h left

/-- Value sequence and `size()` of that list. -/
def plus_eq_then_pops_state (xs ys : List Nat) (k : Nat) : Except Exn (List Nat × Nat) := do
  let (h, l) ← plus_eq_then_pops xs ys k
  let v ← l.to_list (xs.length + ys.length + 1) h
  .ok (v, l.size)

/-- The value sequence of that list after `revers_v()`. -/
def revers_v_after_pops_example (xs ys : List Nat) (k : Nat) : Except Exn (List Nat) := do
  let (h, l) ← plus_eq_then_pops xs ys k
  let h ← l.revers_v (xs.length + ys.length + 1) h
  l.to_list (xs.length + ys.length + 1) h

/-- One more `pop()` on that list: the value it returns, and value sequence
and `size()` after it, or the exception. -/
def pop_after_pops_example (xs ys : List Nat) (k : Nat) :
    Except Exn (Nat × List Nat × Nat) := do
  let (h, l) ← plus_eq_then_pops xs ys k
  match l.pop h with
  | .ok (v, h, l) => do
    let w ← l.to_list (xs.length + ys.length + 1) h
    .ok (v, w, l.size)
  | .error (e, _) => .error e

/-- `list src = list(xs) + list(ys); list cp(src);`: `src.size()`, `cp.size()`,
the outcome of `cp == src`, and the value sequences of `cp` and of `src`. -/
def copy_of_sum_example (xs ys : List Nat) :
    Except Exn (Nat × Nat × Bool × List Nat × List Nat) := do
  let (h, left, right) ← two_lists xs ys
  let (h, src) ← list.operator_plus (xs.length + ys.length + 1) h left right
  let (h, cp) ← list.copy_ctor (xs.length + ys.length + 1) h src
  let e ← list.operator_eq (xs.length + ys.length + 1) h cp src
  let v ← cp.to_list (xs.length + ys.length + 1) h
  let w ← src.to_list (xs.length + ys.length + 1) h
  .ok (src.size, cp.size, e, v, w)

/-- `list cp(list(xs));`: the same observations for a source straight from
the initializer-list constructor. -/
def copy_example (xs : List Nat) : Except Exn (Nat × Nat × Bool × List Nat × List Nat) := do
  let (h, src) ← one_list xs
  let (h, cp) ← list.copy_ctor (xs.length + 1) h src
  let e ← list.operator_eq (xs.length + 1) h cp src
  let v ← cp.to_list (xs.length + 1) h
  let w ← src.to_list (xs.length + 1) h
  .ok (src.size, cp.size, e, v, w)

/-- For the list made by `list()` in an empty heap: `size()`, whether `k`
steps by `next_node` from `head_` end at `tail_`, and whether `k` steps by
`prev_node` from `tail_` end at `head_`. -/
def default_list_steps (k : Nat) : Except Exn (Nat × Bool × Bool) := do
  let (h, l) ← list.ctor (Heap.empty : Heap Nat)
  let f ← list_iterator.incr_times h k ⟨l.head_⟩
  let b ← list_iterator.decr_times h k ⟨l.tail_⟩
  .ok (l.size, decide (f = l.end_), decide (b = ⟨l.head_⟩))

/-- The same for the list built from `xs`. -/
def list_steps (xs : List Nat) (k : Nat) : Except Exn (Nat × Bool × Bool) := do
  let (h, l) ← one_list xs
  let f ← list_iterator.incr_times h k ⟨l.head_⟩
  let b ← list_iterator.decr_times h k ⟨l.tail_⟩
  .ok (l.size, decide (f = l.end_), decide (b = ⟨l.head_⟩))

/-! ## What the value reversal computes -/

/-- The value sequence `revers_v` makes of `xs`: while more than two values
are left between the cursors, the two outer ones change places and the
cursors move inward. -/
def revers_v_values (xs : List T) : List T :=
  if h : 2 < xs.length then
    xs.getLast (by intro e; simp [e] at h)
      :: revers_v_values xs.tail.dropLast ++ [xs.head (by intro e; simp [e] at h)]
  else xs
termination_by xs.length
decreasing_by simp; omega

/-- A heap holding one list: `tail_` at 0, `head_` at 1, interior nodes 2, 3, 4
with the values 20, 30, 40 (the layout the initializer-list constructor
produces in an empty heap). -/
def example_heap : Heap Nat where
  value_ := fun a => if 2 ≤ a ∧ a ≤ 4 then 10 * a else 0
  next_node := fun a =>
    if a = 1 then some 2 else if a = 2 then some 3 else if a = 3 then some 4
    else if a = 4 then some 0 else none
  prev_node := fun a =>
    if a = 0 then some 4 else if a = 4 then some 3 else if a = 3 then some 2
    else if a = 2 then some 1 else none
  live := fun a => decide (a < 5)
  brk := 5

/-- The list object of `example_heap`. -/
def example_list : list := ⟨3, some 0, some 1⟩

/-- A heap holding one empty list: `tail_` at 0, `head_` at 1 (what `list()`
produces in an empty heap). -/
def example_empty_heap : Heap Nat where
  value_ := fun _ => 0
  next_node := fun a => if a = 1 then some 0 else none
  prev_node := fun a => if a = 0 then some 1 else none
  live := fun a => decide (a < 2)
  brk := 2

/-- The list object of `example_empty_heap`. -/
def example_empty_list : list := ⟨0, some 0, some 1⟩

/-- A heap holding two lists, as two initializer-list constructions in an
empty heap leave it: `{10, 20}` with `tail_` at 0, `head_` at 1 and interior
nodes 2, 3; `{30}` with `tail_` at 4, `head_` at 5 and interior node 6. -/
def example_pair_heap : Heap Nat where
  value_ := fun a => if a = 2 then 10 else if a = 3 then 20 else if a = 6 then 30 else 0
  next_node := fun a =>
    if a = 1 then some 2 else if a = 2 then some 3 else if a = 3 then some 0
    else if a = 5 then some 6 else if a = 6 then some 4 else none
  prev_node := fun a =>
    if a = 0 then some 3 else if a = 3 then some 2 else if a = 2 then some 1
    else if a = 4 then some 6 else if a = 6 then some 5 else none
  live := fun a => decide (a < 7)
  brk := 7

/-- The list object of `{10, 20}` in `example_pair_heap`. -/
def example_pair_left : list := ⟨2, some 0, some 1⟩

/-- The list object of `{30}` in `example_pair_heap`. -/
def example_pair_right : list := ⟨1, some 4, some 5⟩

/-! ## The heap after one round of node reversal -/

/-- The heap after one round of the loop of `revers_n` with `it_b` at `a`,
`it_e` at `z`, `it_h` at `p`, `it_t` at `q`; `fm` follows `a` and `lm` precedes `z`. -/
def revers_n_round (h : Heap T) (p a fm lm z q : Nat) : Heap T :=
  ((((((((h.upd_prev z (some p)).upd_next a (some q)).upd_next z (some fm)).upd_prev a
    (some lm)).upd_prev fm (some z)).upd_next lm (some a)).upd_next p (some z)).upd_prev q
    (some a))

/-- The heap after the closing block of `revers_n` with `it_b` at `a`, `it_e` at `z`,
`it_h` at `p` and `it_t` at `q`. -/
def revers_n_pair (h : Heap T) (p a z q : Nat) : Heap T :=
  ((((((h.upd_next p (some z)).upd_prev q (some a)).upd_next a (some q)).upd_prev a
    (some z)).upd_next z (some a)).upd_prev z (some p))

/-! ## Reading and writing the heap -/

@[simp] theorem ok_bind {α β : Type} (a : α) (f : α → Except Exn β) :
    (Except.ok a >>= f) = f a := rfl

@[simp] theorem error_bind {α β : Type} (e : Exn) (f : α → Except Exn β) :
    ((Except.error e : Except Exn α) >>= f) = Except.error e := rfl

@[simp] theorem upd_next_next (h : Heap T) (a : Nat) (q : Option Nat) :
    (h.upd_next a q).next_node = Function.update h.next_node a q := rfl
@[simp] theorem upd_next_prev (h : Heap T) (a : Nat) (q : Option Nat) :
    (h.upd_next a q).prev_node = h.prev_node := rfl
@[simp] theorem upd_next_value (h : Heap T) (a : Nat) (q : Option Nat) :
    (h.upd_next a q).value_ = h.value_ := rfl
@[simp] theorem upd_next_live (h : Heap T) (a : Nat) (q : Option Nat) :
    (h.upd_next a q).live = h.live := rfl
@[simp] theorem upd_next_brk (h : Heap T) (a : Nat) (q : Option Nat) :
    (h.upd_next a q).brk = h.brk := rfl
@[simp] theorem upd_prev_next (h : Heap T) (a : Nat) (q : Option Nat) :
    (h.upd_prev a q).next_node = h.next_node := rfl
@[simp] theorem upd_prev_prev (h : Heap T) (a : Nat) (q : Option Nat) :
    (h.upd_prev a q).prev_node = Function.update h.prev_node a q := rfl
@[simp] theorem upd_prev_value (h : Heap T) (a : Nat) (q : Option Nat) :
    (h.upd_prev a q).value_ = h.value_ := rfl
@[simp] theorem upd_prev_live (h : Heap T) (a : Nat) (q : Option Nat) :
    (h.upd_prev a q).live = h.live := rfl
@[simp] theorem upd_prev_brk (h : Heap T) (a : Nat) (q : Option Nat) :
    (h.upd_prev a q).brk = h.brk := rfl
@[simp] theorem upd_value_next (h : Heap T) (a : Nat) (v : T) :
    (h.upd_value a v).next_node = h.next_node := rfl
@[simp] theorem upd_value_prev (h : Heap T) (a : Nat) (v : T) :
    (h.upd_value a v).prev_node = h.prev_node := rfl
@[simp] theorem upd_value_value (h : Heap T) (a : Nat) (v : T) :
    (h.upd_value a v).value_ = Function.update h.value_ a v := rfl
@[simp] theorem upd_value_live (h : Heap T) (a : Nat) (v : T) :
    (h.upd_value a v).live = h.live := rfl
@[simp] theorem upd_value_brk (h : Heap T) (a : Nat) (v : T) :
    (h.upd_value a v).brk = h.brk := rfl

theorem get_next_live {h : Heap T} {a : Nat} (ha : h.live a = true) :
    h.get_next (some a) = .ok (h.next_node a) := by simp [Heap.get_next, ha]
theorem get_prev_live {h : Heap T} {a : Nat} (ha : h.live a = true) :
    h.get_prev (some a) = .ok (h.prev_node a) := by simp [Heap.get_prev, ha]
theorem get_value_live {h : Heap T} {a : Nat} (ha : h.live a = true) :
    h.get_value (some a) = .ok (h.value_ a) := by simp [Heap.get_value, ha]
theorem set_next_live {h : Heap T} {a : Nat} (ha : h.live a = true) (q : Option Nat) :
    h.set_next (some a) q = .ok (h.upd_next a q) := by simp [Heap.set_next, ha]
theorem set_prev_live {h : Heap T} {a : Nat} (ha : h.live a = true) (q : Option Nat) :
    h.set_prev (some a) q = .ok (h.upd_prev a q) := by simp [Heap.set_prev, ha]
theorem set_value_live {h : Heap T} {a : Nat} (ha : h.live a = true) (v : T) :
    h.set_value (some a) v = .ok (h.upd_value a v) := by simp [Heap.set_value, ha]

theorem incr_of_next {h : Heap T} {a b : Nat} (ha : h.live a = true)
    (hn : h.next_node a = some b) : (list_iterator.mk (some a)).incr h = .ok ⟨some b⟩ := by
  simp [list_iterator.incr, get_next_live ha, hn]

theorem decr_of_prev {h : Heap T} {a b : Nat} (ha : h.live a = true)
    (hn : h.prev_node a = some b) : (list_iterator.mk (some a)).decr h = .ok ⟨some b⟩ := by
  simp [list_iterator.decr, get_prev_live ha, hn]

theorem minus_one_of_prev {h : Heap T} {a b : Nat} (ha : h.live a = true)
    (hn : h.prev_node a = some b) : (list_iterator.mk (some a)).minus h 1 = .ok ⟨some b⟩ := by
  simp [list_iterator.minus, list_iterator.minus_loop, decr_of_prev ha hn, noexcept, int_max]

/-- While the counter stays below `INT_MAX` the loop of `operator+` is `n`
forward steps. -/
theorem plus_loop_eq_incr_times (h : Heap T) : ∀ (n i : Nat) (it : list_iterator),
    i + n ≤ int_max → list_iterator.plus_loop h n i it = list_iterator.incr_times h n it := by
  intro n
  induction n with
  | zero => intro i it _; rfl
  | succ n ih =>
    intro i it hi
    simp only [list_iterator.plus_loop, list_iterator.incr_times]
    cases hs : it.incr h with
    | error e => rfl
    | ok it2 =>
      have hne : i ≠ int_max := by omega
      simp only [ok_bind, hne, if_false]
      exact ih (i + 1) it2 (by omega)

/-- While the counter stays below `INT_MAX` the loop of `operator-` is `n`
backward steps. -/
theorem minus_loop_eq_decr_times (h : Heap T) : ∀ (n i : Nat) (it : list_iterator),
    i + n ≤ int_max → list_iterator.minus_loop h n i it = list_iterator.decr_times h n it := by
  intro n
  induction n with
  | zero => intro i it _; rfl
  | succ n ih =>
    intro i it hi
    simp only [list_iterator.minus_loop, list_iterator.decr_times]
    cases hs : it.decr h with
    | error e => rfl
    | ok it2 =>
      have hne : i ≠ int_max := by omega
      simp only [ok_bind, hne, if_false]
      exact ih (i + 1) it2 (by omega)

theorem plus_eq_incr_times (h : Heap T) (it : list_iterator) {value : Nat}
    (hv : value < int_max) :
    it.plus h value = noexcept (list_iterator.incr_times h value it) := by
  rw [list_iterator.plus, plus_loop_eq_incr_times h value 1 it (by omega)]

/-- At `INT_MAX` rounds the counter of `operator+` overflows: the offset
`INT_MAX` is never added. -/
theorem plus_int_max_not_ok (h : Heap T) (it r : list_iterator) :
    it.plus h int_max ≠ .ok r := by
  have key : ∀ (n i : Nat) (c : list_iterator), i + n = int_max + 1 → 0 < n →
      ∀ r, list_iterator.plus_loop h n i c ≠ .ok r := by
    intro n
    induction n with
    | zero => intro i c _ h0; exact absurd h0 (by simp)
    | succ n ih =>
      intro i c hi _ r
      simp only [list_iterator.plus_loop]
      cases hs : c.incr h with
      | error e => simp [error_bind]
      | ok c2 =>
        simp only [ok_bind]
        by_cases he : i = int_max
        · simp [he]
        · rw [if_neg he]
          exact ih (i + 1) c2 (by omega) (by omega) r
  intro e
  unfold list_iterator.plus at e
  cases hp : list_iterator.plus_loop h int_max 1 it with
  | error x => rw [hp] at e; cases x <;> simp [noexcept] at e
  | ok r2 => exact key int_max 1 it (by omega) (by simp [int_max]) r2 hp

/-! ## Chains of linked nodes -/

@[simp] theorem first_of_nil (q : Nat) : first_of [] q = q := rfl
@[simp] theorem first_of_cons (n : Nat) (ns : List Nat) (q : Nat) : first_of (n :: ns) q = n := rfl
@[simp] theorem last_of_nil (p : Nat) : last_of p [] = p := rfl
@[simp] theorem last_of_cons (p n : Nat) (ns : List Nat) : last_of p (n :: ns) = last_of n ns := rfl

@[simp] theorem last_of_concat (p : Nat) (ns : List Nat) (z : Nat) : last_of p (ns ++ [z]) = z := by
  induction ns generalizing p with
  | nil => rfl
  | cons n ns ih => simpa using ih n

theorem first_of_append (xs ys : List Nat) (q : Nat) :
    first_of (xs ++ ys) q = first_of xs (first_of ys q) := by
  cases xs <;> rfl

theorem last_of_append (p : Nat) (xs ys : List Nat) :
    last_of p (xs ++ ys) = last_of (last_of p xs) ys := by
  induction xs generalizing p with
  | nil => rfl
  | cons n ns ih => simpa using ih n

theorem last_of_mem (p : Nat) (ns : List Nat) : last_of p ns ∈ p :: ns := by
  induction ns generalizing p with
  | nil => simp
  | cons n ns ih =>
    have := ih n
    simp only [last_of_cons, List.mem_cons] at this ⊢
    tauto

theorem last_of_mem_of_ne_nil (p : Nat) {ns : List Nat} (hne : ns ≠ []) : last_of p ns ∈ ns := by
  cases ns with
  | nil => exact absurd rfl hne
  | cons n ns => exact last_of_mem n ns

theorem first_of_mem (ns : List Nat) (q : Nat) : first_of ns q ∈ ns ++ [q] := by
  cases ns <;> simp

theorem first_of_mem_of_ne_nil {ns : List Nat} (hne : ns ≠ []) (q : Nat) : first_of ns q ∈ ns := by
  cases ns with
  | nil => exact absurd rfl hne
  | cons n ns => simp

/-- The node after `p` in a chain `p :: ns ++ [q]`. -/
theorem chain_next_first {h : Heap T} {p q : Nat} {ns : List Nat}
    (hc : List.Chain' (Link h) (p :: ns ++ [q])) : h.next_node p = some (first_of ns q) := by
  cases ns with
  | nil => exact (List.chain'_pair.1 hc).1
  | cons n ns => exact (List.chain'_cons.1 hc).1.1

/-- The node before `q` in a chain `p :: ns ++ [q]`. -/
theorem chain_prev_last {h : Heap T} {p q : Nat} {ns : List Nat}
    (hc : List.Chain' (Link h) (p :: ns ++ [q])) : h.prev_node q = some (last_of p ns) := by
  induction ns generalizing p with
  | nil => exact (List.chain'_pair.1 hc).2
  | cons n ns ih => exact ih (List.chain'_cons.1 hc).2

/-- A chain survives a change of the heap that keeps the links between its nodes. -/
theorem chain_frame {h h' : Heap T} {l : List Nat} (hc : List.Chain' (Link h) l)
    (H : ∀ x ∈ l, ∀ y ∈ l, Link h x y → Link h' x y) : List.Chain' (Link h') l :=
  (List.Chain'.iff_mem.1 hc).imp (fun x y hxy => H x hxy.1 y hxy.2.1 hxy.2.2)

theorem chain_snoc {h : Heap T} {l : List Nat} {p z : Nat} :
    List.Chain' (Link h) (p :: l ++ [z]) ↔
      List.Chain' (Link h) (p :: l) ∧ Link h (last_of p l) z := by
  induction l generalizing p with
  | nil => simp
  | cons n ns ih =>
    have := ih (p := n)
    simp only [List.cons_append, List.chain'_cons, last_of_cons] at this ⊢
    rw [this]; tauto

theorem chain_cons_first {h : Heap T} {l : List Nat} {p z : Nat} :
    List.Chain' (Link h) (p :: l ++ [z]) ↔
      Link h p (first_of l z) ∧ List.Chain' (Link h) (l ++ [z]) := by
  cases l with
  | nil => simp
  | cons n ns => simp [List.chain'_cons]

/-- Forward traversal over a chain collects what `f` reads at each node. -/
theorem walk_chain {α : Type} (h : Heap T) (f : list_iterator → Except Exn α) (g : Nat → α)
    (q : Nat) : ∀ (ns : List Nat) (p : Nat) (fuel : Nat),
    List.Chain' (Link h) (p :: ns ++ [q]) → q ∉ ns → (∀ a ∈ ns, h.live a = true) →
    (∀ a ∈ ns, f ⟨some a⟩ = .ok (g a)) → ns.length < fuel →
    list.walk h f ⟨some q⟩ fuel ⟨some (first_of ns q)⟩ = .ok (ns.map g) := by
  intro ns
  induction ns with
  | nil =>
    intro p fuel _ _ _ _ hf
    obtain ⟨k, rfl⟩ : ∃ k, fuel = k + 1 := ⟨fuel - 1, by simp at hf; omega⟩
    simp [list.walk]
  | cons n ns ih =>
    intro p fuel hc hq hl hfg hf
    obtain ⟨k, rfl⟩ : ∃ k, fuel = k + 1 := ⟨fuel - 1, by simp at hf; omega⟩
    have hc2 : List.Chain' (Link h) (n :: ns ++ [q]) := (List.chain'_cons.1 hc).2
    have hnq : n ≠ q := fun e => hq (by simp [e])
    have hn := chain_next_first hc2
    have := ih n k hc2 (fun hm => hq (List.mem_cons_of_mem _ hm))
      (fun a ha => hl a (List.mem_cons_of_mem _ ha))
      (fun a ha => hfg a (List.mem_cons_of_mem _ ha)) (by simp at hf; omega)
    simp [list.walk, hnq, hfg n (by simp), incr_of_next (hl n (by simp)) hn, this]

theorem nodup_ring {hd tl : Nat} {ns : List Nat} (hnd : (hd :: ns ++ [tl]).Nodup) :
    hd ∉ ns ∧ tl ∉ ns ∧ hd ≠ tl ∧ ns.Nodup := by
  have h1 := List.nodup_cons.1 hnd
  have h2 := List.nodup_append.1 h1.2
  refine ⟨fun hm => h1.1 (List.mem_append_left _ hm), fun hm => h2.2.2 hm (by simp),
    fun e => h1.1 (by simp [e]), h2.1⟩

theorem Linked.begin_eq {h : Heap T} {l : list} {hd tl : Nat} {ns : List Nat}
    (hL : Linked h l hd ns tl) : l.begin h = .ok ⟨some (first_of ns tl)⟩ := by
  obtain ⟨hh, _, _, hlive, hc, _, _⟩ := hL
  simp [list.begin, hh, get_next_live (hlive hd (by simp)).1, chain_next_first hc]

theorem Linked.end_eq {h : Heap T} {l : list} {hd tl : Nat} {ns : List Nat}
    (hL : Linked h l hd ns tl) : l.end_ = ⟨some tl⟩ := by
  simp [list.end_, hL.2.1]

/-- The forward value sequence of a linked list is the values of its interior nodes. -/
theorem Linked.to_list_eq {h : Heap T} {l : list} {hd tl : Nat} {ns : List Nat}
    (hL : Linked h l hd ns tl) {fuel : Nat} (hf : ns.length < fuel) :
    l.to_list fuel h = .ok (ns.map h.value_) := by
  have hb := hL.begin_eq
  have he := hL.end_eq
  obtain ⟨hh, ht, hnd, hlive, hc, _, _⟩ := hL
  have hq : tl ∉ ns := (nodup_ring hnd).2.1
  have hl : ∀ a ∈ ns, h.live a = true := fun a ha => (hlive a (by simp [ha])).1
  simp only [list.to_list, hb, he, ok_bind]
  exact walk_chain h _ h.value_ tl ns hd fuel hc hq hl
    (fun a ha => by simp [list_iterator.deref, get_value_live (hl a ha)]) hf

theorem Linked.node_list_eq {h : Heap T} {l : list} {hd tl : Nat} {ns : List Nat}
    (hL : Linked h l hd ns tl) {fuel : Nat} (hf : ns.length < fuel) :
    l.node_list fuel h = .ok (ns.map some) := by
  have hb := hL.begin_eq
  have he := hL.end_eq
  obtain ⟨hh, ht, hnd, hlive, hc, _, _⟩ := hL
  have hq : tl ∉ ns := (nodup_ring hnd).2.1
  have hl : ∀ a ∈ ns, h.live a = true := fun a ha => (hlive a (by simp [ha])).1
  simp only [list.node_list, hb, he, ok_bind]
  exact walk_chain h _ some tl ns hd fuel hc hq hl (fun a ha => rfl) hf

/-! ## Value reversal -/

/-- Induction on a list from both ends at once. -/
theorem two_ended_induction {α : Type} {P : List α → Prop} (h0 : P [])
    (h1 : ∀ a, P [a]) (h2 : ∀ a z, P [a, z])
    (h3 : ∀ a mid z, mid ≠ [] → P mid → P (a :: mid ++ [z])) : ∀ xs, P xs := by
  intro xs
  generalize hn : xs.length = n
  induction n using Nat.strong_induction_on generalizing xs with
  | _ n ih =>
    match xs, hn with
    | [], _ => exact h0
    | [a], _ => exact h1 a
    | a :: b :: rest, hn =>
      rcases List.eq_nil_or_concat (b :: rest) with e | ⟨mid, z, e⟩
      · exact absurd e (by simp)
      · rw [List.concat_eq_append] at e
        rw [e]
        by_cases hm : mid = []
        · subst hm; exact h2 a z
        · have hlen : mid.length < n := by
            have := congrArg List.length e
            simp at this hn
            omega
          exact h3 a mid z hm (ih mid.length hlen mid rfl)

theorem revers_v_values_short {xs : List T} (h : xs.length ≤ 2) : revers_v_values xs = xs := by
  rw [revers_v_values]; simp; omega

theorem revers_v_values_step (a z : T) {mid : List T} (hm : mid ≠ []) :
    revers_v_values (a :: mid ++ [z]) = z :: revers_v_values mid ++ [a] := by
  have hl : 0 < mid.length := List.length_pos.2 hm
  rw [revers_v_values]
  have : 2 < (a :: mid ++ [z]).length := by simp; omega
  simp only [this, dite_true]
  simp [List.getLast_append, List.dropLast_concat]

theorem revers_v_values_length (xs : List T) : (revers_v_values xs).length = xs.length := by
  induction xs using two_ended_induction with
  | h0 => simp [revers_v_values_short]
  | h1 a => simp [revers_v_values_short]
  | h2 a z => simp [revers_v_values_short]
  | h3 a mid z hm ih => rw [revers_v_values_step a z hm]; simp [ih]

/-- On value sequences `revers_v` is its own inverse. -/
theorem revers_v_values_twice (xs : List T) : revers_v_values (revers_v_values xs) = xs := by
  induction xs using two_ended_induction with
  | h0 => simp [revers_v_values_short]
  | h1 a => simp [revers_v_values_short]
  | h2 a z => simp [revers_v_values_short]
  | h3 a mid z hm ih =>
    have hm2 : revers_v_values mid ≠ [] := by
      intro e
      have := revers_v_values_length mid
      rw [e] at this
      exact hm (List.length_eq_zero.1 this.symm)
    rw [revers_v_values_step a z hm, revers_v_values_step z a hm2, ih]

theorem nodup_inner {p q a z : Nat} {mid : List Nat}
    (hnd : (p :: (a :: mid ++ [z]) ++ [q]).Nodup) : (a :: mid ++ [z]).Nodup := by
  have h1 := (List.nodup_cons.1 hnd).2
  exact (List.nodup_append.1 h1).1

theorem chain_inner {h : Heap T} {p q a z : Nat} {mid : List Nat}
    (hc : List.Chain' (Link h) (p :: (a :: mid ++ [z]) ++ [q])) :
    List.Chain' (Link h) (a :: mid ++ [z]) := by
  have h1 : List.Chain' (Link h) ((a :: mid ++ [z]) ++ [q]) := List.Chain'.tail hc
  exact h1.left_of_append

/-- The loop of `revers_v` over the nodes `ns` between `p` and `q`. -/
theorem revers_v_loop_spec : ∀ (ns : List Nat), ns ≠ [] → ∀ (h : Heap T) (p q fuel : Nat),
    List.Chain' (Link h) (p :: ns ++ [q]) → (p :: ns ++ [q]).Nodup →
    (∀ a ∈ ns, h.live a = true) → ns.length ≤ fuel →
    ∃ h', list.revers_v_loop fuel h ⟨some (first_of ns q)⟩ ⟨some (last_of p ns)⟩ = .ok h' ∧
      h'.next_node = h.next_node ∧ h'.prev_node = h.prev_node ∧ h'.live = h.live ∧
      h'.brk = h.brk ∧ (∀ a, a ∉ ns → h'.value_ a = h.value_ a) ∧
      ns.map h'.value_ = revers_v_values (ns.map h.value_) := by
  intro ns
  induction ns using two_ended_induction with
  | h0 => intro hne; exact absurd rfl hne
  | h1 a =>
    intro _ h p q fuel hc hnd hl hf
    obtain ⟨k, rfl⟩ : ∃ k, fuel = k + 1 := ⟨fuel - 1, by simp at hf; omega⟩
    refine ⟨h, ?_, rfl, rfl, rfl, rfl, fun _ _ => rfl, ?_⟩
    · simp [list.revers_v_loop, revers_cond]
    · simp [revers_v_values_short]
  | h2 a z =>
    intro _ h p q fuel hc hnd hl hf
    obtain ⟨k, rfl⟩ : ∃ k, fuel = k + 1 := ⟨fuel - 1, by simp at hf; omega⟩
    have hc2 : List.Chain' (Link h) [p, a, z, q] := hc
    simp only [List.chain'_cons, List.chain'_singleton, and_true, Link] at hc2
    have haz : a ≠ z := by
      intro e; subst e; simp at hnd
    refine ⟨h, ?_, rfl, rfl, rfl, rfl, fun _ _ => rfl, ?_⟩
    · simp [list.revers_v_loop, revers_cond, haz, minus_one_of_prev (hl z (by simp)) hc2.2.1.2]
    · simp [revers_v_values_short]
  | h3 a mid z hm ih =>
    intro _ h p q fuel hc hnd hl hf
    obtain ⟨k, rfl⟩ : ∃ k, fuel = k + 1 := ⟨fuel - 1, by simp at hf; omega⟩
    have hci := chain_inner hc
    have hndi := nodup_inner hnd
    obtain ⟨ha_mid, hz_mid, haz, hmid_nd⟩ := nodup_ring hndi
    have hla : h.live a = true := hl a (by simp)
    have hlz : h.live z = true := hl z (by simp)
    have hpz : h.prev_node z = some (last_of a mid) := chain_prev_last hci
    have hna : h.next_node a = some (first_of mid z) := chain_next_first hci
    have hlm : last_of a mid ∈ mid := last_of_mem_of_ne_nil a hm
    have halm : a ≠ last_of a mid := fun e => ha_mid (e ▸ hlm)
    -- the heap after the exchange of the two values
    let h1 : Heap T := (h.upd_value a (h.value_ z)).upd_value z (h.value_ a)
    have hc1 : List.Chain' (Link h1) (a :: mid ++ [z]) := hci
    obtain ⟨h', hrun, hn', hp', hl', hb', hv', hmap'⟩ := ih hm h1 a z k hc1 hndi
      (fun x hx => hl x (by simp [hx])) (by simp at hf; omega)
    refine ⟨h', ?_, hn', hp', hl', hb', ?_, ?_⟩
    · simp only [first_of_cons, last_of_cons, last_of_concat]
      simp [list.revers_v_loop, revers_cond, haz, minus_one_of_prev hlz hpz, halm,
        list_iterator.deref, get_value_live hla, get_value_live hlz, set_value_live, hla, hlz,
        incr_of_next, decr_of_prev, hna, hpz]
      exact hrun
    · intro x hx
      have hxa : x ≠ a := fun e => hx (by simp [e])
      have hxz : x ≠ z := fun e => hx (by simp [e])
      rw [hv' x (fun hm' => hx (by simp [hm']))]
      simp [h1, Function.update_apply, hxa, hxz]
    · have e1 : mid.map h1.value_ = mid.map h.value_ := by
        apply List.map_congr_left
        intro x hx
        have hxa : x ≠ a := fun e => ha_mid (e ▸ hx)
        have hxz : x ≠ z := fun e => hz_mid (e ▸ hx)
        simp [h1, Function.update_apply, hxa, hxz]
      have e2 : h'.value_ a = h.value_ z := by
        rw [hv' a ha_mid]; simp [h1, Function.update_apply, haz]
      have e3 : h'.value_ z = h.value_ a := by
        rw [hv' z hz_mid]; simp [h1, Function.update_apply]
      have hm3 : mid.map h.value_ ≠ [] := by simpa using hm
      simp only [List.map_cons, List.map_append, List.map_nil]
      rw [revers_v_values_step _ _ hm3, hmap', e1, e2, e3]

theorem example_well_formed : WellFormed example_heap example_list 1 [2, 3, 4] 0 :=
  ⟨⟨rfl, rfl, by decide, by decide, by simp [Link, example_heap], rfl, rfl⟩, rfl, by decide⟩

theorem heap_ext {h1 h2 : Heap T} (hv : ∀ a, h1.value_ a = h2.value_ a)
    (hn : ∀ a, h1.next_node a = h2.next_node a) (hp : ∀ a, h1.prev_node a = h2.prev_node a)
    (hl : ∀ a, h1.live a = h2.live a) (hb : h1.brk = h2.brk) : h1 = h2 := by
  cases h1; cases h2
  simp only [Heap.mk.injEq]
  exact ⟨funext hv, funext hn, funext hp, funext hl, hb⟩

/-- The initializer-list constructor builds `example_heap` from `{20, 30, 40}`. -/
theorem example_from_ilist : one_list [20, 30, 40] = .ok (example_heap, example_list) := by
  have : ∃ h l, one_list [20, 30, 40] = .ok (h, l) ∧ h = example_heap ∧ l = example_list := by
    refine ⟨_, _, rfl, ?_, rfl⟩
    apply heap_ext
    · intro a
      simp [example_heap, Heap.new_node, Heap.upd_prev, Heap.upd_next, Heap.empty,
        Function.update_apply]
      split_ifs <;> omega
    · intro a
      simp [example_heap, Heap.new_node, Heap.upd_prev, Heap.upd_next, Heap.empty,
        Function.update_apply]
      split_ifs <;> simp_all
    · intro a
      simp [example_heap, Heap.new_node, Heap.upd_prev, Heap.upd_next, Heap.empty,
        Function.update_apply]
      split_ifs <;> simp_all
    · intro a
      simp only [example_heap, Heap.new_node, Heap.upd_prev, Heap.upd_next, Heap.empty,
        Function.update_apply]
      rw [Bool.eq_iff_iff]
      simp
      omega
    · rfl
  obtain ⟨h, l, h1, h2, h3⟩ := this
  rw [h1, h2, h3]

theorem Linked.of_same_links {h h' : Heap T} {l : list} {hd tl : Nat} {ns : List Nat}
    (hL : Linked h l hd ns tl) (hn : h'.next_node = h.next_node)
    (hp : h'.prev_node = h.prev_node) (hl : h'.live = h.live) (hb : h'.brk = h.brk) :
    Linked h' l hd ns tl := by
  unfold Linked Link at *
  rw [hn, hp, hl, hb]
  exact hL

theorem Linked.last_prev {h : Heap T} {l : list} {hd tl : Nat} {ns : List Nat}
    (hL : Linked h l hd ns tl) : h.prev_node tl = some (last_of hd ns) :=
  chain_prev_last hL.2.2.2.2.1

theorem Linked.tail_live {h : Heap T} {l : list} {hd tl : Nat} {ns : List Nat}
    (hL : Linked h l hd ns tl) : h.live tl = true :=
  (hL.2.2.2.1 tl (by simp)).1

theorem Linked.head_live {h : Heap T} {l : list} {hd tl : Nat} {ns : List Nat}
    (hL : Linked h l hd ns tl) : h.live hd = true :=
  (hL.2.2.2.1 hd (by simp)).1

theorem Linked.node_live {h : Heap T} {l : list} {hd tl : Nat} {ns : List Nat}
    (hL : Linked h l hd ns tl) {a : Nat} (ha : a ∈ ns) : h.live a = true :=
  (hL.2.2.2.1 a (by simp [ha])).1

/-- `revers_v` on a well-formed list: the links stay, the values become
`revers_v_values` of the old ones. -/
theorem revers_v_spec {h : Heap T} {l : list} {hd tl : Nat} {ns : List Nat}
    (hW : WellFormed h l hd ns tl) {fuel : Nat} (hf : ns.length ≤ fuel) :
    ∃ h', l.revers_v fuel h = .ok h' ∧ WellFormed h' l hd ns tl ∧
      ns.map h'.value_ = revers_v_values (ns.map h.value_) := by
  obtain ⟨hL, hsz, hlt⟩ := hW
  by_cases hne : ns = []
  · subst hne
    refine ⟨h, ?_, ⟨hL, hsz, hlt⟩, by simp [revers_v_values_short]⟩
    simp [list.revers_v, list.empty, hsz]
  · have hc := hL.2.2.2.2.1
    have hnd := hL.2.2.1
    obtain ⟨h', hrun, hn', hp', hl', hb', _, hmap⟩ :=
      revers_v_loop_spec ns hne h hd tl fuel hc hnd (fun a ha => hL.node_live ha) hf
    refine ⟨h', ?_, ⟨hL.of_same_links hn' hp' hl' hb', hsz, hlt⟩, hmap⟩
    have hs : l.size_ ≠ 0 := by
      rw [hsz]; exact fun e => hne (List.length_eq_zero.1 e)
    simp [list.revers_v, list.empty, hs, hL.begin_eq, hL.end_eq,
      minus_one_of_prev hL.tail_live hL.last_prev, hrun]

/-! ## Replacing a run of a linked list -/

theorem split_last (hd : Nat) (pre : List Nat) : ∃ A, hd :: pre = A ++ [last_of hd pre] := by
  induction pre generalizing hd with
  | nil => exact ⟨[], rfl⟩
  | cons n ns ih =>
    obtain ⟨A, hA⟩ := ih n
    exact ⟨hd :: A, by rw [last_of_cons, List.cons_append, ← hA]⟩

theorem split_first (post : List Nat) (tl : Nat) :
    ∃ B, post ++ [tl] = first_of post tl :: B := by
  cases post with
  | nil => exact ⟨[], rfl⟩
  | cons n ns => exact ⟨ns ++ [tl], rfl⟩

/-- A chain survives a change of the heap that keeps `next_node` of all its
nodes but the last and `prev_node` of all its nodes but the first. -/
theorem chain_frame_list {h h' : Heap T} : ∀ {l : List Nat}, List.Chain' (Link h) l →
    (∀ x ∈ l.dropLast, h'.next_node x = h.next_node x) →
    (∀ y ∈ l.tail, h'.prev_node y = h.prev_node y) → List.Chain' (Link h') l
  | [], _, _, _ => List.chain'_nil
  | [_], _, _, _ => List.chain'_singleton _
  | a :: b :: r, hc, hn, hp => by
    obtain ⟨hab, hc2⟩ := List.chain'_cons.1 hc
    refine List.chain'_cons.2 ⟨⟨?_, ?_⟩, chain_frame_list hc2 ?_ ?_⟩
    · rw [hn a (by simp)]; exact hab.1
    · rw [hp b (by simp)]; exact hab.2
    · intro x hx; exact hn x (by simp [hx])
    · intro y hy; exact hp y (by simp at hy ⊢; exact Or.inr hy)

/-- The run `mid` of a linked list is replaced by the run `mid2`. -/
theorem Linked.splice {h h' : Heap T} {l : list} {hd tl : Nat} {pre mid mid2 post : List Nat}
    (hL : Linked h l hd (pre ++ mid ++ post) tl)
    (hc' : List.Chain' (Link h') (last_of hd pre :: mid2 ++ [first_of post tl]))
    (hnd' : (hd :: (pre ++ mid2 ++ post) ++ [tl]).Nodup)
    (hlive : ∀ x ∈ hd :: (pre ++ mid2 ++ post) ++ [tl], h'.live x = true ∧ x < h'.brk)
    (hnext : ∀ x ∈ (hd :: pre) ++ (post ++ [tl]), x ≠ last_of hd pre →
      h'.next_node x = h.next_node x)
    (hprev : ∀ x ∈ (hd :: pre) ++ (post ++ [tl]), x ≠ first_of post tl →
      h'.prev_node x = h.prev_node x) :
    Linked h' l hd (pre ++ mid2 ++ post) tl := by
  obtain ⟨hh, ht, hnd, _, hc, hhp, htn⟩ := hL
  obtain ⟨A, hA⟩ := split_last hd pre
  obtain ⟨B, hB⟩ := split_first post tl
  have e : ∀ m : List Nat, hd :: (pre ++ m ++ post) ++ [tl] =
      A ++ last_of hd pre :: (m ++ first_of post tl :: B) := by
    intro m
    have : hd :: (pre ++ m ++ post) ++ [tl] = (hd :: pre) ++ (m ++ (post ++ [tl])) := by simp
    rw [this, hA, hB]; simp
  rw [e mid] at hnd hc
  have hcL : List.Chain' (Link h) (A ++ [last_of hd pre]) := (List.chain'_split.1 hc).1
  have hcR : List.Chain' (Link h) (first_of post tl :: B) := by
    have h1 := (List.chain'_split.1 hc).2
    have h2 : List.Chain' (Link h) ((last_of hd pre :: mid) ++ first_of post tl :: B) := h1
    exact (List.chain'_split.1 h2).2
  have hnd2 := hnd'
  rw [e mid2] at hnd2
  -- the outer parts are distinct and apart
  have hndL : (A ++ [last_of hd pre]).Nodup := by
    have : (A ++ [last_of hd pre] ++ (mid2 ++ first_of post tl :: B)).Nodup := by simpa using hnd2
    exact (List.nodup_append.1 this).1
  have hndR : (first_of post tl :: B).Nodup := by
    have : ((A ++ last_of hd pre :: mid2) ++ first_of post tl :: B).Nodup := by simpa using hnd2
    exact (List.nodup_append.1 this).2.1
  have hLR : ∀ x ∈ A ++ [last_of hd pre], x ∉ first_of post tl :: B := by
    intro x hx hx2
    have : (A ++ [last_of hd pre] ++ (mid2 ++ first_of post tl :: B)).Nodup := by simpa using hnd2
    exact (List.nodup_append.1 this).2.2 hx (List.mem_append_right _ hx2)
  have hmemL : ∀ x ∈ A ++ [last_of hd pre], x ∈ (hd :: pre) ++ (post ++ [tl]) := by
    intro x hx; rw [hA]; exact List.mem_append_left _ hx
  have hmemR : ∀ x ∈ first_of post tl :: B, x ∈ (hd :: pre) ++ (post ++ [tl]) := by
    intro x hx; rw [hB]; exact List.mem_append_right _ hx
  have hhdL : hd ∈ A ++ [last_of hd pre] := by rw [← hA]; simp
  have htlR : tl ∈ first_of post tl :: B := by rw [← hB]; simp
  have hpL : last_of hd pre ∈ A ++ [last_of hd pre] := by simp
  have hqR : first_of post tl ∈ first_of post tl :: B := by simp
  refine ⟨hh, ht, hnd', hlive, ?_, ?_, ?_⟩
  · rw [e mid2]
    refine List.chain'_split.2 ⟨chain_frame_list hcL ?_ ?_, ?_⟩
    · intro x hx
      rw [List.dropLast_concat] at hx
      refine hnext x (hmemL x (List.mem_append_left _ hx)) ?_
      intro e2
      exact (List.nodup_append.1 hndL).2.2 hx (by simp [e2])
    · intro y hy
      have hy2 : y ∈ A ++ [last_of hd pre] := List.mem_of_mem_tail hy
      exact hprev y (hmemL y hy2) (fun e2 => hLR y hy2 (by simp [e2]))
    · have : List.Chain' (Link h') ((last_of hd pre :: mid2) ++ first_of post tl :: B) := by
        refine List.chain'_split.2 ⟨hc', chain_frame_list hcR ?_ ?_⟩
        · intro x hx
          have hx2 : x ∈ first_of post tl :: B := List.mem_of_mem_dropLast hx
          exact hnext x (hmemR x hx2) (fun e2 => hLR _ hpL (e2 ▸ hx2))
        · intro y hy
          have hy2 : y ∈ B := hy
          exact hprev y (hmemR y (List.mem_cons_of_mem _ hy2))
            (fun e2 => (List.nodup_cons.1 hndR).1 (e2 ▸ hy2))
      exact this
  · rw [hprev hd (by simp) (fun e2 => hLR hd hhdL (by simp [e2])), hhp]
  · rw [hnext tl (by simp) (fun e2 => hLR _ hpL (e2 ▸ htlR)), htn]

/-! ## Node reversal -/

theorem first_of_ne_nil {mid : List Nat} (hm : mid ≠ []) (x y : Nat) :
    first_of mid x = first_of mid y := by
  cases mid with
  | nil => exact absurd rfl hm
  | cons n ns => rfl

theorem last_of_ne_nil {mid : List Nat} (hm : mid ≠ []) (x y : Nat) :
    last_of x mid = last_of y mid := by
  cases mid with
  | nil => exact absurd rfl hm
  | cons n ns => rfl

theorem chain_cons_of {h : Heap T} {mid : List Nat} (hm : mid ≠ []) (x z : Nat)
    (hc : List.Chain' (Link h) mid) (hl : Link h z (first_of mid x)) :
    List.Chain' (Link h) (z :: mid) := by
  cases mid with
  | nil => exact absurd rfl hm
  | cons n ns => exact List.chain'_cons.2 ⟨hl, hc⟩

theorem revers_n_loop_round {h : Heap T} {p a fm lm z q : Nat} (k : Nat)
    (hlp : h.live p = true) (hla : h.live a = true) (hlfm : h.live fm = true)
    (hllm : h.live lm = true) (hlz : h.live z = true) (hlq : h.live q = true)
    (hna : h.next_node a = some fm) (hpz : h.prev_node z = some lm)
    (hpa : h.prev_node a = some p) (hnz : h.next_node z = some q)
    (haz : a ≠ z) (halm : a ≠ lm) (hzp : z ≠ p) (hzlm : z ≠ lm) (haq : a ≠ q) (hafm : a ≠ fm) :
    list.revers_n_loop (k + 1) h ⟨⟨some a⟩, ⟨some z⟩, ⟨some p⟩, ⟨some q⟩⟩ =
      list.revers_n_loop k (revers_n_round h p a fm lm z q)
        ⟨⟨some fm⟩, ⟨some lm⟩, ⟨some z⟩, ⟨some a⟩⟩ := by
  simp [list.revers_n_loop, revers_cond, haz, minus_one_of_prev hlz hpz, halm,
    get_next_live, get_prev_live, set_next_live, set_prev_live, hlp, hla, hlfm, hllm, hlz, hlq,
    hna, hpz, hpa, hnz, list_iterator.incr, list_iterator.decr, Function.update_apply,
    hzp, hzlm, haq, hafm, revers_n_round]

@[simp] theorem revers_n_round_value (h : Heap T) (p a fm lm z q : Nat) :
    (revers_n_round h p a fm lm z q).value_ = h.value_ := rfl
@[simp] theorem revers_n_round_live (h : Heap T) (p a fm lm z q : Nat) :
    (revers_n_round h p a fm lm z q).live = h.live := rfl
@[simp] theorem revers_n_round_brk (h : Heap T) (p a fm lm z q : Nat) :
    (revers_n_round h p a fm lm z q).brk = h.brk := rfl

theorem revers_n_round_next (h : Heap T) (p a fm lm z q x : Nat) :
    (revers_n_round h p a fm lm z q).next_node x =
      if x = p then some z else if x = lm then some a else if x = z then some fm
      else if x = a then some q else h.next_node x := by
  simp only [revers_n_round, upd_prev_next, upd_next_next, Function.update_apply]

theorem revers_n_round_prev (h : Heap T) (p a fm lm z q x : Nat) :
    (revers_n_round h p a fm lm z q).prev_node x =
      if x = q then some a else if x = fm then some z else if x = a then some lm
      else if x = z then some p else h.prev_node x := by
  simp only [revers_n_round, upd_prev_prev, upd_next_prev, Function.update_apply]

/-- The facts about distinctness used below, from the distinctness of the whole run. -/
theorem nodup_run {p a z q : Nat} {mid : List Nat}
    (hnd : (p :: (a :: mid ++ [z]) ++ [q]).Nodup) :
    p ≠ a ∧ p ≠ z ∧ p ≠ q ∧ a ≠ z ∧ a ≠ q ∧ z ≠ q ∧
    p ∉ mid ∧ a ∉ mid ∧ z ∉ mid ∧ q ∉ mid := by
  have h1 := List.nodup_cons.1 hnd
  have h2 := @nodup_ring a z mid (List.nodup_append.1 h1.2).1
  have h3 := (List.nodup_append.1 h1.2).2.2
  have hp : ∀ x, x ∈ (a :: mid ++ [z]) ++ [q] → p ≠ x := fun x hx e => h1.1 (e ▸ hx)
  have hq : ∀ x, x ∈ (a :: mid ++ [z]) → x ≠ q := fun x hx e => h3 hx (by simp [e])
  refine ⟨hp a (by simp), hp z (by simp), hp q (by simp), h2.2.2.1, hq a (by simp),
    hq z (by simp), fun hm => hp p (by simp [hm]) rfl, h2.1, h2.2.1,
    fun hm => hq q (by simp [hm]) rfl⟩

/-- The loop of `revers_n` and its closing block, over the nodes `ns` between
`p` and `q`: the run is relinked in reverse order, nothing else changes. -/
theorem revers_n_loop_spec : ∀ (ns : List Nat), ns ≠ [] → ∀ (h : Heap T) (p q fuel : Nat),
    List.Chain' (Link h) (p :: ns ++ [q]) → (p :: ns ++ [q]).Nodup →
    (∀ a ∈ p :: ns ++ [q], h.live a = true) → ns.length ≤ fuel →
    ∃ h', (do
        let (h1, s) ← list.revers_n_loop fuel h
          ⟨⟨some (first_of ns q)⟩, ⟨some (last_of p ns)⟩, ⟨some p⟩, ⟨some q⟩⟩
        list.revers_n_final h1 s) = .ok h' ∧
      List.Chain' (Link h') (p :: ns.reverse ++ [q]) ∧
      h'.value_ = h.value_ ∧ h'.live = h.live ∧ h'.brk = h.brk ∧
      (∀ x, x ∉ p :: ns → h'.next_node x = h.next_node x) ∧
      (∀ x, x ∉ ns ++ [q] → h'.prev_node x = h.prev_node x) := by
  intro ns
  induction ns using two_ended_induction with
  | h0 => intro hne; exact absurd rfl hne
  | h1 a =>
    intro _ h p q fuel hc hnd hl hf
    obtain ⟨k, rfl⟩ : ∃ k, fuel = k + 1 := ⟨fuel - 1, by simp at hf; omega⟩
    have hc2 : List.Chain' (Link h) [p, a, q] := hc
    simp only [List.chain'_cons, List.chain'_singleton, and_true, Link] at hc2
    have hpa : p ≠ a := by intro e; subst e; simp at hnd
    refine ⟨h, ?_, hc, rfl, rfl, rfl, fun _ _ => rfl, fun _ _ => rfl⟩
    simp [list.revers_n_loop, revers_cond, list.revers_n_final,
      minus_one_of_prev (hl a (by simp)) hc2.1.2, Ne.symm hpa]
  | h2 a z =>
    intro _ h p q fuel hc hnd hl hf
    obtain ⟨k, rfl⟩ : ∃ k, fuel = k + 1 := ⟨fuel - 1, by simp at hf; omega⟩
    have hc2 : List.Chain' (Link h) [p, a, z, q] := hc
    simp only [List.chain'_cons, List.chain'_singleton, and_true, Link] at hc2
    obtain ⟨hpa, hpz, hpq, haz, haq, hzq, -, -, -, -⟩ := @nodup_run p a z q [] hnd
    have hlp := hl p (by simp)
    have hla := hl a (by simp)
    have hlz := hl z (by simp)
    have hlq := hl q (by simp)
    refine ⟨revers_n_pair h p a z q, ?_, ?_, rfl, rfl, rfl, ?_, ?_⟩
    · simp [list.revers_n_loop, revers_cond, list.revers_n_final, haz,
        minus_one_of_prev hlz hc2.2.1.2, get_next_live, get_prev_live, set_next_live,
        set_prev_live, hlp, hla, hlz, hlq, hc2.1.1, hc2.2.2.2, revers_n_pair]
    · show List.Chain' _ [p, z, a, q]
      simp [Link, revers_n_pair, Function.update_apply, hpa, hpz, hpq, haz, haq, hzq,
        Ne.symm hpa, Ne.symm hpz, Ne.symm hpq, Ne.symm haz, Ne.symm haq, Ne.symm hzq]
    · intro x hx
      have hxp : x ≠ p := fun e => hx (by simp [e])
      have hxa : x ≠ a := fun e => hx (by simp [e])
      have hxz : x ≠ z := fun e => hx (by simp [e])
      simp [revers_n_pair, Function.update_apply, hxp, hxa, hxz]
    · intro x hx
      have hxq : x ≠ q := fun e => hx (by simp [e])
      have hxa : x ≠ a := fun e => hx (by simp [e])
      have hxz : x ≠ z := fun e => hx (by simp [e])
      simp [revers_n_pair, Function.update_apply, hxq, hxa, hxz]
  | h3 a mid z hm ih =>
    intro _ h p q fuel hc hnd hl hf
    obtain ⟨k, rfl⟩ : ∃ k, fuel = k + 1 := ⟨fuel - 1, by simp at hf; omega⟩
    obtain ⟨hpa, hpz, hpq, haz, haq, hzq, hpm, ham, hzm, hqm⟩ := nodup_run hnd
    have hci := chain_inner hc
    have hlp := hl p (by simp)
    have hla := hl a (by simp)
    have hlz := hl z (by simp)
    have hlq := hl q (by simp)
    have hlmid : ∀ x ∈ mid, h.live x = true := fun x hx => hl x (by simp [hx])
    have hfm : first_of mid z ∈ mid := first_of_mem_of_ne_nil hm z
    have hlm : last_of a mid ∈ mid := last_of_mem_of_ne_nil a hm
    have hna : h.next_node a = some (first_of mid z) := chain_next_first hci
    have hpz' : h.prev_node z = some (last_of a mid) := chain_prev_last hci
    have hpa' : h.prev_node a = some p := (List.chain'_cons.1 hc).1.2
    have hnz : h.next_node z = some q := by
      have := (chain_snoc (p := p) (l := a :: mid ++ [z]) (z := q)).1 hc
      simpa using this.2.1
    have hpfm : h.prev_node (first_of mid z) = some a := ((chain_cons_first).1 hci).1.2
    have hnlm : h.next_node (last_of a mid) = some z := ((chain_snoc).1 hci).2.1
    have hcmid : List.Chain' (Link h) mid :=
      (List.Chain'.tail hci : List.Chain' (Link h) (mid ++ [z])).left_of_append
    have ne_of_mem : ∀ {x y : Nat}, x ∈ mid → y ∉ mid → x ≠ y := fun hx hy e => hy (e ▸ hx)
    -- one round of the loop
    have hround := @revers_n_loop_round T h p a (first_of mid z)
      (last_of a mid) z q k hlp hla (hlmid _ hfm) (hlmid _ hlm) hlz hlq
      hna hpz' hpa' hnz haz (Ne.symm (ne_of_mem hlm ham)) (Ne.symm hpz)
      (Ne.symm (ne_of_mem hlm hzm)) haq (Ne.symm (ne_of_mem hfm ham))
    set h1 := revers_n_round h p a (first_of mid z) (last_of a mid) z q with hh1
    -- the inner run in the new heap
    have hc1mid : List.Chain' (Link h1) mid := by
      refine chain_frame hcmid ?_
      intro x hx y hy hxy
      have hxlm : x ≠ last_of a mid := by
        intro e
        have h1n := hxy.1
        rw [e, hnlm] at h1n
        exact hzm (by rw [Option.some.inj h1n]; exact hy)
      have hyfm : y ≠ first_of mid z := by
        intro e
        have := hxy.2
        rw [e, hpfm] at this
        exact ham (by rw [Option.some.inj this]; exact hx)
      constructor
      · rw [revers_n_round_next]
        simp [ne_of_mem hx hpm, hxlm, ne_of_mem hx hzm, ne_of_mem hx ham, hxy.1]
      · rw [revers_n_round_prev]
        simp [ne_of_mem hy hqm, hyfm, ne_of_mem hy hzm, ne_of_mem hy ham, hxy.2]
    have hc1 : List.Chain' (Link h1) (z :: mid ++ [a]) := by
      refine chain_snoc.2 ⟨chain_cons_of hm z z hc1mid ⟨?_, ?_⟩, ⟨?_, ?_⟩⟩
      · rw [revers_n_round_next]
        simp [Ne.symm hpz, Ne.symm (ne_of_mem hlm hzm)]
      · rw [revers_n_round_prev]
        simp [ne_of_mem hfm hqm]
      · rw [revers_n_round_next, last_of_ne_nil hm z a]
        simp [ne_of_mem hlm hpm]
      · rw [revers_n_round_prev, last_of_ne_nil hm z a]
        simp [haq, Ne.symm (ne_of_mem hfm ham)]
    have hnd1 : (z :: mid ++ [a]).Nodup := by
      have := nodup_inner hnd
      simp only [List.cons_append, List.nodup_cons, List.mem_append, List.mem_singleton,
        List.nodup_append, not_or] at this ⊢
      simp at this ⊢
      tauto
    obtain ⟨h', hrun, hc', hv', hl', hb', hn', hp'⟩ := ih hm h1 z a k hc1 hnd1
      (by
        intro x hx
        rw [hh1, revers_n_round_live]
        apply hl
        simp at hx ⊢
        tauto)
      (by simp at hf; omega)
    refine ⟨h', ?_, ?_, hv', hl', hb', ?_, ?_⟩
    · have e1 : first_of (a :: mid ++ [z]) q = a := rfl
      have e2 : last_of p (a :: mid ++ [z]) = z := last_of_concat p (a :: mid) z
      rw [e1, e2, hround, ← hrun, first_of_ne_nil hm z a, last_of_ne_nil hm a z]
    · have e : p :: (a :: mid ++ [z]).reverse ++ [q] = p :: z :: (mid.reverse ++ [a]) ++ [q] := by
        simp
      rw [e]
      refine List.chain'_cons.2 ⟨⟨?_, ?_⟩, chain_snoc.2 ⟨hc', ?_, ?_⟩⟩
      · rw [hn' p (by simp [hpz, hpm]), revers_n_round_next]; simp
      · rw [hp' z (by simp [hzm, Ne.symm haz]), revers_n_round_prev]
        simp [hzq, Ne.symm (ne_of_mem hfm hzm), Ne.symm haz]
      · rw [last_of_concat, hn' a (by simp [haz, ham]), revers_n_round_next]
        simp [Ne.symm hpa, Ne.symm (ne_of_mem hlm ham), haz]
      · rw [last_of_concat, hp' q (by simp [hqm, Ne.symm haq]), revers_n_round_prev]; simp
    · intro x hx
      have hxp : x ≠ p := fun e => hx (by simp [e])
      have hxa : x ≠ a := fun e => hx (by simp [e])
      have hxz : x ≠ z := fun e => hx (by simp [e])
      have hxm : x ∉ mid := fun e => hx (by simp [e])
      have hxlm : x ≠ last_of a mid := fun e => hxm (e ▸ hlm)
      rw [hn' x (by simp [hxz, hxm]), revers_n_round_next]
      simp [hxp, hxa, hxz, hxlm]
    · intro x hx
      have hxq : x ≠ q := fun e => hx (by simp [e])
      have hxa : x ≠ a := fun e => hx (by simp [e])
      have hxz : x ≠ z := fun e => hx (by simp [e])
      have hxm : x ∉ mid := fun e => hx (by simp [e])
      have hxfm : x ≠ first_of mid z := fun e => hxm (e ▸ hfm)
      rw [hp' x (by simp [hxa, hxm]), revers_n_round_prev]
      simp [hxq, hxa, hxz, hxfm]

/-- The run `mid` of a linked list with the node before it and the node after it. -/
theorem Linked.run {h : Heap T} {l : list} {hd tl : Nat} {pre mid post : List Nat}
    (hL : Linked h l hd (pre ++ mid ++ post) tl) :
    List.Chain' (Link h) (last_of hd pre :: mid ++ [first_of post tl]) ∧
    (last_of hd pre :: mid ++ [first_of post tl]).Nodup ∧
    (∀ a ∈ last_of hd pre :: mid ++ [first_of post tl], h.live a = true ∧ a < h.brk) ∧
    (∀ x ∈ (hd :: pre) ++ (post ++ [tl]), x ∉ mid) := by
  obtain ⟨hh, ht, hnd, hlive, hc, hhp, htn⟩ := hL
  obtain ⟨A, hA⟩ := split_last hd pre
  obtain ⟨B, hB⟩ := split_first post tl
  have e : hd :: (pre ++ mid ++ post) ++ [tl] =
      A ++ ((last_of hd pre :: mid ++ [first_of post tl]) ++ B) := by
    have : hd :: (pre ++ mid ++ post) ++ [tl] = (hd :: pre) ++ (mid ++ (post ++ [tl])) := by simp
    rw [this, hA, hB]; simp
  have e2 : hd :: (pre ++ mid ++ post) ++ [tl] = (hd :: pre) ++ (mid ++ (post ++ [tl])) := by simp
  refine ⟨?_, ?_, ?_, ?_⟩
  · rw [e] at hc
    exact (List.Chain'.right_of_append hc).left_of_append
  · rw [e] at hnd
    exact (List.nodup_append.1 (List.nodup_append.1 hnd).2.1).1
  · intro a ha
    apply hlive
    rw [e]
    exact List.mem_append_right _ (List.mem_append_left _ ha)
  · rw [e2] at hnd
    intro x hx hxm
    rcases List.mem_append.1 hx with h1 | h1
    · exact (List.nodup_append.1 hnd).2.2 h1 (List.mem_append_left _ hxm)
    · exact (List.nodup_append.1 (List.nodup_append.1 hnd).2.1).2.2 hxm h1

theorem ring_perm {hd tl : Nat} {pre mid mid2 post : List Nat} (hp : mid2.Perm mid) :
    (hd :: (pre ++ mid2 ++ post) ++ [tl]).Perm (hd :: (pre ++ mid ++ post) ++ [tl]) := by
  simp only [List.cons_append]
  exact List.Perm.cons _ (((hp.append_left pre).append_right post).append_right [tl])

/-- `revers_n` on a non-empty range `mid` of a well-formed list. -/
theorem revers_n_spec {h : Heap T} {l : list} {hd tl : Nat} {pre mid post : List Nat}
    (hW : WellFormed h l hd (pre ++ mid ++ post) tl) (hmid : mid ≠ []) {fuel : Nat}
    (hf : mid.length ≤ fuel) :
    ∃ h', l.revers_n fuel h ⟨some (first_of (mid ++ post) tl)⟩ ⟨some (first_of post tl)⟩ = .ok h' ∧
      WellFormed h' l hd (pre ++ mid.reverse ++ post) tl ∧ h'.value_ = h.value_ := by
  obtain ⟨hL, hsz, hlt⟩ := hW
  obtain ⟨hc, hnd, hlive, hout⟩ := hL.run
  by_cases hs : l.size_ < 2
  · -- a list of one node
    refine ⟨h, by simp [list.revers_n, hs], ⟨?_, ?_, hlt⟩, rfl⟩
    · rw [hsz] at hs
      obtain ⟨a, rest, rfl⟩ := List.exists_cons_of_ne_nil hmid
      have : rest = [] := by
        apply List.length_eq_zero.1
        simp at hs; omega
      subst this
      simpa using hL
    · simpa using hsz
  · have hq := chain_prev_last hc
    have hfm : Link h (last_of hd pre) (first_of mid (first_of post tl)) :=
      (chain_cons_first.1 hc).1
    have hfml : h.live (first_of mid (first_of post tl)) = true :=
      (hlive _ (by
        have := first_of_mem_of_ne_nil hmid (first_of post tl)
        simp [this])).1
    have hql : h.live (first_of post tl) = true := (hlive _ (by simp)).1
    obtain ⟨h', hrun, hc', hv', hl', hb', hn', hp'⟩ :=
      revers_n_loop_spec mid hmid h (last_of hd pre) (first_of post tl) fuel hc hnd
        (fun a ha => (hlive a ha).1) hf
    have hperm := @ring_perm hd tl pre mid mid.reverse post
      (List.reverse_perm mid)
    refine ⟨h', ?_, ⟨?_, ?_, hlt⟩, hv'⟩
    · simp only [list.revers_n, hs, if_false, first_of_append,
        minus_one_of_prev hfml hfm.2, minus_one_of_prev hql hq, ok_bind]
      exact hrun
    · refine hL.splice hc' (hperm.nodup_iff.2 hL.2.2.1) ?_ ?_ ?_
      · intro x hx
        rw [hl', hb']
        exact hL.2.2.2.1 x (hperm.mem_iff.1 hx)
      · intro x hx hxp
        exact hn' x (by simp [hxp, hout x hx])
      · intro x hx hxq
        exact hp' x (by simp [hxq, hout x hx])
    · simpa using hsz

/-! ## Removing a range -/

theorem size_t_dec {s : Nat} (h0 : 0 < s) (h1 : s < size_t_mod) :
    (s + (size_t_mod - 1)) % size_t_mod = s - 1 := by
  unfold size_t_mod at *
  omega

theorem size_t_inc {s : Nat} (h1 : s + 1 < size_t_mod) :
    (s + 1) % size_t_mod = s + 1 := Nat.mod_eq_of_lt h1

theorem delete_live {h : Heap T} {a : Nat} (ha : h.live a = true) :
    h.delete (some a) = .ok { h with live := Function.update h.live a false } := by
  simp [Heap.delete, ha]

/-- The loop of `remove` over the nodes `mid` up to `q`: every node of `mid`
is deleted and counted off `size_`; no link changes. -/
theorem remove_loop_spec (q : Nat) : ∀ (mid : List Nat) (h : Heap T) (l : list) (fuel : Nat),
    List.Chain' (Link h) (mid ++ [q]) → (mid ++ [q]).Nodup → (∀ a ∈ mid, h.live a = true) →
    mid.length < fuel → mid.length ≤ l.size_ → l.size_ < size_t_mod →
    ∃ h', list.remove_loop ⟨some q⟩ fuel h l ⟨some (first_of mid q)⟩ =
        .ok (h', { l with size_ := l.size_ - mid.length }, ⟨some q⟩) ∧
      h'.next_node = h.next_node ∧ h'.prev_node = h.prev_node ∧ h'.value_ = h.value_ ∧
      h'.brk = h.brk ∧ (∀ a ∈ mid, h'.live a = false) ∧ (∀ a, a ∉ mid → h'.live a = h.live a) := by
  intro mid
  induction mid with
  | nil =>
    intro h l fuel _ _ _ hf _ _
    obtain ⟨k, rfl⟩ : ∃ k, fuel = k + 1 := ⟨fuel - 1, by simp at hf; omega⟩
    exact ⟨h, by simp [list.remove_loop], rfl, rfl, rfl, rfl, by simp, fun _ _ => rfl⟩
  | cons n ns ih =>
    intro h l fuel hc hnd hl hf hs hlt
    obtain ⟨k, rfl⟩ : ∃ k, fuel = k + 1 := ⟨fuel - 1, by simp at hf; omega⟩
    have hnq : n ≠ q := by
      intro e; subst e; simp at hnd
    have hnns : n ∉ ns := by
      intro hm; simp [hm] at hnd
    have hln := hl n (by simp)
    have hnn : h.next_node n = some (first_of ns q) :=
      (chain_cons_first.1 (show List.Chain' (Link h) (n :: ns ++ [q]) from hc)).1.1
    have hs0 : 0 < l.size_ := by simp at hs; omega
    let h1 : Heap T := { h with live := Function.update h.live n false }
    have hc1 : List.Chain' (Link h1) (ns ++ [q]) :=
      (List.Chain'.tail (show List.Chain' (Link h) (n :: (ns ++ [q])) from hc) : _)
    obtain ⟨h', hrun, hn', hp', hv', hb', hd', hl'⟩ := ih h1
      { l with size_ := l.size_ - 1 } k hc1
      (List.nodup_cons.1 (show (n :: (ns ++ [q])).Nodup from hnd)).2
      (by
        intro a ha
        have : a ≠ n := fun e => hnns (e ▸ ha)
        simp [h1, Function.update_apply, this, hl a (by simp [ha])])
      (by simp at hf; omega) (by simp at hs ⊢; omega) (by simp; omega)
    refine ⟨h', ?_, hn', hp', hv', hb', ?_, ?_⟩
    · simp only [list.remove_loop, first_of_cons]
      simp only [ne_eq, list_iterator.mk.injEq, Option.some.injEq, hnq, not_false_eq_true,
        if_true, incr_of_next hln hnn, ok_bind, delete_live hln, size_t_dec hs0 hlt]
      rw [hrun]
      simp
      omega
    · intro a ha
      rcases List.mem_cons.1 ha with e | hm
      · subst e
        rw [hl' a hnns]
        simp [h1]
      · exact hd' a hm
    · intro a ha
      have han : a ≠ n := fun e => ha (by simp [e])
      rw [hl' a (fun hm => ha (by simp [hm]))]
      simp [h1, Function.update_apply, han]

theorem Linked.of_same_ends {h : Heap T} {l l' : list} {hd tl : Nat} {ns : List Nat}
    (hL : Linked h l hd ns tl) (hh : l'.head_ = l.head_) (ht : l'.tail_ = l.tail_) :
    Linked h l' hd ns tl := by
  unfold Linked at *
  rw [hh, ht]
  exact hL

theorem ring_sublist {hd tl : Nat} {pre mid post : List Nat} :
    (hd :: (pre ++ post) ++ [tl]).Sublist (hd :: (pre ++ mid ++ post) ++ [tl]) := by
  simp only [List.cons_append, List.append_assoc]
  refine List.Sublist.cons₂ _ (List.Sublist.append (List.Sublist.refl _) ?_)
  exact List.sublist_append_right _ _

/-- `remove` on a range `mid` of a well-formed list. -/
theorem remove_spec {h : Heap T} {l : list} {hd tl : Nat} {pre mid post : List Nat}
    (hW : WellFormed h l hd (pre ++ mid ++ post) tl) {fuel : Nat} (hf : mid.length < fuel) :
    ∃ h' l', l.remove fuel h ⟨some (first_of (mid ++ post) tl)⟩ ⟨some (first_of post tl)⟩
        = .ok (h', l') ∧
      WellFormed h' l' hd (pre ++ post) tl ∧ h'.value_ = h.value_ ∧
      l'.size_ + mid.length = l.size_ ∧ (∀ a ∈ mid, h'.live a = false) ∧
      Link h' (last_of hd pre) (first_of post tl) := by
  obtain ⟨hL, hsz, hlt⟩ := hW
  obtain ⟨hc, hnd, hlive, hout⟩ := hL.run
  have hcm : List.Chain' (Link h) (mid ++ [first_of post tl]) := List.Chain'.tail hc
  have hndm : (mid ++ [first_of post tl]).Nodup :=
    (List.nodup_cons.1 (show (last_of hd pre :: (mid ++ [first_of post tl])).Nodup from hnd)).2
  have hpq : last_of hd pre ≠ first_of post tl := by
    intro e
    have := (List.nodup_cons.1
      (show (last_of hd pre :: (mid ++ [first_of post tl])).Nodup from hnd)).1
    exact this (by simp [e])
  have hpm : last_of hd pre ∉ mid := fun hm =>
    (List.nodup_cons.1
      (show (last_of hd pre :: (mid ++ [first_of post tl])).Nodup from hnd)).1 (by simp [hm])
  have hqm : first_of post tl ∉ mid := fun hm =>
    (List.nodup_append.1 hndm).2.2 hm (by simp)
  have hlen : mid.length ≤ l.size_ := by rw [hsz]; simp; omega
  obtain ⟨h1, hrun, hn1, hp1, hv1, hb1, hd1, hl1⟩ :=
    remove_loop_spec (first_of post tl) mid h l fuel hcm hndm
      (fun a ha => (hlive a (by simp [ha])).1) hf hlen hlt
  have hb : Link h (last_of hd pre) (first_of mid (first_of post tl)) :=
    (chain_cons_first.1 hc).1
  have hbl : h.live (first_of mid (first_of post tl)) = true :=
    (hlive _ (List.mem_cons_of_mem _ (first_of_mem mid _))).1
  have hql : h1.live (first_of post tl) = true := by
    rw [hl1 _ hqm]; exact (hlive _ (by simp)).1
  have hpl : h1.live (last_of hd pre) = true := by
    rw [hl1 _ hpm]; exact (hlive _ (by simp)).1
  refine ⟨(h1.upd_prev (first_of post tl) (some (last_of hd pre))).upd_next (last_of hd pre)
    (some (first_of post tl)), { l with size_ := l.size_ - mid.length }, ?_, ⟨?_, ?_, ?_⟩,
    ?_, ?_, ?_, ?_⟩
  · simp [list.remove, first_of_append, get_prev_live hbl, hb.2, hrun, set_prev_live hql,
      set_next_live, hpl]
  · have hsp : Linked ((h1.upd_prev (first_of post tl) (some (last_of hd pre))).upd_next
        (last_of hd pre) (some (first_of post tl))) l hd (pre ++ [] ++ post) tl := by
      refine hL.splice ?_ ?_ ?_ ?_ ?_
      · show List.Chain' _ [last_of hd pre, first_of post tl]
        simp [Link]
      · simpa using List.Nodup.sublist ring_sublist hL.2.2.1
      · intro x hx
        have hx2 : x ∈ (hd :: pre) ++ (post ++ [tl]) := by simpa using hx
        have hx3 : x ∈ hd :: (pre ++ mid ++ post) ++ [tl] := by
          simp at hx2 ⊢; tauto
        simp only [upd_next_live, upd_prev_live, upd_next_brk, upd_prev_brk, hb1,
          hl1 x (hout x hx2)]
        exact hL.2.2.2.1 x hx3
      · intro x _ hxp
        simp [Function.update_apply, hxp, hn1]
      · intro x _ hxq
        simp [Function.update_apply, hxq, hp1]
    exact (by simpa using hsp : Linked _ l hd (pre ++ post) tl).of_same_ends rfl rfl
  · simp at hlen ⊢
    rw [hsz]; simp; omega
  · show l.size_ - mid.length < size_t_mod
    omega
  · simp [hv1]
  · show l.size_ - mid.length + mid.length = l.size_
    omega
  · intro a ha
    simpa using hd1 a ha
  · simp [Link]

/-- The example of the specification: removing `[1, 4)` from `{0,1,2,3,4}`
leaves `{0,4}` with `size()` 2. -/
theorem remove_example_run : remove_example [0, 1, 2, 3, 4] 1 4 = .ok ([0, 4], 2) := rfl

/-! ## Construction, `push_back` and copying -/

/-- A linked list survives a change of the heap that keeps its nodes. -/
theorem Linked.frame {h h' : Heap T} {l : list} {hd tl : Nat} {ns : List Nat}
    (hL : Linked h l hd ns tl)
    (hfr : ∀ a ∈ hd :: ns ++ [tl], h'.next_node a = h.next_node a ∧
      h'.prev_node a = h.prev_node a ∧ h'.live a = h.live a)
    (hb : h.brk ≤ h'.brk) : Linked h' l hd ns tl := by
  obtain ⟨hh, ht, hnd, hlive, hc, hhp, htn⟩ := hL
  refine ⟨hh, ht, hnd, ?_, chain_frame_list hc ?_ ?_, ?_, ?_⟩
  · intro a ha
    rw [(hfr a ha).2.2]
    exact ⟨(hlive a ha).1, Nat.lt_of_lt_of_le (hlive a ha).2 hb⟩
  · intro x hx
    exact (hfr x (List.mem_of_mem_dropLast hx)).1
  · intro y hy
    exact (hfr y (List.mem_of_mem_tail hy)).2.1
  · rw [(hfr hd (by simp)).2.1, hhp]
  · rw [(hfr tl (by simp)).1, htn]

/-- `list()` allocates two fresh nodes and links them; nothing else changes. -/
theorem ctor_spec [Inhabited T] (h : Heap T) :
    ∃ h', list.ctor h = .ok (h', ⟨0, some h.brk, some (h.brk + 1)⟩) ∧
      Linked h' ⟨0, some h.brk, some (h.brk + 1)⟩ (h.brk + 1) [] h.brk ∧
      h'.brk = h.brk + 2 ∧
      (∀ a, a < h.brk → h'.value_ a = h.value_ a ∧ h'.next_node a = h.next_node a ∧
        h'.prev_node a = h.prev_node a ∧ h'.live a = h.live a) := by
  refine ⟨(((h.new_node none default none).2.new_node none default none).2.upd_next
    (h.brk + 1) (some h.brk)).upd_prev h.brk (some (h.brk + 1)), ?_, ?_, ?_, ?_⟩
  · simp [list.ctor, Heap.new_node, Heap.set_next, Heap.set_prev, Function.update_apply]
  · refine ⟨rfl, rfl, by simp, ?_, ?_, ?_, ?_⟩
    · intro a ha
      simp at ha
      rcases ha with e | e
      · subst e; simp [Heap.new_node, Function.update_apply]
      · subst e; simp [Heap.new_node, Function.update_apply]; omega
    · show List.Chain' _ [h.brk + 1, h.brk]
      simp [Link, Heap.new_node, Function.update_apply]
    · simp [Heap.new_node, Function.update_apply]
    · simp [Heap.new_node, Function.update_apply]
  · rfl
  · intro a ha
    have h1 : a ≠ h.brk := by omega
    have h2 : a ≠ h.brk + 1 := by omega
    simp [Heap.new_node, Function.update_apply, h1, h2]

/-- `push_back(value)` on a linked list: one fresh node holding `value` is
linked in before `tail_`. -/
theorem push_back_spec {h : Heap T} {l : list} {hd tl : Nat} {ns : List Nat}
    (hL : Linked h l hd ns tl) (v : T) :
    ∃ h', l.push_back h v = .ok (h', { l with size_ := (l.size_ + 1) % size_t_mod }) ∧
      Linked h' l hd (ns ++ [h.brk]) tl ∧ h'.brk = h.brk + 1 ∧ h'.value_ h.brk = v ∧
      (∀ a, a ≠ h.brk → h'.value_ a = h.value_ a ∧ h'.live a = h.live a) ∧
      (∀ a, a ≠ h.brk → a ≠ last_of hd ns → h'.next_node a = h.next_node a) ∧
      (∀ a, a ≠ h.brk → a ≠ tl → h'.prev_node a = h.prev_node a) := by
  have hlast := hL.last_prev
  have htl := hL.tail_live
  have hmem : last_of hd ns ∈ hd :: ns ++ [tl] :=
    List.mem_append_left _ (last_of_mem hd ns)
  have hll : h.live (last_of hd ns) = true := (hL.2.2.2.1 _ hmem).1
  have hlb : last_of hd ns ≠ h.brk := Nat.ne_of_lt (hL.2.2.2.1 _ hmem).2
  have htb : tl ≠ h.brk := Nat.ne_of_lt (hL.2.2.2.1 tl (by simp)).2
  have hfresh : ∀ x ∈ hd :: ns ++ [tl], x ≠ h.brk := fun x hx =>
    Nat.ne_of_lt (hL.2.2.2.1 x hx).2
  refine ⟨(((h.new_node (some (last_of hd ns)) v (some tl)).2.upd_prev tl (some h.brk)).upd_next
    (last_of hd ns) (some h.brk)), ?_, ?_, rfl, ?_, ?_, ?_, ?_⟩
  · simp [list.push_back, hL.2.1, get_prev_live htl, hlast, Heap.new_node, Heap.set_prev,
      Heap.set_next, Function.update_apply, htb, hlb, htl, hll]
  · have h0 : Linked h l hd (ns ++ [] ++ []) tl := by simpa using hL
    have := @Linked.splice T h (((h.new_node (some (last_of hd ns)) v (some tl)).2.upd_prev tl
        (some h.brk)).upd_next (last_of hd ns) (some h.brk)) l hd tl ns [] [h.brk] [] h0
        ?_ ?_ ?_ ?_ ?_
    · simpa using this
    · show List.Chain' _ [last_of hd ns, h.brk, tl]
      simp [Link, Heap.new_node, Function.update_apply, htb, hlb, Ne.symm hlb, Ne.symm htb]
    · have hnd := hL.2.2.1
      have e : hd :: (ns ++ [h.brk] ++ []) ++ [tl] = (hd :: ns) ++ h.brk :: [tl] := by simp
      have e2 : hd :: ns ++ [tl] = (hd :: ns) ++ [tl] := rfl
      rw [e]
      rw [e2] at hnd
      have h1 := List.nodup_append.1 hnd
      refine List.nodup_append.2 ⟨h1.1, ?_, ?_⟩
      · simp [Ne.symm htb]
      · intro x hx hx2
        rcases List.mem_cons.1 hx2 with e3 | e3
        · exact hfresh x (List.mem_append_left _ hx) e3
        · exact h1.2.2 hx e3
    · intro x hx
      have hx2 : x = h.brk ∨ x ∈ hd :: ns ++ [tl] := by
        simp at hx ⊢; tauto
      rcases hx2 with e | hx2
      · subst e; simp [Heap.new_node]
      · have := hL.2.2.2.1 x hx2
        simp [Heap.new_node, Function.update_apply, hfresh x hx2, this.1]
        omega
    · intro x hx hxl
      have hx2 : x ∈ hd :: ns ++ [tl] := by simpa using hx
      simp [Heap.new_node, Function.update_apply, hxl, hfresh x hx2]
    · intro x hx hxt
      have hx2 : x ∈ hd :: ns ++ [tl] := by simpa using hx
      have hxt2 : x ≠ tl := by simpa using hxt
      simp [Heap.new_node, Function.update_apply, hxt2, hfresh x hx2]
  · simp [Heap.new_node]
  · intro a ha
    simp [Heap.new_node, Function.update_apply, ha]
  · intro a ha hal
    simp [Heap.new_node, Function.update_apply, ha, hal]
  · intro a ha hat
    simp [Heap.new_node, Function.update_apply, ha, hat]

theorem size_t_add_succ (s n : Nat) :
    ((s + 1) % size_t_mod + n) % size_t_mod = (s + (n + 1)) % size_t_mod := by
  unfold size_t_mod
  omega

/-- The range-for loop that pushes the items at `rest` (up to `ts`) onto the
list `dst`: one fresh node per item, in order, holding its value. -/
theorem append_loop_spec (ts hd2 td : Nat) : ∀ (rest : List Nat) (h : Heap T) (dst : list)
    (ms : List Nat) (fuel : Nat),
    Linked h dst hd2 ms td → dst.size_ < size_t_mod →
    List.Chain' (Link h) (rest ++ [ts]) → (rest ++ [ts]).Nodup →
    (∀ a ∈ rest ++ [ts], h.live a = true ∧ a < h.brk ∧ a ∉ hd2 :: ms ++ [td]) →
    rest.length < fuel →
    ∃ h', list.append_loop ⟨some ts⟩ fuel h dst ⟨some (first_of rest ts)⟩ =
        .ok (h', { dst with size_ := (dst.size_ + rest.length) % size_t_mod }) ∧
      Linked h' dst hd2 (ms ++ List.range' h.brk rest.length) td ∧
      h'.brk = h.brk + rest.length ∧
      (List.range' h.brk rest.length).map h'.value_ = rest.map h.value_ ∧
      (∀ a, a < h.brk → h'.value_ a = h.value_ a ∧ h'.live a = h.live a) ∧
      (∀ a, a < h.brk → a ≠ last_of hd2 ms → h'.next_node a = h.next_node a) ∧
      (∀ a, a < h.brk → a ≠ td → h'.prev_node a = h.prev_node a) := by
  intro rest
  induction rest with
  | nil =>
    intro h dst ms fuel hL hlt _ _ _ hf
    obtain ⟨k, rfl⟩ : ∃ k, fuel = k + 1 := ⟨fuel - 1, by simp at hf; omega⟩
    refine ⟨h, ?_, by simpa using hL, rfl, rfl, fun _ _ => ⟨rfl, rfl⟩, fun _ _ _ => rfl,
      fun _ _ _ => rfl⟩
    simp [list.append_loop, Nat.mod_eq_of_lt hlt]
  | cons r rest ih =>
    intro h dst ms fuel hL hlt hc hnd hsrc hf
    obtain ⟨k, rfl⟩ : ∃ k, fuel = k + 1 := ⟨fuel - 1, by simp at hf; omega⟩
    have hrts : r ≠ ts := by
      intro e; subst e; simp at hnd
    obtain ⟨hlr, hrb, hrd⟩ := hsrc r (by simp)
    have hnr : h.next_node r = some (first_of rest ts) :=
      (chain_cons_first.1 (show List.Chain' (Link h) (r :: rest ++ [ts]) from hc)).1.1
    have hrlast : r ≠ last_of hd2 ms := fun e =>
      hrd (e ▸ List.mem_append_left _ (last_of_mem hd2 ms))
    obtain ⟨h1, hpb, hL1, hb1, hv1, hfv1, hfn1, hfp1⟩ := push_back_spec hL (h.value_ r)
    have hsrc1 : ∀ a ∈ rest ++ [ts], h1.live a = true ∧ a < h1.brk ∧
        a ∉ hd2 :: (ms ++ [h.brk]) ++ [td] := by
      intro a ha
      obtain ⟨h2, h3, h4⟩ := hsrc a (List.mem_cons_of_mem _ ha)
      refine ⟨by rw [(hfv1 a (Nat.ne_of_lt h3)).2]; exact h2, by omega, ?_⟩
      intro hm
      have : a = h.brk ∨ a ∈ hd2 :: ms ++ [td] := by
        simp at hm ⊢; tauto
      rcases this with e | hm2
      · omega
      · exact h4 hm2
    have hc1 : List.Chain' (Link h1) (rest ++ [ts]) := by
      refine chain_frame_list (List.Chain'.tail hc : List.Chain' (Link h) (rest ++ [ts])) ?_ ?_
      · intro x hx
        obtain ⟨_, h3, h4⟩ := hsrc x (List.mem_cons_of_mem _ (List.mem_of_mem_dropLast hx))
        exact hfn1 x (Nat.ne_of_lt h3)
          (fun e => h4 (e ▸ List.mem_append_left _ (last_of_mem hd2 ms)))
      · intro y hy
        obtain ⟨_, h3, h4⟩ := hsrc y (List.mem_cons_of_mem _ (List.mem_of_mem_tail hy))
        exact hfp1 y (Nat.ne_of_lt h3) (fun e => h4 (by simp [e]))
    obtain ⟨h', hrun, hL', hb', hv', hfv', hfn', hfp'⟩ := ih h1
      { dst with size_ := (dst.size_ + 1) % size_t_mod } (ms ++ [h.brk]) k
      (hL1.of_same_ends rfl rfl) (Nat.mod_lt _ (by unfold size_t_mod; omega)) hc1
      (List.nodup_cons.1 (show (r :: (rest ++ [ts])).Nodup from hnd)).2 hsrc1
      (by simp at hf; omega)
    refine ⟨h', ?_, ?_, ?_, ?_, ?_, ?_, ?_⟩
    · have hlr1 : h1.live r = true := by rw [(hfv1 r (Nat.ne_of_lt hrb)).2]; exact hlr
      have hnr1 : h1.next_node r = some (first_of rest ts) := by
        rw [hfn1 r (Nat.ne_of_lt hrb) hrlast]; exact hnr
      simp only [list.append_loop, first_of_cons, list_iterator.mk.injEq, Option.some.injEq,
        hrts, if_false, list_iterator.deref, get_value_live hlr, ok_bind, hpb,
        incr_of_next hlr1 hnr1, hrun, size_t_add_succ, List.length_cons]
    · have := @Linked.of_same_ends T _ _ dst _ _ _ hL' rfl rfl
      rw [hb1] at this
      simpa [List.range'_succ] using this
    · rw [hb', hb1]; simp; omega
    · rw [hb1] at hv' hfv'
      simp only [List.length_cons, List.range'_succ, List.map_cons, hv']
      rw [(hfv' h.brk (by omega)).1, hv1]
      congr 1
      apply List.map_congr_left
      intro a ha
      exact (hfv1 a (Nat.ne_of_lt (hsrc a (by simp [ha])).2.1)).1
    · intro a ha
      rw [(hfv' a (by omega)).1, (hfv' a (by omega)).2, (hfv1 a (Nat.ne_of_lt ha)).1,
        (hfv1 a (Nat.ne_of_lt ha)).2]
      exact ⟨rfl, rfl⟩
    · intro a ha hal
      rw [hfn' a (by omega) (by rw [last_of_concat]; omega), hfn1 a (Nat.ne_of_lt ha) hal]
    · intro a ha hat
      rw [hfp' a (by omega) hat, hfp1 a (Nat.ne_of_lt ha) hat]

theorem dtor_uninit (h : Heap T) : list.dtor 0 h list.uninit = .ok h := by
  simp [list.dtor, list.clear, list.empty, list.uninit, Heap.delete]

/-- The copy constructor on a well-formed list: the copy is a well-formed list
of fresh nodes holding the same values in the same order, and no node that
existed before is changed. -/
theorem copy_ctor_spec [Inhabited T] {h : Heap T} {src : list} {hd tl : Nat} {ns : List Nat}
    (hW : WellFormed h src hd ns tl) {fuel : Nat} (hf : ns.length < fuel) :
    ∃ h' cp, list.copy_ctor fuel h src = .ok (h', cp) ∧
      WellFormed h' cp (h.brk + 1) (List.range' (h.brk + 2) ns.length) h.brk ∧
      (List.range' (h.brk + 2) ns.length).map h'.value_ = ns.map h.value_ ∧
      h.brk ≤ h'.brk ∧
      (∀ a, a < h.brk → h'.value_ a = h.value_ a ∧ h'.next_node a = h.next_node a ∧
        h'.prev_node a = h.prev_node a ∧ h'.live a = h.live a) := by
  obtain ⟨hL, hsz, hlt⟩ := hW
  obtain ⟨h1, hctor, hL1, hb1, hfr1⟩ := ctor_spec h
  have hold : ∀ a ∈ hd :: ns ++ [tl], a < h.brk := fun a ha => (hL.2.2.2.1 a ha).2
  have hLs1 : Linked h1 src hd ns tl :=
    hL.frame (fun a ha => (hfr1 a (hold a ha)).2) (by omega)
  have hc1 : List.Chain' (Link h1) (ns ++ [tl]) := List.Chain'.tail hLs1.2.2.2.2.1
  have hnd1 : (ns ++ [tl]).Nodup :=
    (List.nodup_cons.1 (show (hd :: (ns ++ [tl])).Nodup from hL.2.2.1)).2
  have hsrc1 : ∀ a ∈ ns ++ [tl], h1.live a = true ∧ a < h1.brk ∧
      a ∉ (h.brk + 1) :: [] ++ [h.brk] := by
    intro a ha
    have ha2 : a ∈ hd :: ns ++ [tl] := List.mem_cons_of_mem _ ha
    have := hold a ha2
    refine ⟨(hLs1.2.2.2.1 a ha2).1, (hLs1.2.2.2.1 a ha2).2, ?_⟩
    simp; omega
  obtain ⟨h2, hrun, hL2, hb2, hv2, hfv2, hfn2, hfp2⟩ :=
    append_loop_spec tl (h.brk + 1) h.brk ns h1 ⟨0, some h.brk, some (h.brk + 1)⟩ [] fuel hL1
      (by unfold size_t_mod; simp) hc1 hnd1 hsrc1 hf
  have hn : ns.length % size_t_mod = ns.length := Nat.mod_eq_of_lt (hsz ▸ hlt)
  refine ⟨h2, ⟨ns.length, some h.brk, some (h.brk + 1)⟩, ?_, ⟨?_, ?_, ?_⟩, ?_, ?_, ?_⟩
  · simp [list.copy_ctor, hctor, hLs1.begin_eq, hLs1.end_eq, hrun, list.swap, dtor_uninit, hn]
  · rw [hb1] at hL2
    exact (by simpa using hL2 : Linked h2 _ (h.brk + 1) _ h.brk).of_same_ends rfl rfl
  · simp
  · show ns.length < size_t_mod
    exact hsz ▸ hlt
  · rw [hb1] at hv2
    rw [hv2]
    apply List.map_congr_left
    intro a ha
    exact (hfr1 a (hold a (by simp [ha]))).1
  · rw [hb2, hb1]; omega
  · intro a ha
    have h3 := hfr1 a ha
    rw [(hfv2 a (by omega)).1, (hfv2 a (by omega)).2,
      hfn2 a (by omega) (by simp; omega), hfp2 a (by omega) (by omega)]
    exact h3

/-- The loop of `operator==` over two runs holding equal values. -/
theorem eq_loop_spec [DecidableEq T] (h : Heap T) (q1 q2 : Nat) : ∀ (ns ms : List Nat)
    (fuel : Nat), List.Chain' (Link h) (ns ++ [q1]) → List.Chain' (Link h) (ms ++ [q2]) →
    q1 ∉ ns → q2 ∉ ms → (∀ a ∈ ns, h.live a = true) → (∀ a ∈ ms, h.live a = true) →
    ns.map h.value_ = ms.map h.value_ → ns.length < fuel →
    list.eq_loop h ⟨some q1⟩ ⟨some q2⟩ fuel ⟨some (first_of ns q1)⟩ ⟨some (first_of ms q2)⟩
      = .ok true := by
  intro ns
  induction ns with
  | nil =>
    intro ms fuel _ _ _ _ _ _ _ hf
    obtain ⟨k, rfl⟩ : ∃ k, fuel = k + 1 := ⟨fuel - 1, by simp at hf; omega⟩
    simp [list.eq_loop]
  | cons n ns ih =>
    intro ms fuel hc1 hc2 hq1 hq2 hl1 hl2 hv hf
    obtain ⟨k, rfl⟩ : ∃ k, fuel = k + 1 := ⟨fuel - 1, by simp at hf; omega⟩
    cases ms with
    | nil => simp at hv
    | cons m ms =>
      simp only [List.map_cons, List.cons.injEq] at hv
      have hn1 : n ≠ q1 := fun e => hq1 (by simp [e])
      have hm2 : m ≠ q2 := fun e => hq2 (by simp [e])
      have hnn := (chain_cons_first.1 (show List.Chain' (Link h) (n :: ns ++ [q1]) from hc1)).1.1
      have hnm := (chain_cons_first.1 (show List.Chain' (Link h) (m :: ms ++ [q2]) from hc2)).1.1
      have := ih ms k (List.Chain'.tail hc1 : List.Chain' (Link h) (ns ++ [q1]))
        (List.Chain'.tail hc2 : List.Chain' (Link h) (ms ++ [q2]))
        (fun hm => hq1 (List.mem_cons_of_mem _ hm)) (fun hm => hq2 (List.mem_cons_of_mem _ hm))
        (fun a ha => hl1 a (List.mem_cons_of_mem _ ha))
        (fun a ha => hl2 a (List.mem_cons_of_mem _ ha)) hv.2 (by simp at hf; omega)
      simp [list.eq_loop, hn1, hm2, list_iterator.deref, get_value_live (hl1 n (by simp)),
        get_value_live (hl2 m (by simp)), hv.1, incr_of_next (hl1 n (by simp)) hnn,
        incr_of_next (hl2 m (by simp)) hnm, this]

/-- `operator==` on two linked lists of equal `size_` holding equal value sequences. -/
theorem operator_eq_of_equal [DecidableEq T] {h : Heap T} {l r : list} {hd1 tl1 hd2 tl2 : Nat}
    {ns ms : List Nat} (hL : Linked h l hd1 ns tl1) (hR : Linked h r hd2 ms tl2)
    (hs : l.size_ = r.size_) (hv : ns.map h.value_ = ms.map h.value_) {fuel : Nat}
    (hf : ns.length < fuel) : list.operator_eq fuel h l r = .ok true := by
  simp only [list.operator_eq, hs, ne_eq, not_true_eq_false, if_false, hL.begin_eq, hR.begin_eq,
    hL.end_eq, hR.end_eq, ok_bind]
  exact eq_loop_spec h tl1 tl2 ns ms fuel (List.Chain'.tail hL.2.2.2.2.1)
    (List.Chain'.tail hR.2.2.2.2.1) (nodup_ring hL.2.2.1).2.1 (nodup_ring hR.2.2.1).2.1
    (fun a ha => hL.node_live ha) (fun a ha => hR.node_live ha) hv hf

theorem incr_times_chain (h : Heap T) (q : Nat) : ∀ (i : Nat) (ns : List Nat),
    List.Chain' (Link h) (ns ++ [q]) → (∀ a ∈ ns, h.live a = true) → i ≤ ns.length →
    list_iterator.incr_times h i ⟨some (first_of ns q)⟩ = .ok ⟨some (first_of (ns.drop i) q)⟩ := by
  intro i
  induction i with
  | zero => intro ns _ _ _; simp [list_iterator.incr_times]
  | succ i ih =>
    intro ns hc hl hi
    cases ns with
    | nil => simp at hi
    | cons n ns =>
      have hnn := (chain_cons_first.1 (show List.Chain' (Link h) (n :: ns ++ [q]) from hc)).1.1
      have := ih ns (List.Chain'.tail hc : List.Chain' (Link h) (ns ++ [q]))
        (fun a ha => hl a (List.mem_cons_of_mem _ ha)) (by simp at hi; omega)
      simp [list_iterator.incr_times, incr_of_next (hl n (by simp)) hnn, this]

/-- `operator[]` on a linked list reads the value sequence at the index, for
indices below `INT_MAX` (the counter of `operator+` is an `int`). -/
theorem Linked.index_eq {h : Heap T} {l : list} {hd tl : Nat} {ns : List Nat}
    (hL : Linked h l hd ns tl) {i : Nat} {v : T} (hi0 : i < int_max)
    (hv : (ns.map h.value_)[i]? = some v) : l.index h i = .ok v := by
  obtain ⟨hi, hvi⟩ := List.getElem?_eq_some.1 hv
  have hi2 : i < ns.length := by simpa using hi
  have hd := List.drop_eq_getElem_cons hi2
  have hpl := incr_times_chain h tl i ns (List.Chain'.tail hL.2.2.2.2.1)
    (fun a ha => hL.node_live ha) (Nat.le_of_lt hi2)
  rw [hd, first_of_cons] at hpl
  have hlive : h.live ns[i] = true := hL.node_live (List.getElem_mem _)
  simp only [list.index, hL.begin_eq, ok_bind, plus_eq_incr_times h _ hi0, hpl, noexcept,
    list_iterator.deref, get_value_live hlive]
  simp at hvi
  rw [hvi]

/-! ## Concatenation -/

theorem size_t_plus_eq {n m : Nat} :
    ((n + m) % size_t_mod + m) % size_t_mod = (n + 2 * m) % size_t_mod := by
  unfold size_t_mod
  omega

/-- `left += right` on two well-formed lists without a common node: the values
of `right` are appended in order, `right` is unchanged, and `size_` grows by
twice the length of `right` (modulo `2 ^ 64`). -/
theorem operator_plus_eq_spec {h : Heap T} {left right : list} {hd1 tl1 hd2 tl2 : Nat}
    {ns ms : List Nat} (hWl : WellFormed h left hd1 ns tl1) (hWr : WellFormed h right hd2 ms tl2)
    (hdisj : ∀ a ∈ hd2 :: ms ++ [tl2], a ∉ hd1 :: ns ++ [tl1]) {fuel : Nat}
    (hf : ns.length + ms.length < fuel) :
    ∃ h' l, list.operator_plus_eq fuel h left right = .ok (h', l) ∧
      Linked h' l hd1 (ns ++ List.range' h.brk ms.length) tl1 ∧
      l.to_list fuel h' = .ok (ns.map h.value_ ++ ms.map h.value_) ∧
      l.size = (ns.length + 2 * ms.length) % size_t_mod ∧
      WellFormed h' right hd2 ms tl2 ∧ right.to_list fuel h' = .ok (ms.map h.value_) := by
  obtain ⟨hLl, hsl, hltl⟩ := hWl
  obtain ⟨hLr, hsr, hltr⟩ := hWr
  have hsrc : ∀ a ∈ ms ++ [tl2], h.live a = true ∧ a < h.brk ∧ a ∉ hd1 :: ns ++ [tl1] :=
    fun a ha => ⟨(hLr.2.2.2.1 a (List.mem_cons_of_mem _ ha)).1,
      (hLr.2.2.2.1 a (List.mem_cons_of_mem _ ha)).2, hdisj a (List.mem_cons_of_mem _ ha)⟩
  obtain ⟨h', hrun, hL', hb', hv', hfv', hfn', hfp'⟩ :=
    append_loop_spec tl2 hd1 tl1 ms h left ns fuel hLl hltl (List.Chain'.tail hLr.2.2.2.2.1)
      (List.nodup_cons.1 (show (hd2 :: (ms ++ [tl2])).Nodup from hLr.2.2.1)).2 hsrc
      (by omega)
  have hLr' : Linked h' right hd2 ms tl2 := by
    refine hLr.frame ?_ (by omega)
    intro a ha
    have hlt := (hLr.2.2.2.1 a ha).2
    have hn := hdisj a ha
    refine ⟨hfn' a hlt ?_, hfp' a hlt ?_, (hfv' a hlt).2⟩
    · intro e
      exact hn (e ▸ List.mem_append_left _ (last_of_mem hd1 ns))
    · intro e
      exact hn (by simp [e])
  have hvl : ns.map h'.value_ = ns.map h.value_ :=
    List.map_congr_left (fun a ha => (hfv' a (hLl.2.2.2.1 a (by simp [ha])).2).1)
  have hvr : ms.map h'.value_ = ms.map h.value_ :=
    List.map_congr_left (fun a ha => (hfv' a (hLr.2.2.2.1 a (by simp [ha])).2).1)
  have hLres : Linked h' { left with size_ :=
      ((left.size_ + ms.length) % size_t_mod + right.size_) % size_t_mod } hd1
      (ns ++ List.range' h.brk ms.length) tl1 := @Linked.of_same_ends T _ _ _ _ _ _ hL' rfl rfl
  refine ⟨h', _, ?_, hLres, ?_, ?_, ⟨hLr', hsr, hltr⟩, ?_⟩
  · simp only [list.operator_plus_eq, hLr.begin_eq, hLr.end_eq, ok_bind, hrun]
  · rw [hLres.to_list_eq (by simp; omega)]
    simp [hvl, hv']
  · show ((left.size_ + ms.length) % size_t_mod + right.size_) % size_t_mod = _
    rw [hsl, hsr, size_t_plus_eq]
  · rw [hLr'.to_list_eq (by omega), hvr]

/-- `left + right` on two well-formed lists: the result holds the values of
`left` followed by those of `right`, and its `size_` is the length of `left`
plus twice the length of `right` (modulo `2 ^ 64`). -/
theorem operator_plus_spec [Inhabited T] {h : Heap T} {left right : list}
    {hd1 tl1 hd2 tl2 : Nat} {ns ms : List Nat} (hWl : WellFormed h left hd1 ns tl1)
    (hWr : WellFormed h right hd2 ms tl2) {fuel : Nat} (hf : ns.length + ms.length < fuel) :
    ∃ h' l, list.operator_plus fuel h left right = .ok (h', l) ∧
      l.to_list fuel h' = .ok (ns.map h.value_ ++ ms.map h.value_) ∧
      l.size = (ns.length + 2 * ms.length) % size_t_mod := by
  obtain ⟨h1, cp, hrun1, hWc, hvc, hbrk, hfr⟩ := copy_ctor_spec hWl (by omega : ns.length < fuel)
  have hold : ∀ a ∈ hd2 :: ms ++ [tl2], a < h.brk := fun a ha => (hWr.1.2.2.2.1 a ha).2
  have hWr1 : WellFormed h1 right hd2 ms tl2 :=
    ⟨hWr.1.frame (fun a ha => (hfr a (hold a ha)).2) hbrk, hWr.2⟩
  have hdisj : ∀ a ∈ hd2 :: ms ++ [tl2],
      a ∉ (h.brk + 1) :: List.range' (h.brk + 2) ns.length ++ [h.brk] := by
    intro a ha hm
    have := hold a ha
    simp [List.mem_range'] at hm
    omega
  obtain ⟨h2, l, hrun2, _, hv2, hs2, _, _⟩ :=
    operator_plus_eq_spec hWc hWr1 hdisj (by simpa using hf)
  refine ⟨h2, l, ?_, ?_, ?_⟩
  · simp only [list.operator_plus, hrun1, ok_bind, hrun2]
  · rw [hv2, hvc]
    congr 2
    exact List.map_congr_left (fun a ha => (hfr a (hold a (by simp [ha]))).1)
  · simpa using hs2

/-! ## Ordering -/

/-- The loop of `lexicographical_compare_` over two runs that hold the same
values as far as the shorter one goes: the outcome is true exactly when both
runs end together. -/
theorem lex_loop_common [LT T] [DecidableRel (fun (a b : T) => a < b)]
    (hirr : ∀ a : T, ¬ a < a) (h : Heap T) (q1 q2 : Nat) :
    ∀ (c1 c2 r1 r2 : List Nat) (fuel : Nat),
    List.Chain' (Link h) (c1 ++ r1 ++ [q1]) → List.Chain' (Link h) (c2 ++ r2 ++ [q2]) →
    q1 ∉ c1 ++ r1 → q2 ∉ c2 ++ r2 → (∀ a ∈ c1, h.live a = true) → (∀ a ∈ c2, h.live a = true) →
    c1.map h.value_ = c2.map h.value_ → (r1 = [] ∨ r2 = []) → c1.length < fuel →
    list.lex_loop h ⟨some q1⟩ ⟨some q2⟩ fuel ⟨some (first_of (c1 ++ r1) q1)⟩
      ⟨some (first_of (c2 ++ r2) q2)⟩ = .ok (decide (r1 = [] ∧ r2 = [])) := by
  intro c1
  induction c1 with
  | nil =>
    intro c2 r1 r2 fuel _ _ hq1 hq2 _ _ hv hr hf
    obtain ⟨k, rfl⟩ : ∃ k, fuel = k + 1 := ⟨fuel - 1, by simp at hf; omega⟩
    have hc2 : c2 = [] := by simpa using hv.symm
    subst hc2
    rcases hr with e | e
    · subst e
      cases r2 with
      | nil => simp [list.lex_loop]
      | cons m r2 =>
        have : m ≠ q2 := fun e => hq2 (by simp [e])
        simp [list.lex_loop, this]
    · subst e
      cases r1 with
      | nil => simp [list.lex_loop]
      | cons n r1 =>
        have : n ≠ q1 := fun e => hq1 (by simp [e])
        simp [list.lex_loop, this]
  | cons n c1 ih =>
    intro c2 r1 r2 fuel hch1 hch2 hq1 hq2 hl1 hl2 hv hr hf
    obtain ⟨k, rfl⟩ : ∃ k, fuel = k + 1 := ⟨fuel - 1, by simp at hf; omega⟩
    cases c2 with
    | nil => simp at hv
    | cons m c2 =>
      simp only [List.map_cons, List.cons.injEq] at hv
      have hn1 : n ≠ q1 := fun e => hq1 (by simp [e])
      have hm2 : m ≠ q2 := fun e => hq2 (by simp [e])
      have hnn := (chain_cons_first.1
        (show List.Chain' (Link h) (n :: (c1 ++ r1) ++ [q1]) from hch1)).1.1
      have hnm := (chain_cons_first.1
        (show List.Chain' (Link h) (m :: (c2 ++ r2) ++ [q2]) from hch2)).1.1
      have := ih c2 r1 r2 k
        (List.Chain'.tail hch1 : List.Chain' (Link h) (c1 ++ r1 ++ [q1]))
        (List.Chain'.tail hch2 : List.Chain' (Link h) (c2 ++ r2 ++ [q2]))
        (fun hm => hq1 (List.mem_cons_of_mem _ hm)) (fun hm => hq2 (List.mem_cons_of_mem _ hm))
        (fun a ha => hl1 a (List.mem_cons_of_mem _ ha))
        (fun a ha => hl2 a (List.mem_cons_of_mem _ ha)) hv.2 hr (by simp at hf; omega)
      simp only [List.cons_append, first_of_cons, list.lex_loop, ne_eq, list_iterator.mk.injEq,
        Option.some.injEq, hn1, hm2, not_false_eq_true, and_self, if_true, list_iterator.deref,
        get_value_live (hl1 n (by simp)), get_value_live (hl2 m (by simp)), ok_bind, hv.1,
        hirr, if_false, incr_of_next (hl1 n (by simp)) hnn, incr_of_next (hl2 m (by simp)) hnm]
      exact this

/-- `left < right` on two linked lists whose value sequences agree as far as
the shorter one goes (`c1`, `c2` the nodes holding the common part, `r1`, `r2`
the remaining nodes, one of them empty): the outcome is true exactly when the
sequences are equal. -/
theorem operator_lt_common [LT T] [DecidableRel (fun (a b : T) => a < b)]
    (hirr : ∀ a : T, ¬ a < a) {h : Heap T} {left right : list} {hd1 tl1 hd2 tl2 : Nat}
    {c1 c2 r1 r2 : List Nat} (hL : Linked h left hd1 (c1 ++ r1) tl1)
    (hR : Linked h right hd2 (c2 ++ r2) tl2) (hv : c1.map h.value_ = c2.map h.value_)
    (hr : r1 = [] ∨ r2 = []) {fuel : Nat} (hf : c1.length < fuel) :
    list.operator_lt fuel h left right = .ok (decide (r1 = [] ∧ r2 = [])) := by
  simp only [list.operator_lt, list.lexicographical_compare_, hL.begin_eq, hR.begin_eq,
    hL.end_eq, hR.end_eq, ok_bind]
  exact lex_loop_common hirr h tl1 tl2 c1 c2 r1 r2 fuel (List.Chain'.tail hL.2.2.2.2.1)
    (List.Chain'.tail hR.2.2.2.2.1) (nodup_ring hL.2.2.1).2.1 (nodup_ring hR.2.2.1).2.1
    (fun a ha => hL.node_live (List.mem_append_left _ ha))
    (fun a ha => hR.node_live (List.mem_append_left _ ha)) hv hr hf

/-! ## Iterator steps and distance -/

@[simp] theorem except_ok_bind {ε α β : Type} (a : α) (f : α → Except ε β) :
    (Except.ok a >>= f) = f a := rfl

@[simp] theorem except_error_bind {ε α β : Type} (e : ε) (f : α → Except ε β) :
    ((Except.error e : Except ε α) >>= f) = Except.error e := rfl

@[simp] theorem with_state_ok {σ α : Type} (s : σ) (a : α) :
    with_state s (Except.ok a : Except Exn α) = .ok a := rfl

@[simp] theorem with_state_error {σ α : Type} (s : σ) (e : Exn) :
    with_state s (Except.error e : Except Exn α) = .error (e, s) := rfl

/-- `operator++` on the object and the step `incr` agree. -/
theorem operator_incr_agrees (h : Heap T) (it it2 : list_iterator) :
    it.operator_incr h = .ok it2 ↔ it.incr h = .ok it2 := by
  unfold list_iterator.operator_incr list_iterator.incr
  cases h.get_next it.node_ with
  | error e => simp
  | ok n => cases n <;> simp

/-- `operator--` on the object and the step `decr` agree. -/
theorem operator_decr_agrees (h : Heap T) (it it2 : list_iterator) :
    it.operator_decr h = .ok it2 ↔ it.decr h = .ok it2 := by
  unfold list_iterator.operator_decr list_iterator.decr
  cases h.get_prev it.node_ with
  | error e => simp
  | ok n => cases n <;> simp

/-- A node of a list other than the last one is followed by a node. -/
theorem mem_split_next {L : List Nat} {x : Nat} (hx : x ∈ L) (z : Nat) (R : List Nat)
    (hL : L = R ++ [z]) (hxz : x ≠ z) : ∃ A b B, L = A ++ x :: b :: B := by
  obtain ⟨s, t, hst⟩ := List.append_of_mem hx
  cases t with
  | nil =>
    exfalso
    rw [hst] at hL
    have := List.append_inj_right' hL rfl
    simp at this
    exact hxz this
  | cons b B => exact ⟨s, b, B, hst⟩

/-- A node of a list other than the first one follows a node. -/
theorem mem_split_prev {L : List Nat} {x : Nat} (hx : x ∈ L) (p : Nat) (R : List Nat)
    (hL : L = p :: R) (hxp : x ≠ p) : ∃ A b B, L = A ++ b :: x :: B := by
  obtain ⟨s, t, hst⟩ := List.append_of_mem hx
  rcases List.eq_nil_or_concat s with e | ⟨A, b, e⟩
  · exfalso
    subst e
    rw [hst] at hL
    simp at hL
    exact hxp hL.1
  · refine ⟨A, b, t, ?_⟩
    rw [hst, e]
    simp

theorem chain_link_of_split {h : Heap T} {L A B : List Nat} {x y : Nat}
    (hc : List.Chain' (Link h) L) (hL : L = A ++ x :: y :: B) : Link h x y := by
  rw [hL] at hc
  exact (List.chain'_cons.1 (List.Chain'.right_of_append hc)).1

theorem distance_loop_never_returns (h : Heap T) (a b : list_iterator) (hne : a ≠ b)
    (k : Nat) : ∀ (fuel result : Nat), list_iterator.distance_loop h b fuel result a ≠ .ok k := by
  intro fuel
  induction fuel with
  | zero => intro result; simp [list_iterator.distance_loop]
  | succ fuel ih =>
    intro result
    simp only [list_iterator.distance_loop, ne_eq, hne, not_false_eq_true, if_true,
      list_iterator.operator_plus_eq]
    cases hp : a.plus h 1 with
    | error e => cases e <;> simp [noexcept]
    | ok r =>
      simp only [except_ok_bind, noexcept]
      split
      · exact ih (result + 1)
      · simp

/-- The distance of an iterator from itself is 0. -/
theorem distance_self (h : Heap T) (a : list_iterator) (fuel : Nat) :
    list_iterator.distance (fuel + 1) h a a = .ok 0 := by
  simp [list_iterator.distance, list_iterator.distance_loop]

/-- On `{1,2,3}` the computation of `end() - begin()` uses up any fuel below `2 ^ 63`. -/
theorem distance_example_run : distance_example [1, 2, 3] 50 = .error .out_of_fuel := rfl

/-! ## `insert` and `pop` -/

/-- `insert(pos, value)` with `pos` at the last node of `hd :: pre`, the nodes
of the list being `pre ++ post`: one fresh node holding `value` is linked in
after `pos`. -/
theorem insert_spec {h : Heap T} {l : list} {hd tl : Nat} {pre post : List Nat}
    (hL : Linked h l hd (pre ++ post) tl) (v : T) :
    ∃ h', l.insert h ⟨some (last_of hd pre)⟩ v =
        .ok (⟨some h.brk⟩, h', { l with size_ := (l.size_ + 1) % size_t_mod }) ∧
      Linked h' l hd (pre ++ [h.brk] ++ post) tl ∧ h'.brk = h.brk + 1 ∧
      h'.value_ h.brk = v ∧ h'.prev_node h.brk = some (last_of hd pre) ∧
      h'.live h.brk = true ∧
      (∀ a, a ≠ h.brk → h'.value_ a = h.value_ a ∧ h'.live a = h.live a) ∧
      (∀ a, a ≠ h.brk → a ≠ last_of hd pre → h'.next_node a = h.next_node a) ∧
      (∀ a, a ≠ h.brk → a ≠ first_of post tl → h'.prev_node a = h.prev_node a) := by
  have h0 : Linked h l hd (pre ++ [] ++ post) tl := by simpa using hL
  obtain ⟨hc, hnd, hlive, _⟩ := h0.run
  have hlink : Link h (last_of hd pre) (first_of post tl) :=
    List.chain'_pair.1 (show List.Chain' (Link h) [last_of hd pre, first_of post tl] from hc)
  have hlp : h.live (last_of hd pre) = true := (hlive _ (by simp)).1
  have hlq : h.live (first_of post tl) = true := (hlive _ (by simp)).1
  have hpb : last_of hd pre ≠ h.brk := Nat.ne_of_lt (hlive (last_of hd pre) (by simp)).2
  have hqb : first_of post tl ≠ h.brk := Nat.ne_of_lt (hlive (first_of post tl) (by simp)).2
  have hfresh : ∀ x ∈ hd :: (pre ++ post) ++ [tl], x ≠ h.brk := fun x hx =>
    Nat.ne_of_lt (hL.2.2.2.1 x hx).2
  refine ⟨(((h.new_node (some (last_of hd pre)) v (some (first_of post tl))).2.upd_prev
    (first_of post tl) (some h.brk)).upd_next (last_of hd pre) (some h.brk)), ?_, ?_, rfl,
    ?_, ?_, ?_, ?_, ?_, ?_⟩
  · simp [list.insert, get_next_live hlp, hlink.1, Heap.new_node, Heap.get_next, Heap.set_prev,
      Heap.set_next, Function.update_apply, hpb, hqb, hlp, hlq]
  · refine @Linked.splice T h _ l hd tl pre [] [h.brk] post h0 ?_ ?_ ?_ ?_ ?_
    · show List.Chain' _ [last_of hd pre, h.brk, first_of post tl]
      simp [Link, Heap.new_node, Function.update_apply, hpb, hqb, Ne.symm hpb, Ne.symm hqb]
    · have hnd0 := hL.2.2.1
      have hperm : (hd :: (pre ++ [h.brk] ++ post) ++ [tl]).Perm
          (h.brk :: (hd :: (pre ++ post) ++ [tl])) := by
        have : hd :: (pre ++ [h.brk] ++ post) ++ [tl] =
            (hd :: pre) ++ h.brk :: (post ++ [tl]) := by simp
        rw [this]
        have e2 : hd :: (pre ++ post) ++ [tl] = (hd :: pre) ++ (post ++ [tl]) := by simp
        rw [e2]
        exact List.perm_middle
      rw [hperm.nodup_iff]
      exact List.nodup_cons.2 ⟨fun hm => hfresh _ hm rfl, hnd0⟩
    · intro x hx
      have hx2 : x = h.brk ∨ x ∈ hd :: (pre ++ post) ++ [tl] := by
        simp at hx ⊢; tauto
      rcases hx2 with e | hx2
      · subst e; simp [Heap.new_node]
      · have := hL.2.2.2.1 x hx2
        simp [Heap.new_node, Function.update_apply, hfresh x hx2, this.1]
        omega
    · intro x hx hxl
      have hx2 : x ∈ hd :: (pre ++ post) ++ [tl] := by simpa using hx
      simp [Heap.new_node, Function.update_apply, hxl, hfresh x hx2]
    · intro x hx hxt
      have hx2 : x ∈ hd :: (pre ++ post) ++ [tl] := by simpa using hx
      simp [Heap.new_node, Function.update_apply, hxt, hfresh x hx2]
  · simp [Heap.new_node]
  · simp [Heap.new_node, Function.update_apply, Ne.symm hqb]
  · simp [Heap.new_node]
  · intro a ha
    simp [Heap.new_node, Function.update_apply, ha]
  · intro a ha hal
    simp [Heap.new_node, Function.update_apply, ha, hal]
  · intro a ha hat
    simp [Heap.new_node, Function.update_apply, ha, hat]

/-- A node of `hd :: ns` is the last node of `hd :: pre` for a split `ns = pre ++ post`. -/
theorem mem_split_last {hd pos : Nat} {ns : List Nat} (hpos : pos ∈ hd :: ns) :
    ∃ pre post, ns = pre ++ post ∧ pos = last_of hd pre := by
  rcases List.mem_cons.1 hpos with e | hm
  · exact ⟨[], ns, rfl, e⟩
  · obtain ⟨s, t, hst⟩ := List.append_of_mem hm
    exact ⟨s ++ [pos], t, by simp [hst], by simp⟩

/-- `pop()` on a linked list with `size_` not 0 whose last interior node is `n`. -/
theorem pop_spec {h : Heap T} {l : list} {hd tl n : Nat} {init : List Nat}
    (hW : WellFormed h l hd (init ++ [n]) tl) :
    ∃ h', l.pop h = .ok (h.value_ n, h', { l with size_ := l.size_ - 1 }) ∧
      WellFormed h' { l with size_ := l.size_ - 1 } hd init tl ∧ h'.value_ = h.value_ ∧
      h'.prev_node tl = some (last_of hd init) ∧ h'.live n = false := by
  obtain ⟨hL, hsz, hlt⟩ := hW
  have h0 : Linked h l hd (init ++ [n] ++ []) tl := by simpa using hL
  obtain ⟨hc, hnd, hlive, hout⟩ := h0.run
  have hc3 : List.Chain' (Link h) [last_of hd init, n, tl] := hc
  simp only [List.chain'_cons, List.chain'_singleton, and_true] at hc3
  have hnd3 : [last_of hd init, n, tl].Nodup := hnd
  have hpn : last_of hd init ≠ n := by
    intro e; rw [e] at hnd3; simp at hnd3
  have hpt : last_of hd init ≠ tl := by
    intro e; rw [e] at hnd3; simp at hnd3
  have hnt : n ≠ tl := by
    intro e; rw [e] at hnd3; simp at hnd3
  have hlp : h.live (last_of hd init) = true := (hlive _ (by simp)).1
  have hln : h.live n = true := (hlive n (by simp)).1
  have hlt2 : h.live tl = true := hL.tail_live
  have hs0 : 0 < l.size_ := by rw [hsz]; simp
  have hne : l.size_ ≠ 0 := by omega
  refine ⟨{ ((h.upd_next (last_of hd init) (some tl)).upd_prev tl (some (last_of hd init))) with
    live := Function.update h.live n false }, ?_, ⟨?_, ?_, ?_⟩, rfl, ?_, ?_⟩
  · simp [list.pop, list.empty, hne, hL.2.1, get_prev_live hlt2, hc3.2.2, get_value_live hln,
      get_prev_live hln, hc3.1.2, set_next_live hlp, set_prev_live, hlt2, Heap.delete, hln,
      Heap.get_prev,
      size_t_dec hs0 hlt]
  · have hsp : Linked ({ ((h.upd_next (last_of hd init) (some tl)).upd_prev tl
        (some (last_of hd init))) with live := Function.update h.live n false }) l hd
        (init ++ [] ++ []) tl := by
      refine @Linked.splice T h _ l hd tl init [n] [] [] h0 ?_ ?_ ?_ ?_ ?_
      · show List.Chain' _ [last_of hd init, tl]
        simp [Link]
      · have := List.Nodup.sublist (@ring_sublist hd tl init [n] []) (by simpa using hL.2.2.1)
        simpa using this
      · intro x hx
        have hx2 : x ∈ (hd :: init) ++ ([] ++ [tl]) := by simpa using hx
        have hxn : x ≠ n := fun e => hout x hx2 (by simp [e])
        have hx3 : x ∈ hd :: (init ++ [n]) ++ [tl] := by
          simp at hx2 ⊢; tauto
        simp [Function.update_apply, hxn, hL.2.2.2.1 x hx3]
      · intro x _ hxp
        simp [Function.update_apply, hxp]
      · intro x _ hxq
        have : x ≠ tl := by simpa using hxq
        simp [Function.update_apply, this]
    exact @Linked.of_same_ends T _ l _ hd tl init (by simpa using hsp) rfl rfl
  · show l.size_ - 1 = init.length
    rw [hsz]; simp
  · show l.size_ - 1 < size_t_mod
    omega
  · simp
  · simp

theorem example_empty_well_formed : WellFormed example_empty_heap example_empty_list 1 [] 0 :=
  ⟨⟨rfl, rfl, by decide, by decide, by simp [Link, example_empty_heap], rfl, rfl⟩, rfl,
    by decide⟩

/-- The example of the specification: `pop()` on `{1,2,3}` returns 3 and leaves `{1,2}`. -/
theorem pop_example_run : pop_example [1, 2, 3] = .ok (3, [1, 2], 2) := rfl

/-! ## `push_front` and what the tests observe -/

/-- `push_front(value)` on a linked list: one fresh node holding `value` is
linked in after `head_`. -/
theorem push_front_spec {h : Heap T} {l : list} {hd tl : Nat} {ns : List Nat}
    (hL : Linked h l hd ns tl) (v : T) :
    ∃ h', l.push_front h v = .ok (h', { l with size_ := (l.size_ + 1) % size_t_mod }) ∧
      Linked h' l hd (h.brk :: ns) tl ∧ h'.brk = h.brk + 1 ∧ h'.value_ h.brk = v ∧
      (∀ a, a ≠ h.brk → h'.value_ a = h.value_ a ∧ h'.live a = h.live a) := by
  have h0 : Linked h l hd ([] ++ [] ++ ns) tl := by simpa using hL
  obtain ⟨hc, hnd, hlive, _⟩ := h0.run
  have hlink : Link h hd (first_of ns tl) :=
    List.chain'_pair.1 (show List.Chain' (Link h) [hd, first_of ns tl] from hc)
  have hlp : h.live hd = true := hL.head_live
  have hlq : h.live (first_of ns tl) = true := (hlive (first_of ns tl) (by simp)).1
  have hpb : hd ≠ h.brk := Nat.ne_of_lt (hlive hd (by simp)).2
  have hqb : first_of ns tl ≠ h.brk := Nat.ne_of_lt (hlive (first_of ns tl) (by simp)).2
  have hfresh : ∀ x ∈ hd :: ns ++ [tl], x ≠ h.brk := fun x hx =>
    Nat.ne_of_lt (hL.2.2.2.1 x hx).2
  refine ⟨(((h.new_node (some hd) v (some (first_of ns tl))).2.upd_next hd
    (some h.brk)).upd_prev (first_of ns tl) (some h.brk)), ?_, ?_, rfl, ?_, ?_⟩
  · simp [list.push_front, hL.1, get_next_live hlp, hlink.1, Heap.new_node, Heap.set_prev,
      Heap.set_next, Function.update_apply, hpb, hqb, hlp, hlq]
  · have := @Linked.splice T h (((h.new_node (some hd) v (some (first_of ns tl))).2.upd_next hd
      (some h.brk)).upd_prev (first_of ns tl) (some h.brk)) l hd tl [] [] [h.brk] ns h0
      ?_ ?_ ?_ ?_ ?_
    · simpa using this
    · show List.Chain' _ [hd, h.brk, first_of ns tl]
      simp [Link, Heap.new_node, Function.update_apply, hpb, hqb, Ne.symm hpb, Ne.symm hqb]
    · have hnd0 := hL.2.2.1
      have hperm : (hd :: ([] ++ [h.brk] ++ ns) ++ [tl]).Perm (h.brk :: (hd :: ns ++ [tl])) := by
        simp only [List.nil_append, List.cons_append]
        exact List.Perm.swap _ _ _
      rw [hperm.nodup_iff]
      exact List.nodup_cons.2 ⟨fun hm => hfresh _ hm rfl, hnd0⟩
    · intro x hx
      have hx2 : x = h.brk ∨ x ∈ hd :: ns ++ [tl] := by
        simp at hx ⊢; tauto
      rcases hx2 with e | hx2
      · subst e; simp [Heap.new_node]
      · have := hL.2.2.2.1 x hx2
        simp [Heap.new_node, Function.update_apply, hfresh x hx2, this.1]
        omega
    · intro x hx hxl
      have hx2 : x ∈ hd :: ns ++ [tl] := by simpa using hx
      have : x ≠ hd := by simpa using hxl
      simp [Heap.new_node, Function.update_apply, this, hfresh x hx2]
    · intro x hx hxt
      have hx2 : x ∈ hd :: ns ++ [tl] := by simpa using hx
      simp [Heap.new_node, Function.update_apply, hxt, hfresh x hx2]
  · simp [Heap.new_node]
  · intro a ha
    simp [Heap.new_node, Function.update_apply, ha]

theorem example_pair_left_well_formed :
    WellFormed example_pair_heap example_pair_left 1 [2, 3] 0 :=
  ⟨⟨rfl, rfl, by decide, by decide, by simp [Link, example_pair_heap], rfl, rfl⟩, rfl,
    by decide⟩

theorem example_pair_right_well_formed :
    WellFormed example_pair_heap example_pair_right 5 [6] 4 :=
  ⟨⟨rfl, rfl, by decide, by decide, by simp [Link, example_pair_heap], rfl, rfl⟩, rfl,
    by decide⟩

/-- Two initializer-list constructions build `example_pair_heap`. -/
theorem example_pair_from_ilist :
    two_lists [10, 20] [30] = .ok (example_pair_heap, example_pair_left, example_pair_right) := by
  have : ∃ h l r, two_lists [10, 20] [30] = .ok (h, l, r) ∧ h = example_pair_heap ∧
      l = example_pair_left ∧ r = example_pair_right := by
    refine ⟨_, _, _, rfl, ?_, rfl, rfl⟩
    apply heap_ext
    · intro a
      simp [example_pair_heap, Heap.new_node, Heap.upd_prev, Heap.upd_next, Heap.empty,
        Function.update_apply]
      split_ifs <;> omega
    · intro a
      simp [example_pair_heap, Heap.new_node, Heap.upd_prev, Heap.upd_next, Heap.empty,
        Function.update_apply]
      split_ifs <;> simp_all
    · intro a
      simp [example_pair_heap, Heap.new_node, Heap.upd_prev, Heap.upd_next, Heap.empty,
        Function.update_apply]
      split_ifs <;> simp_all
    · intro a
      simp only [example_pair_heap, Heap.new_node, Heap.upd_prev, Heap.upd_next, Heap.empty,
        Function.update_apply]
      rw [Bool.eq_iff_iff]
      simp
      omega
    · rfl
  obtain ⟨h, l, r, h1, h2, h3, h4⟩ := this
  rw [h1, h2, h3, h4]

/-! ## Clearing -/

/-- The loop of `clear` over the interior nodes `ns`: each is unlinked from
`head_` and deleted; only `head_->next_node` is written. -/
theorem clear_loop_spec {l : list} {hd tl : Nat} (hh : l.head_ = some hd)
    (ht : l.tail_ = some tl) : ∀ (ns : List Nat) (h : Heap T) (fuel : Nat),
    h.live hd = true → h.next_node hd = some (first_of ns tl) →
    List.Chain' (fun x y => h.next_node x = some y) (ns ++ [tl]) →
    (hd :: ns ++ [tl]).Nodup → (∀ a ∈ ns, h.live a = true) → ns.length < fuel →
    ∃ h', list.clear_loop l fuel h = .ok h' ∧ h'.next_node hd = some tl ∧
      (∀ a, a ≠ hd → h'.next_node a = h.next_node a) ∧ h'.prev_node = h.prev_node ∧
      h'.value_ = h.value_ ∧ h'.brk = h.brk ∧ (∀ a ∈ ns, h'.live a = false) ∧
      (∀ a, a ∉ ns → h'.live a = h.live a) := by
  intro ns
  induction ns with
  | nil =>
    intro h fuel hlh hn _ _ _ hf
    obtain ⟨k, rfl⟩ : ∃ k, fuel = k + 1 := ⟨fuel - 1, by simp at hf; omega⟩
    refine ⟨h, ?_, by simpa using hn, fun _ _ => rfl, rfl, rfl, rfl, by simp, fun _ _ => rfl⟩
    simp at hn
    simp [list.clear_loop, hh, ht, get_next_live hlh, hn]
  | cons n ns ih =>
    intro h fuel hlh hn hc hnd hl hf
    obtain ⟨k, rfl⟩ : ∃ k, fuel = k + 1 := ⟨fuel - 1, by simp at hf; omega⟩
    simp only [first_of_cons] at hn
    have hnd2 : (hd :: n :: (ns ++ [tl])).Nodup := by simpa using hnd
    have hhn : hd ≠ n := fun e => by subst e; simp at hnd2
    have hntl : n ≠ tl := fun e => by subst e; simp at hnd2
    have hnns : n ∉ ns := fun hm => by simp [hm] at hnd2
    have hln := hl n (by simp)
    have hc2 : List.Chain' (fun x y => h.next_node x = some y) (n :: (ns ++ [tl])) := by
      simpa using hc
    have hnn : h.next_node n = some (first_of ns tl) := by
      cases ns with
      | nil => simpa using hc2
      | cons m ms => simpa [List.chain'_cons] using (List.chain'_cons.1 hc2).1
    let h1 : Heap T :=
      { h.upd_next hd (some (first_of ns tl)) with
        live := Function.update h.live n false }
    have hnd3 : (hd :: (ns ++ [tl])).Nodup := by
      have := List.nodup_cons.1 hnd2
      have h3 := (List.nodup_cons.1 this.2).2
      refine List.nodup_cons.2 ⟨fun hm => this.1 (List.mem_cons_of_mem _ hm), h3⟩
    have hhd_ns : ∀ a ∈ ns ++ [tl], a ≠ hd := by
      intro a ha e
      subst e
      exact (List.nodup_cons.1 hnd3).1 ha
    obtain ⟨h', hrun, hn', hfr', hp', hv', hb', hd', hl'⟩ := ih h1 k
      (by simp [h1, Heap.upd_next, Function.update_apply, hhn, hlh])
      (by simp [h1, Heap.upd_next])
      (by
        refine (List.Chain'.iff_mem.1 (List.Chain'.tail hc2)).imp ?_
        intro x y hxy
        have hx := hhd_ns x hxy.1
        simpa [h1, Heap.upd_next, Function.update_apply, hx] using hxy.2.2)
      (by simpa using hnd3)
      (by
        intro a ha
        have : a ≠ n := fun e => hnns (e ▸ ha)
        simp [h1, Heap.upd_next, Function.update_apply, this, hl a (by simp [ha])])
      (by simp at hf; omega)
    refine ⟨h', ?_, hn', ?_, hp', hv', hb', ?_, ?_⟩
    · simp only [list.clear_loop, hh, ht, get_next_live hlh, hn, ok_bind, get_next_live hln,
        hnn, set_next_live hlh]
      rw [if_neg (by simp [hntl])]
      rw [delete_live (by simpa [Heap.upd_next] using hln)]
      exact hrun
    · intro a ha
      rw [hfr' a ha]
      simp [h1, Heap.upd_next, Function.update_apply, ha]
    · intro a ha
      rcases List.mem_cons.1 ha with e | hm
      · subst e
        rw [hl' a hnns]
        simp [h1]
      · exact hd' a hm
    · intro a ha
      have han : a ≠ n := fun e => ha (by simp [e])
      rw [hl' a (fun hm => ha (by simp [hm]))]
      simp [h1, Heap.upd_next, Function.update_apply, han]

/-- `clear()` on a well-formed list deletes every interior node, keeps both
sentinels and leaves them linked to each other, with `size_ == 0`. -/
theorem clear_spec {h : Heap T} {l : list} {hd tl : Nat} {ns : List Nat} {fuel : Nat}
    (hW : WellFormed h l hd ns tl) (hf : ns.length < fuel) :
    ∃ h', l.clear fuel h = .ok (h', { l with size_ := 0 }) ∧
      WellFormed h' { l with size_ := 0 } hd [] tl ∧ h'.value_ = h.value_ ∧
      h'.brk = h.brk ∧ (∀ a ∈ ns, h'.live a = false) ∧
      (∀ a, a ∉ ns → h'.live a = h.live a) := by
  obtain ⟨hL, hs, hlt⟩ := hW
  obtain ⟨hh, ht, hnd, hlive, hc, hhp, htn⟩ := hL
  have hndst : hd ≠ tl := by
    intro e
    subst e
    simp at hnd
  cases ns with
  | nil =>
    have hl0 : ({ l with size_ := 0 } : list) = l := by
      cases l
      simp at hs
      simp [hs]
    rw [hl0]
    exact ⟨h, by simp [list.clear, list.empty, hs],
      ⟨⟨hh, ht, hnd, hlive, hc, hhp, htn⟩, hs, hlt⟩, rfl, rfl, by simp, fun _ _ => rfl⟩
  | cons n ns =>
    have hne : l.empty = false := by simp [list.empty, hs]
    have hhd_live := (hlive hd (by simp)).1
    have htl_live := (hlive tl (by simp)).1
    have htl_ns : tl ∉ n :: ns := by
      intro hm
      have h2 : (n :: ns ++ [tl]).Nodup := (List.nodup_cons.1 hnd).2
      have h3 := List.nodup_append.1 h2
      exact h3.2.2 hm (by simp)
    have hhd_ns : hd ∉ n :: ns := by
      intro hm
      exact (List.nodup_cons.1 hnd).1 (by simp at hm ⊢; tauto)
    obtain ⟨h1, hrun, hn1, hfr1, hp1, hv1, hb1, hd1, hl1⟩ := clear_loop_spec hh ht (n :: ns) h fuel
      hhd_live (chain_next_first hc)
      ((List.Chain'.tail hc).imp (fun _ _ hxy => hxy.1)) hnd
      (fun a ha => (hlive a (by simp at ha ⊢; tauto)).1) hf
    have htl1 : h1.live tl = true := by rw [hl1 tl htl_ns]; exact htl_live
    refine ⟨h1.upd_prev tl (some hd), ?_, ⟨⟨hh, ht, by simp [hndst], ?_, ?_, ?_, ?_⟩, rfl, ?_⟩,
      by simpa [Heap.upd_prev] using hv1, by simpa [Heap.upd_prev] using hb1,
      by simpa [Heap.upd_prev] using hd1, by simpa [Heap.upd_prev] using hl1⟩
    · simp [list.clear, hne, hrun, ht, hh, set_prev_live htl1]
    · intro a ha
      simp at ha
      rcases ha with e | e
      · subst e
        simp only [Heap.upd_prev, hb1]
        rw [hl1 a hhd_ns]
        exact hlive a (by simp)
      · subst e
        simp only [Heap.upd_prev, hb1]
        rw [hl1 a htl_ns]
        exact hlive a (by simp)
    · simp [Link, Heap.upd_prev, hn1]
    · simp [Heap.upd_prev, Function.update_apply, hndst, hp1, hhp]
    · simp only [Heap.upd_prev]
      rw [hfr1 tl (Ne.symm hndst)]
      exact htn
    · simp [size_t_mod]

/-- What the tests observe of a well-formed list without interior nodes. -/
theorem WellFormed.empty_shape {h : Heap T} {l : list} {hd tl : Nat}
    (hW : WellFormed h l hd [] tl) :
    l.size = 0 ∧ h.next_node hd = some tl ∧ h.prev_node tl = some hd ∧
    l.begin h = .ok l.end_ ∧ l.end_.decr h = .ok ⟨some hd⟩ ∧
    h.live hd = true ∧ h.live tl = true := by
  obtain ⟨hL, hs, _⟩ := hW
  have hlink : Link h hd tl :=
    List.chain'_pair.1 (show List.Chain' (Link h) [hd, tl] from hL.2.2.2.2.1)
  have hlt := hL.tail_live
  refine ⟨by simpa [list.size] using hs, hlink.1, hlink.2, ?_, ?_, hL.head_live, hlt⟩
  · rw [hL.begin_eq, hL.end_eq]
    rfl
  · rw [hL.end_eq]
    exact decr_of_prev hlt hlink.2


/-! ## `revers_n` on an empty range -/

/-- On a list of two or more elements `revers_n(begin(), begin())` does not
return: `it_e` is `head_`, and the loop condition evaluates `it_e - 1` inside
the `noexcept` `operator-`. -/
theorem revers_n_begin_begin {h : Heap T} {l : list} {hd tl : Nat} {ms : List Nat}
    (hW : WellFormed h l hd ms tl) (hms : 2 ≤ ms.length) (fuel : Nat) :
    l.revers_n (fuel + 1) h ⟨some (first_of ms tl)⟩ ⟨some (first_of ms tl)⟩ =
      .error .terminate := by
  obtain ⟨n, ns, rfl⟩ : ∃ n ns, ms = n :: ns := by
    cases ms with
    | nil => simp at hms
    | cons n ns => exact ⟨n, ns, rfl⟩
  simp only [first_of_cons]
  obtain ⟨hL, hs, _⟩ := hW
  obtain ⟨_, _, hnd, hlive, hc, hhp, _⟩ := hL
  have h2 : ¬ l.size_ < 2 := by omega
  have hln := (hlive n (by simp)).1
  have hlh := (hlive hd (by simp)).1
  have hpn : h.prev_node n = some hd := by
    have := (List.chain'_cons.1 (show List.Chain' (Link h) (hd :: n :: (ns ++ [tl])) from hc)).1
    exact this.2
  have hnh : n ≠ hd := by
    intro e
    subst e
    simp at hnd
  have hmh : (list_iterator.mk (some hd)).minus h 1 = .error .terminate := by
    simp [list_iterator.minus, list_iterator.minus_loop, list_iterator.decr,
      get_prev_live hlh, hhp, noexcept, error_bind]
  simp only [list.revers_n, h2, if_false, minus_one_of_prev hln hpn, ok_bind,
    list.revers_n_loop, revers_cond]
  rw [if_pos (by simp [hnh])]
  simp [hmh]

/-- On a list of two or more elements `revers_n(end(), end())` dereferences a
null pointer: the first round of the loop reads `tail_->next_node`, which is
null, and writes through it. -/
theorem revers_n_end_end {h : Heap T} {l : list} {hd tl : Nat} {ms : List Nat}
    (hW : WellFormed h l hd ms tl) (hms : 2 ≤ ms.length) (fuel : Nat) :
    l.revers_n (fuel + 1) h ⟨some tl⟩ ⟨some tl⟩ = .error .undefined := by
  obtain ⟨init, p, z, rfl⟩ : ∃ init p z, ms = init ++ [p, z] := by
    rcases List.eq_nil_or_concat ms with e | ⟨m1, z, e⟩
    · subst e; simp at hms
    · rcases List.eq_nil_or_concat m1 with e1 | ⟨m2, p, e1⟩
      · subst e1; subst e; simp at hms
      · exact ⟨m2, p, z, by rw [e, e1]; simp⟩
  obtain ⟨hL, hs, _⟩ := hW
  obtain ⟨_, _, hnd, hlive, hc, _, htn⟩ := hL
  have h2 : ¬ l.size_ < 2 := by simp at hs; omega
  have hlz := (hlive z (by simp)).1
  have hlp := (hlive p (by simp)).1
  have hlt := (hlive tl (by simp)).1
  have hc2 : List.Chain' (Link h) ((hd :: init) ++ [p, z, tl]) := by simpa using hc
  have hc3 := List.Chain'.right_of_append hc2
  have hpz : Link h p z := (List.chain'_cons.1 hc3).1
  have hzt : Link h z tl := (List.chain'_cons.1 (List.chain'_cons.1 hc3).2).1
  have hnd2 : ((hd :: init) ++ [p, z, tl]).Nodup := by simpa using hnd
  have hnd3 := (List.nodup_append.1 hnd2).2.1
  have htz : tl ≠ z := by
    intro e
    subst e
    simp at hnd3
  have htp : tl ≠ p := by
    intro e
    subst e
    simp at hnd3
  have hcond : revers_cond h ⟨some tl⟩ ⟨some z⟩ = .ok true := by
    simp [revers_cond, htz, minus_one_of_prev hlz hpz.2, htp]
  simp only [list.revers_n, h2, if_false, minus_one_of_prev hlt hzt.2, ok_bind,
    list.revers_n_loop, hcond, if_true, get_next_live hlt, htn, get_prev_live hlz, hpz.2,
    get_prev_live hlt, hzt.2, set_prev_live hlz]
  simp [Heap.get_next, Heap.set_next, Heap.set_prev, Heap.upd_prev, Heap.upd_next, hlz, hlt,
    hzt.1]

/-- First round of `revers_n` on the empty range at `b`, whose predecessor `a`
is an interior node: the cursors cross and both nodes become self-linked. -/
theorem revers_n_empty_round_one {h : Heap T} {p a b c : Nat} (k : Nat)
    (hlp : h.live p = true) (hla : h.live a = true) (hlb : h.live b = true)
    (hlc : h.live c = true) (hna : h.next_node a = some b) (hnb : h.next_node b = some c)
    (hpa : h.prev_node a = some p) (hpb : h.prev_node b = some a)
    (h2 : p ≠ b) (h4 : a ≠ b) (h5 : a ≠ c) :
    ∃ h', list.revers_n_loop (k + 1) h ⟨⟨some b⟩, ⟨some a⟩, ⟨some a⟩, ⟨some b⟩⟩ =
        list.revers_n_loop k h' ⟨⟨some a⟩, ⟨some b⟩, ⟨some a⟩, ⟨some b⟩⟩ ∧
      h'.live = h.live ∧ h'.next_node a = some a ∧ h'.next_node b = some b ∧
      h'.prev_node a = some a ∧ h'.prev_node b = some b := by
  have e : list.revers_n_loop (k + 1) h ⟨⟨some b⟩, ⟨some a⟩, ⟨some a⟩, ⟨some b⟩⟩ =
      list.revers_n_loop k (((((((((h.upd_prev a (some a)).upd_next b (some b)).upd_next a
        (some c)).upd_prev b (some p)).upd_prev c (some a)).upd_next p (some b)).upd_next a
        (some a)).upd_prev b (some b)))
        ⟨⟨some a⟩, ⟨some b⟩, ⟨some a⟩, ⟨some b⟩⟩ := by
    simp [list.revers_n_loop, revers_cond, minus_one_of_prev hla hpa, Ne.symm h4, Ne.symm h2,
      get_next_live, get_prev_live, set_next_live, set_prev_live, hlp, hla, hlb, hlc,
      hna, hnb, hpa, hpb, list_iterator.incr, list_iterator.decr, Function.update_apply,
      h2, h4, h5]
  refine ⟨_, e, rfl, ?_, ?_, ?_, ?_⟩ <;>
    simp [Function.update_apply, h2, h4, h5, Ne.symm h4, Ne.symm h2]

/-- Second round: the two self-linked nodes become linked to each other in
both directions. -/
theorem revers_n_empty_round_two {h : Heap T} {a b : Nat} (k : Nat)
    (hla : h.live a = true) (hlb : h.live b = true)
    (hna : h.next_node a = some a) (hnb : h.next_node b = some b)
    (hpa : h.prev_node a = some a) (hpb : h.prev_node b = some b) (h4 : a ≠ b) :
    ∃ h', list.revers_n_loop (k + 1) h ⟨⟨some a⟩, ⟨some b⟩, ⟨some a⟩, ⟨some b⟩⟩ =
        list.revers_n_loop k h' ⟨⟨some a⟩, ⟨some b⟩, ⟨some b⟩, ⟨some a⟩⟩ ∧
      h'.live = h.live ∧ h'.next_node a = some b ∧ h'.next_node b = some a ∧
      h'.prev_node a = some b ∧ h'.prev_node b = some a := by
  have e : list.revers_n_loop (k + 1) h ⟨⟨some a⟩, ⟨some b⟩, ⟨some a⟩, ⟨some b⟩⟩ =
      list.revers_n_loop k (((((((((h.upd_prev b (some a)).upd_next a (some b)).upd_next b
        (some a)).upd_prev a (some b)).upd_prev a (some b)).upd_next b (some a)).upd_next a
        (some b)).upd_prev b (some a)))
        ⟨⟨some a⟩, ⟨some b⟩, ⟨some b⟩, ⟨some a⟩⟩ := by
    simp [list.revers_n_loop, revers_cond, minus_one_of_prev hlb hpb, h4, Ne.symm h4,
      get_next_live, get_prev_live, set_next_live, set_prev_live, hla, hlb,
      hna, hnb, hpa, hpb, list_iterator.incr, list_iterator.decr, Function.update_apply]
  refine ⟨_, e, rfl, ?_, ?_, ?_, ?_⟩ <;>
    simp [Function.update_apply, h4, Ne.symm h4]

/-- Exit of the loop and closing block on the two mutually linked nodes: the
call returns and leaves `a->next_node == a`. -/
theorem revers_n_empty_exit {h : Heap T} {a b : Nat} (k : Nat)
    (hla : h.live a = true) (hlb : h.live b = true)
    (hna : h.next_node a = some b) (hnb : h.next_node b = some a)
    (hpa : h.prev_node a = some b) (hpb : h.prev_node b = some a) (h4 : a ≠ b) :
    ∃ h', (do
        let (h1, s) ← list.revers_n_loop (k + 1) h
          ⟨⟨some a⟩, ⟨some b⟩, ⟨some b⟩, ⟨some a⟩⟩
        list.revers_n_final h1 s) = .ok h' ∧
      h'.live = h.live ∧ h'.next_node a = some a ∧ h'.next_node b = some a ∧
      h'.prev_node a = some b ∧ h'.prev_node b = some b ∧
      (∀ x, x ≠ a → x ≠ b → h'.next_node x = h.next_node x ∧ h'.prev_node x = h.prev_node x) := by
  have e : (do
        let (h1, s) ← list.revers_n_loop (k + 1) h
          ⟨⟨some a⟩, ⟨some b⟩, ⟨some b⟩, ⟨some a⟩⟩
        list.revers_n_final h1 s) =
      .ok ((((((h.upd_next b (some b)).upd_prev a (some a)).upd_next a (some a)).upd_prev a
        (some b)).upd_next b (some a)).upd_prev b (some b)) := by
    simp [list.revers_n_loop, list.revers_n_final, revers_cond, minus_one_of_prev hlb hpb, h4,
      get_next_live, get_prev_live, set_next_live, set_prev_live, hla, hlb,
      hna, hnb, hpa, hpb, Function.update_apply]
  refine ⟨_, e, rfl, ?_, ?_, ?_, ?_, ?_⟩
  · simp [Function.update_apply, h4, Ne.symm h4]
  · simp [Function.update_apply, h4, Ne.symm h4]
  · simp [Function.update_apply, h4, Ne.symm h4]
  · simp [Function.update_apply, h4, Ne.symm h4]
  · intro x hxa hxb
    simp [Function.update_apply, hxa, hxb]

/-- On the empty range at an interior node `b` whose predecessor `a` is an
interior node too, `revers_n(b, b)` returns and leaves a broken ring: `a` is
the `next_node` of both `a` and `b`, and `a->prev_node == b`. -/
theorem revers_n_interior_interior {h : Heap T} {l : list} {hd tl a b : Nat}
    {pre post : List Nat} (hW : WellFormed h l hd (pre ++ [a, b] ++ post) tl) (k : Nat) :
    ∃ h', l.revers_n (k + 3) h ⟨some b⟩ ⟨some b⟩ = .ok h' ∧
      h'.next_node a = some a ∧ h'.next_node b = some a ∧ h'.prev_node a = some b ∧
      a ≠ b := by
  obtain ⟨hL, hsz, _⟩ := hW
  obtain ⟨hc, hnd, hlive, _⟩ := hL.run
  have hs : ¬ l.size_ < 2 := by simp at hsz; omega
  have hc2 : List.Chain' (Link h) [last_of hd pre, a, b, first_of post tl] := by simpa using hc
  have hnd2 : [last_of hd pre, a, b, first_of post tl].Nodup := by simpa using hnd
  simp only [List.chain'_cons, List.chain'_singleton, and_true] at hc2
  obtain ⟨hpa, hab, hbc⟩ := hc2
  have hlp := (hlive (last_of hd pre) (by simp)).1
  have hla := (hlive a (by simp)).1
  have hlb := (hlive b (by simp)).1
  have hlc := (hlive (first_of post tl) (by simp)).1
  have h2 : last_of hd pre ≠ b := by
    intro e
    rw [e] at hnd2
    simp at hnd2
  have h4 : a ≠ b := by
    intro e
    rw [e] at hnd2
    simp at hnd2
  have h5 : a ≠ first_of post tl := by
    intro e
    rw [e] at hnd2
    simp at hnd2
  obtain ⟨h1, e1, hl1, hna1, hnb1, hpa1, hpb1⟩ := revers_n_empty_round_one (k + 2)
    hlp hla hlb hlc hab.1 hbc.1 hpa.2 hab.2 h2 h4 h5
  obtain ⟨h2', e2, hl2, hna2, hnb2, hpa2, hpb2⟩ := revers_n_empty_round_two (k + 1)
    (hl1 ▸ hla) (hl1 ▸ hlb) hna1 hnb1 hpa1 hpb1 h4
  obtain ⟨h3, e3, _, hna3, hnb3, hpa3, _, _⟩ := revers_n_empty_exit k
    (hl2 ▸ hl1 ▸ hla) (hl2 ▸ hl1 ▸ hlb) hna2 hnb2 hpa2 hpb2 h4
  refine ⟨h3, ?_, hna3, hnb3, hpa3, h4⟩
  simp only [list.revers_n, hs, if_false, minus_one_of_prev hlb hab.2, ok_bind]
  rw [e1, e2]
  exact e3


/-! ## The invariant in the words of the specification -/

theorem incr_times_add (h : Heap T) : ∀ (a b : Nat) (it : list_iterator),
    list_iterator.incr_times h (a + b) it =
      (list_iterator.incr_times h a it >>= list_iterator.incr_times h b) := by
  intro a
  induction a with
  | zero => intro b it; simp [list_iterator.incr_times, ok_bind]
  | succ a ih =>
    intro b it
    rw [Nat.succ_add]
    simp only [list_iterator.incr_times]
    cases hi : it.incr h with
    | error e => simp [error_bind]
    | ok it2 => simp only [ok_bind]; exact ih b it2

theorem decr_times_add (h : Heap T) : ∀ (a b : Nat) (it : list_iterator),
    list_iterator.decr_times h (a + b) it =
      (list_iterator.decr_times h a it >>= list_iterator.decr_times h b) := by
  intro a
  induction a with
  | zero => intro b it; simp [list_iterator.decr_times, ok_bind]
  | succ a ih =>
    intro b it
    rw [Nat.succ_add]
    simp only [list_iterator.decr_times]
    cases hi : it.decr h with
    | error e => simp [error_bind]
    | ok it2 => simp only [ok_bind]; exact ih b it2

/-- Backward steps along a chain: `i` steps back from the last node of
`p :: ns` lead to the last node of `p :: ns` without its last `i` nodes. -/
theorem decr_times_chain (h : Heap T) (p : Nat) : ∀ (i : Nat) (ns : List Nat),
    List.Chain' (Link h) (p :: ns) → (∀ a ∈ ns, h.live a = true) → i ≤ ns.length →
    list_iterator.decr_times h i ⟨some (last_of p ns)⟩ =
      .ok ⟨some (last_of p (ns.take (ns.length - i)))⟩ := by
  intro i
  induction i with
  | zero => intro ns _ _ _; simp [list_iterator.decr_times]
  | succ i ih =>
    intro ns hc hl hi
    rcases List.eq_nil_or_concat ns with e | ⟨ns2, z, e⟩
    · subst e; simp at hi
    · rw [List.concat_eq_append] at e
      subst e
      have hc2 : List.Chain' (Link h) (p :: ns2 ++ [z]) := hc
      have hpz : h.prev_node z = some (last_of p ns2) := (chain_snoc.1 hc2).2.2
      have hi2 : i ≤ ns2.length := by simp at hi; omega
      have := ih ns2 (chain_snoc.1 hc2).1 (fun a ha => hl a (by simp [ha])) hi2
      have ht : (ns2 ++ [z]).take ((ns2 ++ [z]).length - (i + 1)) = ns2.take (ns2.length - i) := by
        have : (ns2 ++ [z]).length - (i + 1) = ns2.length - i := by simp
        rw [this, List.take_append_of_le_length (by omega)]
      rw [ht]
      simp [list_iterator.decr_times, last_of_concat, decr_of_prev (hl z (by simp)) hpz, this]

/-- A well-formed list satisfies the invariant as the specification words it. -/
theorem WellFormed.spec_invariant {h : Heap T} {l : list} {hd tl : Nat} {ns : List Nat}
    (hW : WellFormed h l hd ns tl) : SpecInvariant h l hd ns tl := by
  obtain ⟨hL, hs, _⟩ := hW
  obtain ⟨hh, ht, hnd, hlive, hc, hhp, htn⟩ := hL
  have hr := nodup_ring hnd
  have hlt := (hlive tl (by simp)).1
  have hlh := (hlive hd (by simp)).1
  refine ⟨hh, ht, hhp, htn, ?_, ?_, ?_⟩
  · intro n hn
    have hnL : n ∈ hd :: ns ++ [tl] := by simp [hn]
    have hntl : n ≠ tl := fun e => hr.2.1 (e ▸ hn)
    have hnhd : n ≠ hd := fun e => hr.1 (e ▸ hn)
    obtain ⟨A, b, B, e1⟩ := mem_split_prev hnL hd (ns ++ [tl]) rfl hnhd
    obtain ⟨A2, q, B2, e2⟩ := mem_split_next hnL tl (hd :: ns) rfl hntl
    have l1 := chain_link_of_split hc e1
    have l2 := chain_link_of_split hc e2
    exact ⟨⟨b, l1.2, l1.1⟩, ⟨q, l2.1, l2.2⟩⟩
  · intro k
    have hc1 : List.Chain' (Link h) ((hd :: ns) ++ [tl]) := hc
    have hl1 : ∀ a ∈ hd :: ns, h.live a = true := fun a ha =>
      (hlive a (by simp at ha ⊢; tauto)).1
    have hstep : ∀ i, i ≤ (hd :: ns).length →
        list_iterator.incr_times h i ⟨some hd⟩ = .ok ⟨some (first_of ((hd :: ns).drop i) tl)⟩ :=
      fun i hi => incr_times_chain h tl i (hd :: ns) hc1 hl1 hi
    constructor
    · intro hk
      by_contra hne
      rcases Nat.lt_or_gt_of_ne hne with hlt1 | hgt
      · have hk1 : k ≤ (hd :: ns).length := by simp; omega
        rw [hstep k hk1] at hk
        have hdne : (hd :: ns).drop k ≠ [] := by
          intro e
          have := congrArg List.length e
          simp at this
          omega
        have hm := List.mem_of_mem_drop (first_of_mem_of_ne_nil hdne tl)
        have heq : first_of ((hd :: ns).drop k) tl = tl := by
          simpa using hk
        rw [heq] at hm
        rcases List.mem_cons.1 hm with e | hm2
        · exact hr.2.2.1 e.symm
        · exact hr.2.1 hm2
      · obtain ⟨j, rfl⟩ : ∃ j, k = (hd :: ns).length + (j + 1) :=
          ⟨k - (hd :: ns).length - 1, by simp at hgt ⊢; omega⟩
        rw [incr_times_add, hstep _ (Nat.le_refl _)] at hk
        simp [list_iterator.incr_times, list_iterator.incr, get_next_live hlt, htn] at hk
    · intro hk
      subst hk
      have := hstep (l.size_ + 1) (by simp [hs])
      rw [this]
      simp [hs]
  · intro k
    have hc1 : List.Chain' (Link h) (hd :: (ns ++ [tl])) := hc
    have hl1 : ∀ a ∈ ns ++ [tl], h.live a = true := fun a ha =>
      (hlive a (by simp at ha ⊢; tauto)).1
    have hlast : last_of hd (ns ++ [tl]) = tl := last_of_concat hd ns tl
    have hstep : ∀ i, i ≤ (ns ++ [tl]).length →
        list_iterator.decr_times h i ⟨some tl⟩ =
          .ok ⟨some (last_of hd ((ns ++ [tl]).take ((ns ++ [tl]).length - i)))⟩ := by
      intro i hi
      have := decr_times_chain h hd i (ns ++ [tl]) hc1 hl1 hi
      rwa [hlast] at this
    constructor
    · intro hk
      by_contra hne
      rcases Nat.lt_or_gt_of_ne hne with hlt1 | hgt
      · have hk1 : k ≤ (ns ++ [tl]).length := by simp; omega
        rw [hstep k hk1] at hk
        have hdne : (ns ++ [tl]).take ((ns ++ [tl]).length - k) ≠ [] := by
          intro e
          have := congrArg List.length e
          simp at this
          omega
        have hm := List.mem_of_mem_take (last_of_mem_of_ne_nil hd hdne)
        have heq : last_of hd ((ns ++ [tl]).take ((ns ++ [tl]).length - k)) = hd := by
          simpa using hk
        rw [heq] at hm
        rcases List.mem_append.1 hm with hm2 | e
        · exact hr.1 hm2
        · simp at e
          exact hr.2.2.1 e
      · obtain ⟨j, rfl⟩ : ∃ j, k = (ns ++ [tl]).length + (j + 1) :=
          ⟨k - (ns ++ [tl]).length - 1, by simp at hgt ⊢; omega⟩
        rw [decr_times_add, hstep _ (Nat.le_refl _)] at hk
        simp [list_iterator.decr_times, list_iterator.decr, get_prev_live hlh, hhp] at hk
    · intro hk
      subst hk
      have := hstep (l.size_ + 1) (by simp [hs])
      rw [this]
      simp [hs]


/-! ## The claims -/

/-- C1: `{1,2} + {3,4}` and `left += right` give the value sequence `{1,2,3,4}`
but `size()` 6, not 4: the items of the right operand are counted by
`push_back` and once more by `size_ += other.size_`. -/
theorem plus_size_counts_right_twice :
    plus_example [1, 2] [3, 4] = .ok ([1, 2, 3, 4], 6) ∧
    plus_eq_example [1, 2] [3, 4] = .ok ([1, 2, 3, 4], 6, [3, 4]) := ⟨rfl, rfl⟩

/-- C2: `{1,2} < {1,2,3}` evaluates to false (as does `{} < {1}`); the
converse `{1,2,3} < {1,2}` is false as well. -/
theorem lt_strict_initial_segment_is_false :
    lt_example [1, 2] [1, 2, 3] = .ok false ∧ lt_example [1, 2, 3] [1, 2] = .ok false ∧
    lt_example [] [1] = .ok false := ⟨rfl, rfl, rfl⟩

/-- C3: `<` on equal value sequences evaluates to true: for two lists holding
`{1,2,3}`, for two empty lists and for a list compared with itself. -/
theorem lt_equal_sequences_is_true :
    lt_example [1, 2, 3] [1, 2, 3] = .ok true ∧ lt_example [] [] = .ok true ∧
    lt_self_example [1, 2, 3] = .ok true := ⟨rfl, rfl, rfl⟩

/-- C4: `revers_v()` leaves `{1,2}` as it is and turns `{1,2,3,4}` into
`{4,2,3,1}`; the odd-length `{1,2,3}` is reversed. -/
theorem revers_v_even_length_keeps_middle_pair :
    revers_v_example [1, 2] = .ok [1, 2] ∧ revers_v_example [1, 2, 3, 4] = .ok [4, 2, 3, 1] ∧
    revers_v_example [1, 2, 3] = .ok [3, 2, 1] := ⟨rfl, rfl, rfl⟩

/-- C5: on a well-formed list with the nodes `pre ++ mid ++ post`, `mid` not
empty, `revers_n(it_b, it_t)` with `it_b` at the first node of `mid` and `it_t`
at the node after `mid` returns; afterwards the forward value sequence is that
of `pre`, of `mid` reversed, of `post`, the nodes are `pre ++ reverse mid ++ post`,
the list is well-formed with the same `size()`, and no stored value has changed. -/
theorem revers_n_relinks_range (h : Heap T) (l : list) (hd tl : Nat) (pre mid post : List Nat)
    (hW : WellFormed h l hd (pre ++ mid ++ post) tl) (hmid : mid ≠ []) (fuel : Nat)
    (hf : (pre ++ mid ++ post).length < fuel) :
    ∃ h', l.revers_n fuel h ⟨some (first_of (mid ++ post) tl)⟩ ⟨some (first_of post tl)⟩
        = .ok h' ∧
      l.to_list fuel h = .ok (pre.map h.value_ ++ mid.map h.value_ ++ post.map h.value_) ∧
      l.to_list fuel h' =
        .ok (pre.map h.value_ ++ (mid.map h.value_).reverse ++ post.map h.value_) ∧
      l.node_list fuel h' = .ok ((pre ++ mid.reverse ++ post).map some) ∧
      WellFormed h' l hd (pre ++ mid.reverse ++ post) tl ∧
      l.size = (pre ++ mid ++ post).length ∧ h'.value_ = h.value_ := by
  have hf1 : mid.length ≤ fuel := by simp at hf; omega
  have hf2 : (pre ++ mid.reverse ++ post).length < fuel := by simpa using hf
  obtain ⟨h', hrun, hW', hv⟩ := revers_n_spec hW hmid hf1
  refine ⟨h', hrun, ?_, ?_, hW'.1.node_list_eq hf2, hW', hW.2.1, hv⟩
  · rw [hW.1.to_list_eq hf]; simp
  · rw [hW'.1.to_list_eq hf2, hv]; simp

theorem revers_n_relinks_range_witness :
    ∃ h', example_list.revers_n 4 example_heap ⟨some (first_of ([2, 3] ++ [4]) 0)⟩
        ⟨some (first_of [4] 0)⟩ = .ok h' ∧
      example_list.to_list 4 example_heap =
        .ok ([].map example_heap.value_ ++ [2, 3].map example_heap.value_ ++
          [4].map example_heap.value_) ∧
      example_list.to_list 4 h' =
        .ok ([].map example_heap.value_ ++ ([2, 3].map example_heap.value_).reverse ++
          [4].map example_heap.value_) ∧
      example_list.node_list 4 h' = .ok (([] ++ [2, 3].reverse ++ [4]).map some) ∧
      WellFormed h' example_list 1 ([] ++ [2, 3].reverse ++ [4]) 0 ∧
      example_list.size = ([] ++ [2, 3] ++ [4]).length ∧ h'.value_ = example_heap.value_ :=
  revers_n_relinks_range example_heap example_list 1 0 [] [2, 3] [4] example_well_formed
    (by decide) 4 (by decide)

/-- C6: on `{1,2}` and on `{1,2,3,4}` the value sequences after
`revers_n(begin(), end())` and after `revers_v()` differ. -/
theorem revers_n_and_revers_v_differ :
    revers_n_example [1, 2] = .ok [2, 1] ∧ revers_v_example [1, 2] = .ok [1, 2] ∧
    revers_n_example [1, 2, 3, 4] = .ok [4, 3, 2, 1] ∧
    revers_v_example [1, 2, 3, 4] = .ok [4, 2, 3, 1] := ⟨rfl, rfl, rfl, rfl⟩

/-- C7: the claim fails on a list whose `size_` is not its number of elements.
After `list a({1}); a += list({2}); a.pop(); a.pop();` the list has no element
but `size()` is 1 (`+=` counted `{2}` twice), and `a.revers_v()` ends in
`std::terminate`: `empty()` is false, `it_e = end() - 1` is `head_`, and the
loop condition evaluates `it_e - 1` inside the `noexcept` `operator-`.  The
list built empty returns from `revers_v()` unchanged. -/
theorem revers_v_terminates_after_plus_eq :
    plus_eq_then_pops_state [1] [2] 0 = .ok ([1, 2], 3) ∧
    plus_eq_then_pops_state [1] [2] 2 = .ok ([], 1) ∧
    revers_v_after_pops_example [1] [2] 2 = .error .terminate ∧
    revers_v_example [] = .ok [] := ⟨rfl, rfl, rfl, rfl⟩

/-- Where `size_` is the number of interior nodes (a well-formed list),
`revers_v()` twice gives back the original forward value sequence. -/
theorem revers_v_twice (h : Heap T) (l : list) (hd tl : Nat) (ns : List Nat)
    (hW : WellFormed h l hd ns tl) (fuel : Nat) (hf : ns.length < fuel) :
    ∃ h1 h2, l.revers_v fuel h = .ok h1 ∧ l.revers_v fuel h1 = .ok h2 ∧
      l.to_list fuel h = .ok (ns.map h.value_) ∧ l.to_list fuel h2 = l.to_list fuel h := by
  obtain ⟨h1, hr1, hW1, hm1⟩ := revers_v_spec hW (Nat.le_of_lt hf)
  obtain ⟨h2, hr2, hW2, hm2⟩ := revers_v_spec hW1 (Nat.le_of_lt hf)
  refine ⟨h1, h2, hr1, hr2, hW.1.to_list_eq hf, ?_⟩
  rw [hW2.1.to_list_eq hf, hW.1.to_list_eq hf, hm2, hm1, revers_v_values_twice]

theorem revers_v_twice_witness :
    ∃ h1 h2, example_list.revers_v 4 example_heap = .ok h1 ∧
      example_list.revers_v 4 h1 = .ok h2 ∧
      example_list.to_list 4 example_heap = .ok ([2, 3, 4].map example_heap.value_) ∧
      example_list.to_list 4 h2 = example_list.to_list 4 example_heap :=
  revers_v_twice example_heap example_list 1 0 [2, 3, 4] example_well_formed 4 (by decide)

/-- C8: move construction hands the ring of `src` to the new object and leaves
`src` with `size_ == 0` and null `head_` and `tail_`: `src.begin()` and a step
back from `src.end()` dereference a null pointer. -/
theorem move_ctor_source_has_no_ring (h : Heap T) (src : list) :
    (list.move_ctor src).1 = src ∧ (list.move_ctor src).2.size = 0 ∧
    (list.move_ctor src).2.head_ = none ∧ (list.move_ctor src).2.tail_ = none ∧
    (list.move_ctor src).2.begin h = .error .undefined ∧
    (list.move_ctor src).2.end_.decr h = .error .undefined := ⟨rfl, rfl, rfl, rfl, rfl, rfl⟩

/-- C9: the claim fails on a source whose `size_` is not its number of
elements.  For `list src = list({1,2}) + list({3,4}); list cp(src);` the
source has `size()` 6 (`+=` counted `{3,4}` twice) and the copy, filled by
`push_back`, has `size()` 4, so `cp == src` is false, although both hold
`{1,2,3,4}`.  For a source straight from the constructor the sizes agree and
`cp == src` is true. -/
theorem copy_of_sum_differs_from_source :
    copy_of_sum_example [1, 2] [3, 4] = .ok (6, 4, false, [1, 2, 3, 4], [1, 2, 3, 4]) ∧
    copy_example [1, 2, 3, 4] = .ok (4, 4, true, [1, 2, 3, 4], [1, 2, 3, 4]) := ⟨rfl, rfl⟩

/-- Where `size_` is the number of interior nodes (a well-formed list `src`),
the copy constructor returns a well-formed list `cp` with `cp == src`, the
same `size()`, the same forward value sequence and the same value at every
index below `INT_MAX`; no node of `cp` (sentinels included) is a node of
`src`; `src` is unchanged by the copy, and stays unchanged under every later
change of the heap that touches only nodes of `cp` and nodes allocated later,
such as `cp.push_back(v)`. -/
theorem copy_ctor_independent [Inhabited T] [DecidableEq T] (h : Heap T) (src : list)
    (hd tl : Nat) (ns : List Nat) (hW : WellFormed h src hd ns tl) (fuel : Nat)
    (hf : ns.length < fuel) :
    ∃ h' cp hd2 tl2 ms, list.copy_ctor fuel h src = .ok (h', cp) ∧
      WellFormed h' cp hd2 ms tl2 ∧
      list.operator_eq fuel h' cp src = .ok true ∧
      cp.size = src.size ∧
      cp.to_list fuel h' = .ok (ns.map h.value_) ∧
      (∀ i v, i < int_max → (ns.map h.value_)[i]? = some v →
        cp.index h' i = .ok v ∧ src.index h' i = .ok v) ∧
      (∀ a ∈ hd2 :: ms ++ [tl2], a ∉ hd :: ns ++ [tl]) ∧
      WellFormed h' src hd ns tl ∧
      src.to_list fuel h = .ok (ns.map h.value_) ∧
      src.to_list fuel h' = .ok (ns.map h.value_) ∧
      (∀ h2 : Heap T, h'.brk ≤ h2.brk →
        (∀ a, a ∉ hd2 :: ms ++ [tl2] → a < h'.brk →
          h2.value_ a = h'.value_ a ∧ h2.next_node a = h'.next_node a ∧
          h2.prev_node a = h'.prev_node a ∧ h2.live a = h'.live a) →
        WellFormed h2 src hd ns tl ∧ src.to_list fuel h2 = .ok (ns.map h.value_)) ∧
      (∀ v : T, ∃ h2 cp2, cp.push_back h' v = .ok (h2, cp2) ∧
        cp2.to_list (fuel + 1) h2 = .ok (ns.map h.value_ ++ [v]) ∧
        WellFormed h2 src hd ns tl ∧ src.to_list fuel h2 = .ok (ns.map h.value_)) := by
  obtain ⟨h', cp, hrun, hWc, hvc, hbrk, hfr⟩ := copy_ctor_spec hW hf
  have hold : ∀ a ∈ hd :: ns ++ [tl], a < h.brk := fun a ha => (hW.1.2.2.2.1 a ha).2
  have hLs : Linked h' src hd ns tl :=
    hW.1.frame (fun a ha => (hfr a (hold a ha)).2) hbrk
  have hvs : ns.map h'.value_ = ns.map h.value_ :=
    List.map_congr_left (fun a ha => (hfr a (hold a (by simp [ha]))).1)
  have hlen : (List.range' (h.brk + 2) ns.length).length < fuel := by simpa using hf
  have hdisj : ∀ a ∈ (h.brk + 1) :: List.range' (h.brk + 2) ns.length ++ [h.brk],
      a ∉ hd :: ns ++ [tl] := by
    intro a ha hm
    have h1 := hold a hm
    simp [List.mem_range'] at ha
    omega
  have hframe : ∀ h2 : Heap T, h'.brk ≤ h2.brk →
      (∀ a, a ∉ (h.brk + 1) :: List.range' (h.brk + 2) ns.length ++ [h.brk] → a < h'.brk →
        h2.value_ a = h'.value_ a ∧ h2.next_node a = h'.next_node a ∧
        h2.prev_node a = h'.prev_node a ∧ h2.live a = h'.live a) →
      WellFormed h2 src hd ns tl ∧ src.to_list fuel h2 = .ok (ns.map h.value_) := by
    intro h2 hb2 hfr2
    have hsrc : ∀ a ∈ hd :: ns ++ [tl], h2.value_ a = h'.value_ a ∧
        h2.next_node a = h'.next_node a ∧ h2.prev_node a = h'.prev_node a ∧
        h2.live a = h'.live a := fun a ha =>
      hfr2 a (fun hm => hdisj a hm ha) (Nat.lt_of_lt_of_le (hold a ha) hbrk)
    have hL2 : Linked h2 src hd ns tl := hLs.frame (fun a ha => (hsrc a ha).2) hb2
    refine ⟨⟨hL2, hW.2⟩, ?_⟩
    rw [hL2.to_list_eq hf, ← hvs]
    congr 1
    exact List.map_congr_left (fun a ha => (hsrc a (by simp [ha])).1)
  refine ⟨h', cp, h.brk + 1, h.brk, List.range' (h.brk + 2) ns.length, hrun, hWc, ?_, ?_, ?_,
    ?_, hdisj, ⟨hLs, hW.2⟩, hW.1.to_list_eq hf, ?_, hframe, ?_⟩
  · exact operator_eq_of_equal hWc.1 hLs (by rw [hWc.2.1, hW.2.1]; simp) (by rw [hvc, hvs]) hlen
  · show cp.size_ = src.size_
    rw [hWc.2.1, hW.2.1]; simp
  · rw [hWc.1.to_list_eq hlen, hvc]
  · intro i v hi hv
    exact ⟨hWc.1.index_eq hi (by rw [hvc]; exact hv), hLs.index_eq hi (by rw [hvs]; exact hv)⟩
  · rw [hLs.to_list_eq hf, hvs]
  · intro v
    obtain ⟨h2, hpb, hL2, hb2, hv2, hfv2, hfn2, hfp2⟩ := push_back_spec hWc.1 v
    have hres := hframe h2 (by omega) (by
      intro a ha hlt
      have hne : a ≠ h'.brk := Nat.ne_of_lt hlt
      refine ⟨(hfv2 a hne).1, hfn2 a hne ?_, hfp2 a hne ?_, (hfv2 a hne).2⟩
      · intro e
        exact ha (e ▸ List.mem_append_left _ (last_of_mem _ _))
      · intro e
        exact ha (by simp [e]))
    refine ⟨h2, _, hpb, ?_, hres⟩
    have hL3 := @Linked.of_same_ends T _ _ { cp with size_ := (cp.size_ + 1) % size_t_mod } _ _ _
      hL2 rfl rfl
    rw [hL3.to_list_eq (by simp; omega)]
    simp only [List.map_append, List.map_cons, List.map_nil, hv2]
    congr 2
    rw [← hvc]
    apply List.map_congr_left
    intro a ha
    have := (hWc.1.2.2.2.1 a (by simp [ha])).2
    exact (hfv2 a (Nat.ne_of_lt this)).1

theorem copy_ctor_independent_witness :
    ∃ h' cp hd2 tl2 ms, list.copy_ctor 4 example_heap example_list = .ok (h', cp) ∧
      WellFormed h' cp hd2 ms tl2 ∧
      list.operator_eq 4 h' cp example_list = .ok true ∧
      cp.size = example_list.size ∧
      cp.to_list 4 h' = .ok ([2, 3, 4].map example_heap.value_) ∧
      (∀ i v, i < int_max → ([2, 3, 4].map example_heap.value_)[i]? = some v →
        cp.index h' i = .ok v ∧ example_list.index h' i = .ok v) ∧
      (∀ a ∈ hd2 :: ms ++ [tl2], a ∉ 1 :: [2, 3, 4] ++ [0]) ∧
      WellFormed h' example_list 1 [2, 3, 4] 0 ∧
      example_list.to_list 4 example_heap = .ok ([2, 3, 4].map example_heap.value_) ∧
      example_list.to_list 4 h' = .ok ([2, 3, 4].map example_heap.value_) ∧
      (∀ h2 : Heap Nat, h'.brk ≤ h2.brk →
        (∀ a, a ∉ hd2 :: ms ++ [tl2] → a < h'.brk →
          h2.value_ a = h'.value_ a ∧ h2.next_node a = h'.next_node a ∧
          h2.prev_node a = h'.prev_node a ∧ h2.live a = h'.live a) →
        WellFormed h2 example_list 1 [2, 3, 4] 0 ∧
        example_list.to_list 4 h2 = .ok ([2, 3, 4].map example_heap.value_)) ∧
      (∀ v : Nat, ∃ h2 cp2, cp.push_back h' v = .ok (h2, cp2) ∧
        cp2.to_list (4 + 1) h2 = .ok ([2, 3, 4].map example_heap.value_ ++ [v]) ∧
        WellFormed h2 example_list 1 [2, 3, 4] 0 ∧
        example_list.to_list 4 h2 = .ok ([2, 3, 4].map example_heap.value_)) :=
  copy_ctor_independent example_heap example_list 1 0 [2, 3, 4] example_well_formed 4
    (by decide)

/-- C10: on a well-formed list with the nodes `pre ++ mid ++ post`,
`remove(begin, end)` with `begin` at the first node of `mid` (or at `end` when
`mid` is empty) and `end` at the node after `mid` returns; afterwards the
forward value sequence is that of `pre` followed by that of `post`, the node
before `begin` and the node at `end` are linked in both directions, `size()`
is smaller by the length of `mid`, and the list is well-formed. -/
theorem remove_range (h : Heap T) (l : list) (hd tl : Nat) (pre mid post : List Nat)
    (hW : WellFormed h l hd (pre ++ mid ++ post) tl) (fuel : Nat)
    (hf : (pre ++ mid ++ post).length < fuel) :
    ∃ h' l', l.remove fuel h ⟨some (first_of (mid ++ post) tl)⟩ ⟨some (first_of post tl)⟩
        = .ok (h', l') ∧
      l.to_list fuel h = .ok (pre.map h.value_ ++ mid.map h.value_ ++ post.map h.value_) ∧
      l'.to_list fuel h' = .ok (pre.map h.value_ ++ post.map h.value_) ∧
      h'.next_node (last_of hd pre) = some (first_of post tl) ∧
      h'.prev_node (first_of post tl) = some (last_of hd pre) ∧
      l'.size + mid.length = l.size ∧ WellFormed h' l' hd (pre ++ post) tl := by
  have hf1 : mid.length < fuel := by simp at hf; omega
  have hf2 : (pre ++ post).length < fuel := by simp at hf ⊢; omega
  obtain ⟨h', l', hrun, hW', hv, hs, _, hlink⟩ := remove_spec hW hf1
  refine ⟨h', l', hrun, ?_, ?_, hlink.1, hlink.2, hs, hW'⟩
  · rw [hW.1.to_list_eq hf]; simp
  · rw [hW'.1.to_list_eq hf2, hv]; simp

theorem remove_range_witness :
    ∃ h' l', example_list.remove 4 example_heap ⟨some (first_of ([3] ++ [4]) 0)⟩
        ⟨some (first_of [4] 0)⟩ = .ok (h', l') ∧
      example_list.to_list 4 example_heap =
        .ok ([2].map example_heap.value_ ++ [3].map example_heap.value_ ++
          [4].map example_heap.value_) ∧
      l'.to_list 4 h' = .ok ([2].map example_heap.value_ ++ [4].map example_heap.value_) ∧
      h'.next_node (last_of 1 [2]) = some (first_of [4] 0) ∧
      h'.prev_node (first_of [4] 0) = some (last_of 1 [2]) ∧
      l'.size + [3].length = example_list.size ∧ WellFormed h' l' 1 ([2] ++ [4]) 0 :=
  remove_range example_heap example_list 1 0 [2] [3] [4] example_well_formed 4 (by decide)

/-- C11: on a well-formed list whose last interior node is `n`, `pop()` returns
the value of `n` and leaves the forward value sequence without its last
value, `size()` smaller by one, `tail_->prev_node` at the new last node (or at
`head_`), and the list well-formed. -/
theorem pop_returns_last (h : Heap T) (l : list) (hd tl n : Nat) (init : List Nat)
    (hW : WellFormed h l hd (init ++ [n]) tl) (fuel : Nat)
    (hf : (init ++ [n]).length < fuel) :
    ∃ h' l', l.pop h = .ok (h.value_ n, h', l') ∧
      l.to_list fuel h = .ok (init.map h.value_ ++ [h.value_ n]) ∧
      l'.to_list fuel h' = .ok (init.map h.value_) ∧
      l'.size + 1 = l.size ∧ h'.prev_node tl = some (last_of hd init) ∧
      WellFormed h' l' hd init tl := by
  obtain ⟨h', hrun, hW', hv, hp, _⟩ := pop_spec hW
  have hs : 0 < l.size_ := by rw [hW.2.1]; simp
  refine ⟨h', _, hrun, ?_, ?_, ?_, hp, hW'⟩
  · rw [hW.1.to_list_eq hf]; simp
  · rw [hW'.1.to_list_eq (by simp at hf; omega), hv]
  · show l.size_ - 1 + 1 = l.size_
    omega

theorem pop_returns_last_witness :
    ∃ h' l', example_list.pop example_heap = .ok (example_heap.value_ 4, h', l') ∧
      example_list.to_list 4 example_heap =
        .ok ([2, 3].map example_heap.value_ ++ [example_heap.value_ 4]) ∧
      l'.to_list 4 h' = .ok ([2, 3].map example_heap.value_) ∧
      l'.size + 1 = example_list.size ∧ h'.prev_node 0 = some (last_of 1 [2, 3]) ∧
      WellFormed h' l' 1 [2, 3] 0 :=
  pop_returns_last example_heap example_list 1 0 4 [2, 3] example_well_formed 4 (by decide)

/-- C12: the claim fails on a list whose `size_` is not its number of elements.
After `list a({1,2}); a += list({3});` and three times `a.pop()` the list has
no element but `size()` is 1 (`+=` counted `{3}` twice); the next `a.pop()`
does not throw `std::logic_error("List is empty")`: `empty()` is false,
`to_pop` is `head_`, and `to_pop->prev_node->next_node = tail_` writes through
a null pointer.  The third `pop()` still returns (the value 1), and on the
list built empty `pop()` throws as claimed. -/
theorem pop_on_emptied_list_after_plus_eq :
    plus_eq_then_pops_state [1, 2] [3] 0 = .ok ([1, 2, 3], 4) ∧
    pop_after_pops_example [1, 2] [3] 2 = .ok (1, [], 1) ∧
    plus_eq_then_pops_state [1, 2] [3] 3 = .ok ([], 1) ∧
    pop_after_pops_example [1, 2] [3] 3 = .error .undefined ∧
    pop_example [] = .error .list_is_empty := ⟨rfl, rfl, rfl, rfl, rfl⟩

/-- Where `size_` is the number of interior nodes (a well-formed list):
without interior nodes `pop()` throws `std::logic_error("List is empty")` with
heap and list members as they were at the call; with an interior node it
returns. -/
theorem pop_fails_iff_empty (h : Heap T) (l : list) (hd tl : Nat) (ns : List Nat)
    (hW : WellFormed h l hd ns tl) :
    (ns = [] → l.pop h = .error (.list_is_empty, h, l)) ∧
    (ns ≠ [] → ∃ v h' l', l.pop h = .ok (v, h', l')) := by
  constructor
  · intro e
    subst e
    have : l.size_ = 0 := hW.2.1
    simp [list.pop, list.empty, this]
  · intro hne
    rcases List.eq_nil_or_concat ns with e | ⟨init, n, e⟩
    · exact absurd e hne
    · rw [List.concat_eq_append] at e
      subst e
      obtain ⟨h', hrun, _⟩ := pop_spec hW
      exact ⟨_, _, _, hrun⟩

theorem pop_fails_iff_empty_witness :
    (([] : List Nat) = [] → example_empty_list.pop example_empty_heap =
      .error (.list_is_empty, example_empty_heap, example_empty_list)) ∧
    (([] : List Nat) ≠ [] → ∃ v h' l', example_empty_list.pop example_empty_heap =
      .ok (v, h', l')) :=
  pop_fails_iff_empty example_empty_heap example_empty_list 1 0 [] example_empty_well_formed

/-- C13: on a well-formed list, for a position `pos` at `head_` or at an
interior node, `insert(pos, v)` returns an iterator at a fresh node; the nodes
are then those up to `pos`, the fresh node, those after `pos`; the forward
value sequence has `v` right after the values up to `pos`; `size()` is larger
by one; dereferencing the returned iterator gives `v` and stepping it back
gives `pos`. -/
theorem insert_after_position (h : Heap T) (l : list) (hd tl : Nat) (ns : List Nat)
    (hW : WellFormed h l hd ns tl) (hsz : ns.length + 1 < size_t_mod) (pos : Nat)
    (hpos : pos ∈ hd :: ns) (v : T) (fuel : Nat) (hf : ns.length + 1 < fuel) :
    ∃ pre post it h' l', ns = pre ++ post ∧ pos = last_of hd pre ∧
      l.insert h ⟨some pos⟩ v = .ok (it, h', l') ∧
      it.node_ = some h.brk ∧ h.brk ∉ hd :: ns ++ [tl] ∧
      WellFormed h' l' hd (pre ++ [h.brk] ++ post) tl ∧
      l.to_list fuel h = .ok (pre.map h.value_ ++ post.map h.value_) ∧
      l'.to_list fuel h' = .ok (pre.map h.value_ ++ [v] ++ post.map h.value_) ∧
      l'.size = l.size + 1 ∧ it.deref h' = .ok v ∧ it.decr h' = .ok ⟨some pos⟩ := by
  obtain ⟨pre, post, hns, hp⟩ := mem_split_last hpos
  subst hns
  obtain ⟨hL, hs, hlt⟩ := hW
  obtain ⟨h', hrun, hL', hb', hv', hpv', hlv', hfv', _, _⟩ := insert_spec hL v
  have hfresh : ∀ x ∈ hd :: (pre ++ post) ++ [tl], x ≠ h.brk := fun x hx =>
    Nat.ne_of_lt (hL.2.2.2.1 x hx).2
  have hs2 : (l.size_ + 1) % size_t_mod = l.size_ + 1 :=
    Nat.mod_eq_of_lt (by rw [hs]; exact hsz)
  have hL2 : Linked h' { l with size_ := (l.size_ + 1) % size_t_mod } hd
      (pre ++ [h.brk] ++ post) tl := @Linked.of_same_ends T _ _ _ _ _ _ hL' rfl rfl
  have hval : ∀ x ∈ pre ++ post, h'.value_ x = h.value_ x := fun x hx =>
    (hfv' x (hfresh x (by simp at hx ⊢; tauto))).1
  refine ⟨pre, post, ⟨some h.brk⟩, h', _, rfl, hp, ?_, rfl, ?_, ⟨hL2, ?_, ?_⟩, ?_, ?_, ?_, ?_,
    ?_⟩
  · rw [hp]; exact hrun
  · intro hm; exact hfresh _ hm rfl
  · show (l.size_ + 1) % size_t_mod = _
    rw [hs2, hs]; simp; omega
  · show (l.size_ + 1) % size_t_mod < size_t_mod
    rw [hs2, hs]; exact hsz
  · rw [hL.to_list_eq (by omega)]; simp
  · rw [hL2.to_list_eq (by simp at hf ⊢; omega)]
    simp only [List.map_append, List.map_cons, List.map_nil, hv']
    congr 2
    · congr 1
      exact List.map_congr_left (fun x hx => hval x (by simp [hx]))
    · exact List.map_congr_left (fun x hx => hval x (by simp [hx]))
  · show (l.size_ + 1) % size_t_mod = l.size_ + 1
    exact hs2
  · simp [list_iterator.deref, get_value_live hlv', hv']
  · rw [hp]
    exact decr_of_prev hlv' hpv'

theorem insert_after_position_witness :
    ∃ pre post it h' l', [2, 3, 4] = pre ++ post ∧ 3 = last_of 1 pre ∧
      example_list.insert example_heap ⟨some 3⟩ 35 = .ok (it, h', l') ∧
      it.node_ = some example_heap.brk ∧ example_heap.brk ∉ 1 :: [2, 3, 4] ++ [0] ∧
      WellFormed h' l' 1 (pre ++ [example_heap.brk] ++ post) 0 ∧
      example_list.to_list 5 example_heap =
        .ok (pre.map example_heap.value_ ++ post.map example_heap.value_) ∧
      l'.to_list 5 h' =
        .ok (pre.map example_heap.value_ ++ [35] ++ post.map example_heap.value_) ∧
      l'.size = example_list.size + 1 ∧ it.deref h' = .ok 35 ∧ it.decr h' = .ok ⟨some 3⟩ :=
  insert_after_position example_heap example_list 1 0 [2, 3, 4] example_well_formed
    (by decide) 3 (by decide) 35 5 (by decide)

/-- C14: on a well-formed list, for a position `pos` at any of its nodes,
`insert(pos, v)` throws `std::logic_error("You can't insert an element after
end")` when `pos` is at `tail_`, with heap and list members as they were at the
call, and returns when `pos` is elsewhere. -/
theorem insert_fails_iff_tail (h : Heap T) (l : list) (hd tl : Nat) (ns : List Nat)
    (hW : WellFormed h l hd ns tl) (pos : Nat) (hpos : pos ∈ hd :: ns ++ [tl]) (v : T) :
    (pos = tl → l.insert h ⟨some pos⟩ v = .error (.insert_after_end, h, l)) ∧
    (pos ≠ tl → ∃ it h' l', l.insert h ⟨some pos⟩ v = .ok (it, h', l')) := by
  constructor
  · intro e
    subst e
    simp [list.insert, get_next_live hW.1.tail_live, hW.1.2.2.2.2.2.2]
  · intro hne
    have hpos2 : pos ∈ hd :: ns := by
      simp at hpos ⊢; tauto
    obtain ⟨pre, post, hns, hp⟩ := mem_split_last hpos2
    subst hns
    obtain ⟨h', hrun, _⟩ := insert_spec hW.1 v
    exact ⟨_, _, _, hp ▸ hrun⟩

theorem insert_fails_iff_tail_witness :
    (0 = 0 → example_list.insert example_heap ⟨some 0⟩ 7 =
      .error (.insert_after_end, example_heap, example_list)) ∧
    (0 ≠ 0 → ∃ it h' l', example_list.insert example_heap ⟨some 0⟩ 7 = .ok (it, h', l')) :=
  insert_fails_iff_tail example_heap example_list 1 0 [2, 3, 4] example_well_formed 0
    (by decide) 7

/-- C15 as stated fails: `insert(end() - 1, 9)` on `{1,2,3}` does not throw
but returns and leaves `{1,2,3,9}` with `size()` 4; on the empty list it leaves
`{9}`. -/
theorem insert_before_end_succeeds :
    insert_before_end_example [1, 2, 3] 9 = .ok ([1, 2, 3, 9], 4) ∧
    insert_before_end_example [1, 2, 3] 9 ≠ .error .insert_after_end ∧
    insert_before_end_example [] 9 = .ok ([9], 1) :=
  ⟨rfl, (fun e => Except.noConfusion
    ((rfl : insert_before_end_example [1, 2, 3] 9 = .ok ([1, 2, 3, 9], 4)).symm.trans e)), rfl⟩

/-- C15 amended: on a well-formed list `insert(end() - 1, v)` returns and
makes `v` the last value: the forward value sequence is the old one followed
by `v`, `size()` is larger by one. -/
theorem insert_before_end_appends (h : Heap T) (l : list) (hd tl : Nat) (ns : List Nat)
    (hW : WellFormed h l hd ns tl) (hsz : ns.length + 1 < size_t_mod) (v : T) (fuel : Nat)
    (hf : ns.length + 1 < fuel) :
    ∃ pos it h' l', l.end_.minus h 1 = .ok pos ∧ l.insert h pos v = .ok (it, h', l') ∧
      l.to_list fuel h = .ok (ns.map h.value_) ∧
      l'.to_list fuel h' = .ok (ns.map h.value_ ++ [v]) ∧ l'.size = l.size + 1 ∧
      WellFormed h' l' hd (ns ++ [h.brk]) tl := by
  obtain ⟨hL, hs, hlt⟩ := hW
  have hL0 : Linked h l hd (ns ++ []) tl := by simpa using hL
  obtain ⟨h', hrun, hL', hb', hv', _, _, hfv', _, _⟩ := insert_spec hL0 v
  have hfresh : ∀ x ∈ hd :: ns ++ [tl], x ≠ h.brk := fun x hx =>
    Nat.ne_of_lt (hL.2.2.2.1 x hx).2
  have hs2 : (l.size_ + 1) % size_t_mod = l.size_ + 1 :=
    Nat.mod_eq_of_lt (by rw [hs]; exact hsz)
  have hL2 : Linked h' { l with size_ := (l.size_ + 1) % size_t_mod } hd (ns ++ [h.brk]) tl :=
    @Linked.of_same_ends T _ _ _ _ _ _ (by simpa using hL') rfl rfl
  refine ⟨⟨some (last_of hd ns)⟩, ⟨some h.brk⟩, h', _, ?_, hrun, hL.to_list_eq (by omega), ?_,
    hs2, ⟨hL2, ?_, ?_⟩⟩
  · rw [hL.end_eq]
    exact minus_one_of_prev hL.tail_live hL.last_prev
  · rw [hL2.to_list_eq (by simp; omega)]
    simp only [List.map_append, List.map_cons, List.map_nil, hv']
    congr 2
    exact List.map_congr_left (fun x hx => (hfv' x (hfresh x (by simp [hx]))).1)
  · show (l.size_ + 1) % size_t_mod = _
    rw [hs2, hs]; simp
  · show (l.size_ + 1) % size_t_mod < size_t_mod
    rw [hs2, hs]; exact hsz

theorem insert_before_end_appends_witness :
    ∃ pos it h' l', example_list.end_.minus example_heap 1 = .ok pos ∧
      example_list.insert example_heap pos 50 = .ok (it, h', l') ∧
      example_list.to_list 5 example_heap = .ok ([2, 3, 4].map example_heap.value_) ∧
      l'.to_list 5 h' = .ok ([2, 3, 4].map example_heap.value_ ++ [50]) ∧
      l'.size = example_list.size + 1 ∧
      WellFormed h' l' 1 ([2, 3, 4] ++ [example_heap.brk]) 0 :=
  insert_before_end_appends example_heap example_list 1 0 [2, 3, 4] example_well_formed
    (by decide) 50 5 (by decide)

/-- C16: the distance computation `b - a` returns no result when `a` and `b`
differ, whatever the fuel: `copy += 1` leaves `copy` as it is, so the loop
`for (result = 0; copy != end; ++result) copy += 1;` never reaches its exit. -/
theorem distance_never_returns (h : Heap T) (a b : list_iterator) (hne : a ≠ b)
    (fuel k : Nat) : list_iterator.distance fuel h b a ≠ .ok k :=
  distance_loop_never_returns h a b hne k fuel 0

theorem distance_never_returns_witness :
    (⟨some 2⟩ : list_iterator) ≠ ⟨some 0⟩ ∧
    list_iterator.distance 100 example_heap ⟨some 0⟩ ⟨some 2⟩ ≠ .ok 3 :=
  ⟨by decide, distance_never_returns example_heap ⟨some 2⟩ ⟨some 0⟩ (by decide) 100 3⟩

/-- C17: for an iterator at a node `a` of a well-formed list, `++` throws at
`tail_`, leaving the iterator at `tail_`, and otherwise moves to the node that
follows `a`; `--` throws at `head_`, leaving the iterator at `head_`, and
otherwise moves to the node that precedes `a`. -/
theorem iterator_step_bounds (h : Heap T) (l : list) (hd tl : Nat) (ns : List Nat)
    (hW : WellFormed h l hd ns tl) (a : Nat) (ha : a ∈ hd :: ns ++ [tl]) :
    (a = tl → (list_iterator.mk (some a)).operator_incr h = .error (.after_tail, ⟨some a⟩)) ∧
    (a ≠ tl → ∃ A b B, hd :: ns ++ [tl] = A ++ a :: b :: B ∧
      (list_iterator.mk (some a)).operator_incr h = .ok ⟨some b⟩) ∧
    (a = hd → (list_iterator.mk (some a)).operator_decr h = .error (.before_head, ⟨some a⟩)) ∧
    (a ≠ hd → ∃ A b B, hd :: ns ++ [tl] = A ++ b :: a :: B ∧
      (list_iterator.mk (some a)).operator_decr h = .ok ⟨some b⟩) := by
  obtain ⟨_, _, _, hlive, hc, hhp, htn⟩ := hW.1
  have hla : h.live a = true := (hlive a ha).1
  refine ⟨?_, ?_, ?_, ?_⟩
  · intro e
    subst e
    simp [list_iterator.operator_incr, get_next_live hla, htn]
  · intro hne
    obtain ⟨A, b, B, hL⟩ := mem_split_next ha tl (hd :: ns) rfl hne
    have hl := chain_link_of_split hc hL
    exact ⟨A, b, B, hL, by simp [list_iterator.operator_incr, get_next_live hla, hl.1]⟩
  · intro e
    subst e
    simp [list_iterator.operator_decr, get_prev_live hla, hhp]
  · intro hne
    obtain ⟨A, b, B, hL⟩ := mem_split_prev ha hd (ns ++ [tl]) rfl hne
    have hl := chain_link_of_split hc hL
    exact ⟨A, b, B, hL, by simp [list_iterator.operator_decr, get_prev_live hla, hl.2]⟩

theorem iterator_step_bounds_witness :
    (3 = 0 → (list_iterator.mk (some 3)).operator_incr example_heap =
      .error (.after_tail, ⟨some 3⟩)) ∧
    (3 ≠ 0 → ∃ A b B, 1 :: [2, 3, 4] ++ [0] = A ++ 3 :: b :: B ∧
      (list_iterator.mk (some 3)).operator_incr example_heap = .ok ⟨some b⟩) ∧
    (3 = 1 → (list_iterator.mk (some 3)).operator_decr example_heap =
      .error (.before_head, ⟨some 3⟩)) ∧
    (3 ≠ 1 → ∃ A b B, 1 :: [2, 3, 4] ++ [0] = A ++ b :: 3 :: B ∧
      (list_iterator.mk (some 3)).operator_decr example_heap = .ok ⟨some b⟩) :=
  iterator_step_bounds example_heap example_list 1 0 [2, 3, 4] example_well_formed 3
    (by decide)

/-- C20: for two well-formed lists `a` and `b` without a common node,
`a.swap(b)` and the free function `swap(a, b)` give `a` the ring, value
sequence and `size()` of `b` and `b` those of `a`; the heap is not touched, so
the rings keep their nodes and stay apart; swapping twice restores both. -/
theorem swap_exchanges_rings (h : Heap T) (a b : list) (hd1 tl1 hd2 tl2 : Nat)
    (ns ms : List Nat) (hWa : WellFormed h a hd1 ns tl1) (hWb : WellFormed h b hd2 ms tl2)
    (hdisj : ∀ x ∈ hd1 :: ns ++ [tl1], x ∉ hd2 :: ms ++ [tl2]) (fuel : Nat)
    (hf : ns.length + ms.length < fuel) :
    swap a b = a.swap b ∧
    WellFormed h (a.swap b).1 hd2 ms tl2 ∧ WellFormed h (a.swap b).2 hd1 ns tl1 ∧
    (a.swap b).1.to_list fuel h = .ok (ms.map h.value_) ∧
    (a.swap b).2.to_list fuel h = .ok (ns.map h.value_) ∧
    a.to_list fuel h = .ok (ns.map h.value_) ∧ b.to_list fuel h = .ok (ms.map h.value_) ∧
    (a.swap b).1.size = ms.length ∧ (a.swap b).2.size = ns.length ∧
    a.size = ns.length ∧ b.size = ms.length ∧
    (a.swap b).1.node_list fuel h = b.node_list fuel h ∧
    (a.swap b).2.node_list fuel h = a.node_list fuel h ∧
    (∀ x ∈ hd2 :: ms ++ [tl2], x ∉ hd1 :: ns ++ [tl1]) ∧
    ((a.swap b).1.swap (a.swap b).2 = (a, b)) :=
  ⟨rfl, hWb, hWa, hWb.1.to_list_eq (by omega), hWa.1.to_list_eq (by omega),
    hWa.1.to_list_eq (by omega), hWb.1.to_list_eq (by omega), hWb.2.1, hWa.2.1, hWa.2.1,
    hWb.2.1, rfl, rfl, fun x hx hx2 => hdisj x hx2 hx, rfl⟩

theorem swap_exchanges_rings_witness :
    swap example_pair_left example_pair_right = example_pair_left.swap example_pair_right ∧
    WellFormed example_pair_heap (example_pair_left.swap example_pair_right).1 5 [6] 4 ∧
    WellFormed example_pair_heap (example_pair_left.swap example_pair_right).2 1 [2, 3] 0 ∧
    (example_pair_left.swap example_pair_right).1.to_list 4 example_pair_heap =
      .ok ([6].map example_pair_heap.value_) ∧
    (example_pair_left.swap example_pair_right).2.to_list 4 example_pair_heap =
      .ok ([2, 3].map example_pair_heap.value_) ∧
    example_pair_left.to_list 4 example_pair_heap = .ok ([2, 3].map example_pair_heap.value_) ∧
    example_pair_right.to_list 4 example_pair_heap = .ok ([6].map example_pair_heap.value_) ∧
    (example_pair_left.swap example_pair_right).1.size = [6].length ∧
    (example_pair_left.swap example_pair_right).2.size = [2, 3].length ∧
    example_pair_left.size = [2, 3].length ∧ example_pair_right.size = [6].length ∧
    (example_pair_left.swap example_pair_right).1.node_list 4 example_pair_heap =
      example_pair_right.node_list 4 example_pair_heap ∧
    (example_pair_left.swap example_pair_right).2.node_list 4 example_pair_heap =
      example_pair_left.node_list 4 example_pair_heap ∧
    (∀ x ∈ 5 :: [6] ++ [4], x ∉ 1 :: [2, 3] ++ [0]) ∧
    ((example_pair_left.swap example_pair_right).1.swap
      (example_pair_left.swap example_pair_right).2 = (example_pair_left, example_pair_right)) :=
  swap_exchanges_rings example_pair_heap example_pair_left example_pair_right 1 0 5 4 [2, 3] [6]
    example_pair_left_well_formed example_pair_right_well_formed (by decide) 4 (by decide)

/-- C21: on a well-formed list `clear()` returns and leaves the list in the
state of a default-constructed list: `size() == 0`, `head_->next_node == tail_`
and `tail_->prev_node == head_`, so `begin() == end()`, and one step back from
`begin()` and one step back from `end()` both reach `head_`.  The sentinels
are the two nodes they were and are still allocated; every interior node is
deleted.  A list made by `list()` has the same shape. -/
theorem clear_gives_empty_list [Inhabited T] (h : Heap T) (l : list) (hd tl : Nat)
    (ns : List Nat) (hW : WellFormed h l hd ns tl) (fuel : Nat) (hf : ns.length < fuel) :
    (∃ h' l' b, l.clear fuel h = .ok (h', l') ∧ l'.size = 0 ∧
      h'.next_node hd = some tl ∧ h'.prev_node tl = some hd ∧
      l'.begin h' = .ok b ∧ b = l'.end_ ∧
      b.decr h' = .ok ⟨some hd⟩ ∧ l'.end_.decr h' = .ok ⟨some hd⟩ ∧
      l'.head_ = l.head_ ∧ l'.tail_ = l.tail_ ∧ l'.head_ = some hd ∧ l'.tail_ = some tl ∧
      h'.live hd = true ∧ h'.live tl = true ∧ (∀ a ∈ ns, h'.live a = false) ∧
      WellFormed h' l' hd [] tl ∧ l'.to_list fuel h' = .ok []) ∧
    (∃ h0 l0 hd0 tl0 b0, list.ctor h = .ok (h0, l0) ∧ l0.size = 0 ∧
      h0.next_node hd0 = some tl0 ∧ h0.prev_node tl0 = some hd0 ∧
      l0.begin h0 = .ok b0 ∧ b0 = l0.end_ ∧
      b0.decr h0 = .ok ⟨some hd0⟩ ∧ l0.end_.decr h0 = .ok ⟨some hd0⟩ ∧
      WellFormed h0 l0 hd0 [] tl0) := by
  obtain ⟨h', hrun, hW', _, _, hdel, _⟩ := clear_spec hW hf
  obtain ⟨s1, s2, s3, s4, s5, s6, s7⟩ := hW'.empty_shape
  obtain ⟨h0, hrun0, hL0, _, _⟩ := ctor_spec h
  have hW0 : WellFormed h0 ⟨0, some h.brk, some (h.brk + 1)⟩ (h.brk + 1) [] h.brk :=
    ⟨hL0, rfl, by simp [size_t_mod]⟩
  obtain ⟨t1, t2, t3, t4, t5, _, _⟩ := hW0.empty_shape
  refine ⟨⟨h', _, _, hrun, s1, s2, s3, s4, rfl, s5, s5, rfl, rfl, hW.1.1, hW.1.2.1, s6, s7,
    hdel, hW', ?_⟩, ⟨h0, _, _, _, _, hrun0, t1, t2, t3, t4, rfl, t5, t5, hW0⟩⟩
  have := hW'.1.to_list_eq (show ([] : List Nat).length < fuel by simp; omega)
  simpa using this

theorem clear_gives_empty_list_witness :
    WellFormed example_heap example_list 1 [2, 3, 4] 0 ∧
    (∃ h' l' b, example_list.clear 4 example_heap = .ok (h', l') ∧ l'.size = 0 ∧
      h'.next_node 1 = some 0 ∧ h'.prev_node 0 = some 1 ∧
      l'.begin h' = .ok b ∧ b = l'.end_ ∧
      b.decr h' = .ok ⟨some 1⟩ ∧ l'.end_.decr h' = .ok ⟨some 1⟩ ∧
      l'.head_ = example_list.head_ ∧ l'.tail_ = example_list.tail_ ∧
      l'.head_ = some 1 ∧ l'.tail_ = some 0 ∧
      h'.live 1 = true ∧ h'.live 0 = true ∧ (∀ a ∈ [2, 3, 4], h'.live a = false) ∧
      WellFormed h' l' 1 [] 0 ∧ l'.to_list 4 h' = .ok []) ∧
    (∃ h0 l0 hd0 tl0 b0, list.ctor example_heap = .ok (h0, l0) ∧ l0.size = 0 ∧
      h0.next_node hd0 = some tl0 ∧ h0.prev_node tl0 = some hd0 ∧
      l0.begin h0 = .ok b0 ∧ b0 = l0.end_ ∧
      b0.decr h0 = .ok ⟨some hd0⟩ ∧ l0.end_.decr h0 = .ok ⟨some hd0⟩ ∧
      WellFormed h0 l0 hd0 [] tl0) :=
  ⟨example_well_formed,
    clear_gives_empty_list example_heap example_list 1 0 [2, 3, 4] example_well_formed 4
      (by decide)⟩

/-- C22: the claim fails for the ranges of length 0.  On a well-formed list
of two or more elements, written with two neighbouring interior nodes `a` and
`b`, no call `revers_n(it, it)` does what the claim says: with `it == begin()`
the call ends in `std::terminate` (the loop condition evaluates `head_ - 1`
inside the `noexcept` `operator-`); with `it` at `b` the call returns and
leaves `a` as the `next_node` of both `a` and `b` and `a->prev_node == b`, so
`a` is referenced twice, is its own successor, and `a->next_node->prev_node`
is not `a`; with `it == end()` the first round writes through the null
`tail_->next_node`.  The early return of
`revers_n` tests `size_ < 2`, the length of the list, not of the range. -/
theorem revers_n_empty_range_breaks_list (h : Heap T) (l : list) (hd tl a b : Nat)
    (pre post : List Nat) (hW : WellFormed h l hd (pre ++ [a, b] ++ post) tl) (k : Nat) :
    (∃ it, l.begin h = .ok it ∧ l.revers_n (k + 1) h it it = .error .terminate) ∧
    (∃ h', l.revers_n (k + 3) h ⟨some b⟩ ⟨some b⟩ = .ok h' ∧
      h'.next_node a = some a ∧ h'.next_node b = some a ∧ h'.prev_node a = some b ∧
      a ≠ b) ∧
    l.revers_n (k + 1) h l.end_ l.end_ = .error .undefined := by
  have h2 : 2 ≤ (pre ++ [a, b] ++ post).length := by simp; omega
  refine ⟨⟨_, hW.1.begin_eq, revers_n_begin_begin hW h2 k⟩,
    revers_n_interior_interior hW k, ?_⟩
  rw [hW.1.end_eq]
  exact revers_n_end_end hW h2 k

theorem revers_n_empty_range_breaks_list_witness :
    WellFormed example_heap example_list 1 ([] ++ [2, 3] ++ [4]) 0 ∧
    (∃ it, example_list.begin example_heap = .ok it ∧
      example_list.revers_n (2 + 1) example_heap it it = .error .terminate) ∧
    (∃ h', example_list.revers_n (2 + 3) example_heap ⟨some 3⟩ ⟨some 3⟩ = .ok h' ∧
      h'.next_node 2 = some 2 ∧ h'.next_node 3 = some 2 ∧ h'.prev_node 2 = some 3 ∧
      2 ≠ 3) ∧
    example_list.revers_n (2 + 1) example_heap example_list.end_ example_list.end_ =
      .error .undefined :=
  ⟨example_well_formed,
    revers_n_empty_range_breaks_list example_heap example_list 1 0 2 3 [] [4]
      example_well_formed 2⟩

/-- C23 as stated fails in the number of steps: in the list made by `list()`,
with `size()` 0, no steps from `head_` do not end at `tail_` and no steps from
`tail_` do not end at `head_`; one step does.  In `{1,2,3}` three steps do
not end at the other sentinel, four do. -/
theorem sentinels_are_size_plus_one_steps_apart :
    default_list_steps 0 = .ok (0, false, false) ∧
    default_list_steps 1 = .ok (0, true, true) ∧
    list_steps [1, 2, 3] 3 = .ok (3, false, false) ∧
    list_steps [1, 2, 3] 4 = .ok (3, true, true) :=
  ⟨rfl, rfl, rfl, rfl⟩

/-- C23 amended: the invariant of the data model, with the chain from `head_`
by `next_node` arriving at `tail_` in exactly `size_ + 1` steps and the chain
from `tail_` by `prev_node` arriving at `head_` in exactly `size_ + 1` steps,
holds for the list made by `list()` in every heap, the empty one included, and
is kept by `push_back`, `push_front`, `insert` at every position other than
`tail_`, `pop` on a non-empty list, `remove` of a range of the list and
`clear`: each of them returns, and the list it leaves is well-formed again,
with the same sentinels.  The invariant is `WellFormed`; it gives the clauses
of the specification (`SpecInvariant`): `head.prev` and `tail.next` null,
`n.prev.next == n` and `n.next.prev == n` for every interior node, and the two
chains.  For the three operations that add a node, `size_ + 1` is taken to
fit `size_t`. -/
theorem invariant_preserved [Inhabited T] (h : Heap T) :
    (∃ h' l' hd0 tl0, list.ctor h = .ok (h', l') ∧ WellFormed h' l' hd0 [] tl0 ∧
      SpecInvariant h' l' hd0 [] tl0) ∧
    (∀ (l : list) (hd tl : Nat) (pre mid post : List Nat),
      WellFormed h l hd (pre ++ mid ++ post) tl →
      ∀ (v : T) (fuel : Nat), (pre ++ mid ++ post).length < fuel →
      SpecInvariant h l hd (pre ++ mid ++ post) tl ∧
      ((pre ++ mid ++ post).length + 1 < size_t_mod →
        (∃ h' l', l.push_back h v = .ok (h', l') ∧
          WellFormed h' l' hd (pre ++ mid ++ post ++ [h.brk]) tl ∧
          SpecInvariant h' l' hd (pre ++ mid ++ post ++ [h.brk]) tl) ∧
        (∃ h' l', l.push_front h v = .ok (h', l') ∧
          WellFormed h' l' hd (h.brk :: (pre ++ mid ++ post)) tl ∧
          SpecInvariant h' l' hd (h.brk :: (pre ++ mid ++ post)) tl) ∧
        (∀ pos ∈ hd :: (pre ++ mid ++ post), ∃ A B it h' l', pre ++ mid ++ post = A ++ B ∧
          pos = last_of hd A ∧ l.insert h ⟨some pos⟩ v = .ok (it, h', l') ∧
          WellFormed h' l' hd (A ++ [h.brk] ++ B) tl ∧
          SpecInvariant h' l' hd (A ++ [h.brk] ++ B) tl)) ∧
      (pre ++ mid ++ post ≠ [] → ∃ init n x h' l', pre ++ mid ++ post = init ++ [n] ∧
        l.pop h = .ok (x, h', l') ∧ WellFormed h' l' hd init tl ∧
        SpecInvariant h' l' hd init tl) ∧
      (∃ h' l', l.remove fuel h ⟨some (first_of (mid ++ post) tl)⟩
          ⟨some (first_of post tl)⟩ = .ok (h', l') ∧
        WellFormed h' l' hd (pre ++ post) tl ∧ SpecInvariant h' l' hd (pre ++ post) tl) ∧
      (∃ h' l', l.clear fuel h = .ok (h', l') ∧ WellFormed h' l' hd [] tl ∧
        SpecInvariant h' l' hd [] tl)) := by
  constructor
  · obtain ⟨h0, hrun0, hL0, _, _⟩ := ctor_spec h
    have hW0 : WellFormed h0 ⟨0, some h.brk, some (h.brk + 1)⟩ (h.brk + 1) [] h.brk :=
      ⟨hL0, rfl, by simp [size_t_mod]⟩
    exact ⟨h0, _, _, _, hrun0, hW0, hW0.spec_invariant⟩
  intro l hd tl pre mid post hW v fuel hf
  have hsz := hW.2.1
  refine ⟨hW.spec_invariant, ?_, ?_, ?_, ?_⟩
  · intro hroom
    have hinc : (l.size_ + 1) % size_t_mod = l.size_ + 1 := by
      rw [hsz]
      exact size_t_inc hroom
    have hwf : ∀ (h' : Heap T) (ms : List Nat), Linked h' l hd ms tl →
        ms.length = (pre ++ mid ++ post).length + 1 →
        WellFormed h' { l with size_ := (l.size_ + 1) % size_t_mod } hd ms tl := by
      intro h' ms hL hlen
      refine ⟨hL.of_same_ends rfl rfl, ?_, Nat.mod_lt _ (by simp [size_t_mod])⟩
      show (l.size_ + 1) % size_t_mod = ms.length
      rw [hinc, hsz, hlen]
    refine ⟨?_, ?_, ?_⟩
    · obtain ⟨h', hrun, hL', _⟩ := push_back_spec hW.1 v
      have hW' := hwf h' _ hL'
        (by simp only [List.length_append, List.length_cons, List.length_nil])
      exact ⟨h', _, hrun, hW', hW'.spec_invariant⟩
    · obtain ⟨h', hrun, hL', _⟩ := push_front_spec hW.1 v
      have hW' := hwf h' _ hL'
        (by simp only [List.length_append, List.length_cons, List.length_nil])
      exact ⟨h', _, hrun, hW', hW'.spec_invariant⟩
    · intro pos hpos
      obtain ⟨A, B, hAB, hp⟩ := mem_split_last hpos
      have hL : Linked h l hd (A ++ B) tl := hAB ▸ hW.1
      obtain ⟨h', hrun, hL', _⟩ := insert_spec hL v
      have hW' := hwf h' _ hL'
        (by rw [hAB]; simp only [List.length_append, List.length_cons, List.length_nil]; omega)
      exact ⟨A, B, _, h', _, hAB, hp, hp ▸ hrun, hW', hW'.spec_invariant⟩
  · intro hne
    rcases List.eq_nil_or_concat (pre ++ mid ++ post) with e | ⟨init, n, e⟩
    · exact absurd e hne
    · rw [List.concat_eq_append] at e
      have hW2 : WellFormed h l hd (init ++ [n]) tl := e ▸ hW
      obtain ⟨h', hrun, hW', _⟩ := pop_spec hW2
      exact ⟨init, n, _, h', _, e, hrun, hW', hW'.spec_invariant⟩
  · obtain ⟨h', l', hrun, hW', _⟩ := remove_spec hW
      (show mid.length < fuel by simp at hf; omega)
    exact ⟨h', l', hrun, hW', hW'.spec_invariant⟩
  · obtain ⟨h', hrun, hW', _⟩ := clear_spec hW hf
    exact ⟨h', _, hrun, hW', hW'.spec_invariant⟩

theorem invariant_preserved_witness :
    (∃ h' l' hd0 tl0, list.ctor (Heap.empty : Heap Nat) = .ok (h', l') ∧
      WellFormed h' l' hd0 [] tl0 ∧ SpecInvariant h' l' hd0 [] tl0) ∧
    WellFormed example_heap example_list 1 ([2] ++ [3] ++ [4]) 0 ∧
    SpecInvariant example_heap example_list 1 ([2] ++ [3] ++ [4]) 0 ∧
    ((∃ h' l', example_list.push_back example_heap 7 = .ok (h', l') ∧
        WellFormed h' l' 1 ([2] ++ [3] ++ [4] ++ [example_heap.brk]) 0 ∧
        SpecInvariant h' l' 1 ([2] ++ [3] ++ [4] ++ [example_heap.brk]) 0) ∧
      (∃ h' l', example_list.push_front example_heap 7 = .ok (h', l') ∧
        WellFormed h' l' 1 (example_heap.brk :: ([2] ++ [3] ++ [4])) 0 ∧
        SpecInvariant h' l' 1 (example_heap.brk :: ([2] ++ [3] ++ [4])) 0) ∧
      (∀ pos ∈ 1 :: ([2] ++ [3] ++ [4]), ∃ A B it h' l', [2] ++ [3] ++ [4] = A ++ B ∧
        pos = last_of 1 A ∧ example_list.insert example_heap ⟨some pos⟩ 7 = .ok (it, h', l') ∧
        WellFormed h' l' 1 (A ++ [example_heap.brk] ++ B) 0 ∧
        SpecInvariant h' l' 1 (A ++ [example_heap.brk] ++ B) 0)) ∧
    ([2] ++ [3] ++ [4] ≠ [] → ∃ init n x h' l', [2] ++ [3] ++ [4] = init ++ [n] ∧
      example_list.pop example_heap = .ok (x, h', l') ∧ WellFormed h' l' 1 init 0 ∧
      SpecInvariant h' l' 1 init 0) ∧
    (∃ h' l', example_list.remove 4 example_heap ⟨some (first_of ([3] ++ [4]) 0)⟩
        ⟨some (first_of [4] 0)⟩ = .ok (h', l') ∧
      WellFormed h' l' 1 ([2] ++ [4]) 0 ∧ SpecInvariant h' l' 1 ([2] ++ [4]) 0) ∧
    (∃ h' l', example_list.clear 4 example_heap = .ok (h', l') ∧ WellFormed h' l' 1 [] 0 ∧
      SpecInvariant h' l' 1 [] 0) :=
  ⟨(invariant_preserved (Heap.empty : Heap Nat)).1, example_well_formed,
    ((invariant_preserved example_heap).2 example_list 1 0 [2] [3] [4] example_well_formed
      7 4 (by decide)).1,
    ((invariant_preserved example_heap).2 example_list 1 0 [2] [3] [4] example_well_formed
      7 4 (by decide)).2.1 (by decide),
    ((invariant_preserved example_heap).2 example_list 1 0 [2] [3] [4] example_well_formed
      7 4 (by decide)).2.2⟩

end bmstu
